import Mathlib

/-!
# Verification of the ReduceGotos pass (`opt/reduce-gotos/ReduceGotos.cpp`)

This development gives a shallow embedding of `ReduceGotosPass::process_code`
and settles the specified properties of the pass against it.

The embedding models the external CFG/IR collaborators the way the pass
consumes them (the spec's section 6 interface): blocks are ordered
instruction lists addressed by a numeric id, edges are typed arcs addressed
by a stable numeric handle, and the layout order is an abstract enumeration
of block ids supplied by the environment (a parameter `orderFn`).
Machine registers hold mathematical integers; the wide/narrow flag is kept
as a tag on instructions exactly where the pass compares it.
-/

namespace ReduceGotos

/-! ## Instruction model -/

/-- Conditional-branch condition kinds, matching the Dex `if-*` families:
two-register comparisons and comparisons against zero. -/
inductive CondOp
  | ceq | cne | clt | cge | cgt | cle
  | ceqz | cnez | cltz | cgez | cgtz | clez
deriving DecidableEq, Repr

/-- The logically inverted opcode of a conditional branch
(`opcode::invert_conditional_branch`). -/
def invertCond : CondOp → CondOp
  | .ceq => .cne
  | .cne => .ceq
  | .clt => .cge
  | .cge => .clt
  | .cgt => .cle
  | .cle => .cgt
  | .ceqz => .cnez
  | .cnez => .ceqz
  | .cltz => .cgez
  | .cgez => .cltz
  | .cgtz => .clez
  | .clez => .cgtz

/-- Instructions, as the pass classifies them: moves, returns
(void or value), conditional branches, and all other register-writing
instructions (kept abstract via an opaque `code` that determines the
computed value).  Gotos are not instructions: in the editable CFG the pass
operates on, unconditional control transfer is represented by GOTO edges. -/
inductive Insn
  | move (wide : Bool) (dst : Nat) (srcR : Nat)
  | ret (wide : Bool) (srcR : Option Nat)
  | ifbr (c : CondOp) (a : Nat) (b : Option Nat)
  | other (dst : Nat) (srcs : List Nat) (code : Int)
deriving DecidableEq, Repr

/-- `is_move`. -/
def isMove : Insn → Bool
  | .move .. => true
  | _ => false

/-- `is_return`. -/
def isRet : Insn → Bool
  | .ret .. => true
  | _ => false

/-- Whether the last instruction is a conditional branch; the only aspect of
`Block::branchingness() == opcode::BRANCH_IF` the pass consumes. -/
def isIfbr : Insn → Bool
  | .ifbr .. => true
  | _ => false

/-- The ordered source-register list of an instruction (`srcs`). -/
def insnSrcs : Insn → List Nat
  | .move _ _ s => [s]
  | .ret _ (some r) => [r]
  | .ret _ none => []
  | .ifbr _ a (some y) => [a, y]
  | .ifbr _ a none => [a]
  | .other _ ss _ => ss

/-- Destination register (`dest`); only queried on moves by the pass. -/
def insnDest : Insn → Nat
  | .move _ d _ => d
  | .other d _ _ => d
  | _ => 0

/-- Width flag (`is_wide`). -/
def insnWide : Insn → Bool
  | .move w _ _ => w
  | .ret w _ => w
  | _ => false

/-- `set_src(0, s)`. -/
def insnSetSrc0 (i : Insn) (s : Nat) : Insn :=
  match i with
  | .move w d _ => .move w d s
  | .ret w (some _) => .ret w (some s)
  | .ifbr c _ y => .ifbr c s y
  | .other d ss c => .other d ss c
  | .ret w none => .ret w none

/-! ## CFG model -/

/-- Edge types; the pass only distinguishes GOTO, BRANCH and everything
else (exception edges etc.). -/
inductive EdgeTy
  | goto | branch | ethrow
deriving DecidableEq, Repr

/-- A directed edge: a stable handle `eid`, source and target block ids,
and a type tag. -/
structure Edge where
  eid : Nat
  src : Nat
  tgt : Nat
  ty : EdgeTy
deriving DecidableEq, Repr

/-- A basic block: id plus ordered instruction list. -/
structure Blk where
  bid : Nat
  insns : List Insn
deriving DecidableEq, Repr

/-- A control-flow graph: the block set and the edge set of one method. -/
structure CFG where
  blocks : List Blk
  edges : List Edge
deriving DecidableEq, Repr

/-- Fetch a block by id. -/
def getBlk (cfg : CFG) (i : Nat) : Option Blk :=
  cfg.blocks.find? (fun b => b.bid == i)

/-- Update (in place) the instruction list of the block with id `i`. -/
def updateBlkList : List Blk → Nat → (List Insn → List Insn) → List Blk
  | [], _, _ => []
  | b :: rest, i, f =>
    if b.bid == i then ⟨b.bid, f b.insns⟩ :: rest
    else b :: updateBlkList rest i f

/-- Update a block's instructions inside the CFG. -/
def CFG.updBlk (cfg : CFG) (i : Nat) (f : List Insn → List Insn) : CFG :=
  ⟨updateBlkList cfg.blocks i f, cfg.edges⟩

/-- The predecessor edge list of block `i` (`Block::preds`). -/
def predEdges (cfg : CFG) (i : Nat) : List Edge :=
  cfg.edges.filter (fun e => e.tgt == i)

/-- The successor edge of block `i` with type `t`, on a raw edge list
(`ControlFlowGraph::get_succ_edge_of_type`; null when absent). -/
def succEdgeOfTypeL (edges : List Edge) (i : Nat) (t : EdgeTy) : Option Edge :=
  edges.find? (fun e => e.src == i && e.ty == t)

/-- The successor edge of block `i` with type `t`. -/
def succEdgeOfType (cfg : CFG) (i : Nat) (t : EdgeTy) : Option Edge :=
  succEdgeOfTypeL cfg.edges i t

/-- Retarget the edge with handle `eid` to `nt`, leaving other edges (and
the edge's own handle, source and type tag) alone. -/
def retargetFn (eid : Nat) (nt : Nat) (e : Edge) : Edge :=
  if e.eid == eid then ⟨e.eid, e.src, nt, e.ty⟩ else e

/-- `set_edge_target`: retarget the edge with handle `eid`. -/
def setEdgeTarget (cfg : CFG) (eid : Nat) (nt : Nat) : CFG :=
  ⟨cfg.blocks, cfg.edges.map (retargetFn eid nt)⟩

/-- `delete_edge`: remove the edge with handle `eid`. -/
def deleteEdge (cfg : CFG) (eid : Nat) : CFG :=
  ⟨cfg.blocks, cfg.edges.filter (fun e => e.eid != eid)⟩

/-! ## Statistics -/

/-- `ReduceGotosPass::Stats`: three independent counters. -/
structure Stats where
  replaced_gotos_with_returns : Nat
  removed_trailing_moves : Nat
  inverted_conditional_branches : Nat
deriving DecidableEq, Repr

def Stats.incGotos (s : Stats) : Stats :=
  ⟨s.replaced_gotos_with_returns + 1, s.removed_trailing_moves,
   s.inverted_conditional_branches⟩

def Stats.incMoves (s : Stats) : Stats :=
  ⟨s.replaced_gotos_with_returns, s.removed_trailing_moves + 1,
   s.inverted_conditional_branches⟩

def Stats.incInverted (s : Stats) : Stats :=
  ⟨s.replaced_gotos_with_returns, s.removed_trailing_moves,
   s.inverted_conditional_branches + 1⟩

/-- Fatal conditions: a failed `always_assert` (malformed CFG), or
exhaustion of the termination budget of the fixpoint loop (proved
unreachable below). -/
inductive PErr
  | missingEdge
  | fuelExhausted
deriving DecidableEq, Repr

/-! ## Optimization 1 — conditional branch inversion -/

/-- The body of Optimization 1's loop for one block `i`:
if the block ends in a conditional branch, locate its unique GOTO and
BRANCH successor edges (`always_assert` both exist), and if the GOTO
target has more than one predecessor while the BRANCH target has exactly
one, invert the branch opcode and swap the two edges' targets. -/
def opt1Block (st : CFG × Stats) (i : Nat) : Except PErr (CFG × Stats) :=
  let cfg := st.1
  let stats := st.2
  match getBlk cfg i with
  | none => .ok st
  | some b =>
    match b.insns.getLast? with
    | some (.ifbr c a ob) =>
      match succEdgeOfType cfg i .goto, succEdgeOfType cfg i .branch with
      | some ge, some be =>
        if (predEdges cfg ge.tgt).length > 1 &&
           (predEdges cfg be.tgt).length == 1 then
          let stats' := stats.incInverted
          let cfg' := cfg.updBlk i
            (fun l => l.dropLast ++ [.ifbr (invertCond c) a ob])
          let gt := ge.tgt
          let bt := be.tgt
          let cfg'' := setEdgeTarget (setEdgeTarget cfg' be.eid gt) ge.eid bt
          .ok (cfg'', stats')
        else .ok (cfg, stats)
      | _, _ => .error .missingEdge
    | _ => .ok (cfg, stats)

/-- Optimization 1's loop over a list of block ids. -/
def opt1Go : List Nat → CFG × Stats → Except PErr (CFG × Stats)
  | [], st => .ok st
  | i :: rest, st =>
    match opt1Block st i with
    | .error e => .error e
    | .ok st2 => opt1Go rest st2

/-- Optimization 1: one pass over all blocks of the CFG. -/
def opt1 (cfg : CFG) (stats : Stats) : Except PErr (CFG × Stats) :=
  opt1Go (cfg.blocks.map Blk.bid) (cfg, stats)

/-! ## Optimization 2 — goto-to-return folding -/

/-- Accumulated scan state of one iteration of Optimization 2:
the mutated CFG, the statistics, the `rerun` flag, and the handles of the
edges queued for deletion (`edges_to_delete`). -/
structure ScanSt where
  cfg : CFG
  stats : Stats
  rerun : Bool
  queue : List Nat
deriving Repr

/-- The trailing-move test of Optimization 2: when the cloned return `retI`
consumes a source register, look at the last instruction of the source
block `srcId`; if it is a move whose destination equals the return's source
register with a matching wide flag, produce the move's own source register
(the operand the clone is rewritten to).  Mirrors the guarded block around
`removed_trailing_move` in `process_code`. -/
def trailingMoveOf (cfg : CFG) (srcId : Nat) (retI : Insn) : Option Nat :=
  match insnSrcs retI with
  | [] => none
  | r0 :: _ =>
    match (getBlk cfg srcId).bind (fun b => b.insns.getLast?) with
    | some li =>
      if isMove li && insnDest li == r0 && insnWide li == insnWide retI
      then some ((insnSrcs li).headD 0)
      else none
    | none => none

/-- Process one predecessor edge `e` of a foldable block whose single
return instruction is `retI`; `prev` is the block id immediately preceding
the foldable block in the snapshotted layout order (none at the front).
Mirrors the per-edge body of Optimization 2: skip non-GOTO edges; clone
the return; eliminate a matching trailing move of the source block
(rewriting the clone's operand, removing the move, counting it and
requesting a rerun); otherwise skip the edge if the source is the layout
predecessor; finally append the (possibly rewritten) clone to the source
and queue the edge for deletion. -/
def processEdge (retI : Insn) (prev : Option Nat) (st : ScanSt) (e : Edge) :
    ScanSt :=
  if e.ty != .goto then st
  else
    let srcId := e.src
    match trailingMoveOf st.cfg srcId retI with
    | some ms =>
      let cloned := insnSetSrc0 retI ms
      let cfg2 := (st.cfg.updBlk srcId List.dropLast).updBlk srcId
        (fun l => l ++ [cloned])
      ⟨cfg2, st.stats.incMoves, true, st.queue ++ [e.eid]⟩
    | none =>
      if prev == some srcId then st
      else
        ⟨st.cfg.updBlk srcId (fun l => l ++ [retI]), st.stats, st.rerun,
         st.queue ++ [e.eid]⟩

/-- Process one block of the layout-order scan: if it currently consists of
exactly one instruction and that instruction is a return, fold every
predecessor edge. -/
def processBlock (prev : Option Nat) (st : ScanSt) (i : Nat) : ScanSt :=
  match getBlk st.cfg i with
  | none => st
  | some b =>
    match b.insns with
    | [retI] =>
      if isRet retI then (predEdges st.cfg i).foldl (processEdge retI prev) st
      else st
    | _ => st

/-- Scan all blocks in layout order, tracking the previous block id. -/
def scanGo (prev : Option Nat) : List Nat → ScanSt → ScanSt
  | [], st => st
  | i :: rest, st => scanGo (some i) rest (processBlock prev st i)

/-- Delete all queued edges in one batch, incrementing the
gotos-replaced-with-returns counter once per queued edge. -/
def deleteQueuedGo : List Nat → CFG → Stats → CFG × Stats
  | [], cfg, stats => (cfg, stats)
  | i :: rest, cfg, stats => deleteQueuedGo rest (deleteEdge cfg i) stats.incGotos

/-- One iteration of Optimization 2's fixpoint loop: scan in the given
layout order, then delete the queued edges; return the rerun flag. -/
def opt2Iter (order : List Nat) (cfg : CFG) (stats : Stats) :
    CFG × Stats × Bool :=
  let st := scanGo none order ⟨cfg, stats, false, []⟩
  let p := deleteQueuedGo st.queue st.cfg st.stats
  (p.1, p.2, st.rerun)

/-- Optimization 2's do-while loop.  The layout `order` is computed once,
before the first iteration, and reused verbatim by every rerun iteration;
`fuel` bounds the number of iterations (the pass's loop carries no bound —
one is proved sufficient below, so the bound is not observable). -/
def opt2Loop (order : List Nat) : Nat → CFG → Stats → Option (CFG × Stats)
  | 0, _, _ => none
  | fuel + 1, cfg, stats =>
    let r := opt2Iter order cfg stats
    if r.2.2 then opt2Loop order fuel r.1 r.2.1 else some (r.1, r.2.1)

/-- Number of move instructions in an instruction list. -/
def moveCountL (l : List Insn) : Nat := (l.filter isMove).length

/-- Total number of move instructions in the CFG; the termination measure
of Optimization 2's fixpoint loop. -/
def moveCount (cfg : CFG) : Nat :=
  (cfg.blocks.map (fun b => moveCountL b.insns)).sum

/-- `ReduceGotosPass::process_code`: Optimization 1 over all blocks, then
Optimization 2 run to fixpoint using the layout order snapshotted (via the
environment-provided `orderFn`, standing for `cfg.order()`) after
Optimization 1. -/
def process_code (orderFn : CFG → List Nat) (cfg : CFG) :
    Except PErr (CFG × Stats) :=
  match opt1 cfg ⟨0, 0, 0⟩ with
  | .error e => .error e
  | .ok (cfg1, stats1) =>
    match opt2Loop (orderFn cfg1) (moveCount cfg1 + 1) cfg1 stats1 with
    | some r => .ok r
    | none => .error .fuelExhausted

/-- Modelled from the spec: the variant of Optimization 2's loop claimed by
the spec's step 4, in which the block order is *recomputed* at the start of
every rerun iteration ("If any trailing move was eliminated this iteration,
recompute the block order and repeat from step 1").  Used to compare with
the pass's actual loop, which snapshots the order once. -/
def opt2LoopRecompute (orderFn : CFG → List Nat) :
    Nat → CFG → Stats → Option (CFG × Stats)
  | 0, _, _ => none
  | fuel + 1, cfg, stats =>
    let r := opt2Iter (orderFn cfg) cfg stats
    if r.2.2 then opt2LoopRecompute orderFn fuel r.1 r.2.1
    else some (r.1, r.2.1)

/-! ## Well-formedness

The structural contracts the pass inherits from the external CFG builder
(spec sections 3 and 6): edge handles are stable and distinct, a block has
at most one outgoing GOTO and at most one outgoing BRANCH edge, and a
conditional branch only occurs as the last instruction of a block
("basic block: maximal straight-line instruction sequence"). -/

/-- Edge handles are pairwise distinct. -/
def EidsNodup (cfg : CFG) : Prop := (cfg.edges.map Edge.eid).Nodup

/-- At most one GOTO and at most one BRANCH edge leave any block. -/
def OutEdgesUnique (cfg : CFG) : Prop :=
  cfg.edges.Pairwise
    (fun a b => ¬(a.src = b.src ∧ a.ty = b.ty ∧ (a.ty = .goto ∨ a.ty = .branch)))

/-- Conditional branches appear only as block terminators. -/
def NoMidIf (cfg : CFG) : Prop :=
  ∀ b ∈ cfg.blocks, ∀ i ∈ b.insns.dropLast, isIfbr i = false

/-- Whether a block's terminal instruction is a conditional branch. -/
def lastIsIfbr (l : List Insn) : Bool :=
  match l.getLast? with
  | some i => isIfbr i
  | none => false

/-- The edge invariant of the spec's data model: a block terminated by a
conditional branch has exactly one outgoing GOTO edge and exactly one
outgoing BRANCH edge. -/
def EdgeInvariant (cfg : CFG) : Prop :=
  ∀ b ∈ cfg.blocks, lastIsIfbr b.insns = true →
    (cfg.edges.filter
      (fun e => e.src == b.bid && e.ty == EdgeTy.goto)).length = 1 ∧
    (cfg.edges.filter
      (fun e => e.src == b.bid && e.ty == EdgeTy.branch)).length = 1

/-! ## Operational semantics

Execution of a CFG: registers hold integers, a block executes its
instructions in order; a return ends execution with the returned value, a
taken conditional branch follows the block's BRANCH edge, and falling off
the end of a block follows its GOTO edge (the editable CFG represents
gotos as edges).  `exec` spends one unit of fuel per visited block, so
that termination is the existence of a sufficient fuel. -/

/-- A register file. -/
abbrev Regs := Nat → Int

/-- Register update. -/
def upd (r : Regs) (d : Nat) (v : Int) : Regs :=
  fun i => if i = d then v else r i

/-- Observable result of running a method: the returned value
(none for a void return), or being stuck on a malformed graph. -/
inductive Outcome
  | retv (v : Option Int)
  | stuck
deriving DecidableEq, Repr

/-- Result of executing a straight-line instruction suffix: a final
outcome, falling off the end, or jumping to a block. -/
inductive StepRes
  | done (o : Outcome)
  | fall (r : Regs)
  | jmp (t : Nat) (r : Regs)

/-- Truth value of a conditional-branch condition. -/
def evalCond : CondOp → Int → Int → Bool
  | .ceq, a, b => a == b
  | .cne, a, b => a != b
  | .clt, a, b => decide (a < b)
  | .cge, a, b => decide (b ≤ a)
  | .cgt, a, b => decide (b < a)
  | .cle, a, b => decide (a ≤ b)
  | .ceqz, a, _ => a == 0
  | .cnez, a, _ => a != 0
  | .cltz, a, _ => decide (a < 0)
  | .cgez, a, _ => decide (0 ≤ a)
  | .cgtz, a, _ => decide (0 < a)
  | .clez, a, _ => decide (a ≤ 0)

/-- Evaluate a conditional branch's condition on the register file. -/
def evalIf (c : CondOp) (a : Nat) (ob : Option Nat) (r : Regs) : Bool :=
  evalCond c (r a) (match ob with | some y => r y | none => 0)

/-- Value computed by an `other` instruction (abstract but fixed). -/
def interpOther (code : Int) (vs : List Int) : Int := code + vs.sum

/-- Execute a straight-line instruction list inside block `i`. -/
def runList (edges : List Edge) (i : Nat) : List Insn → Regs → StepRes
  | [], r => .fall r
  | insn :: rest, r =>
    match insn with
    | .move _ d s => runList edges i rest (upd r d (r s))
    | .ret _ os => .done (.retv (os.map r))
    | .other d ss c => runList edges i rest (upd r d (interpOther c (ss.map r)))
    | .ifbr c a ob =>
      if evalIf c a ob r then
        match succEdgeOfTypeL edges i .branch with
        | some e => .jmp e.tgt r
        | none => .done .stuck
      else runList edges i rest r

/-- Execute the CFG starting at block `i`, spending one unit of fuel per
visited block; `none` means the fuel ran out. -/
def exec (cfg : CFG) : Nat → Nat → Regs → Option Outcome
  | 0, _, _ => none
  | fuel + 1, i, r =>
    match getBlk cfg i with
    | none => some .stuck
    | some b =>
      match runList cfg.edges i b.insns r with
      | .done o => some o
      | .jmp t r2 => exec cfg fuel t r2
      | .fall r2 =>
        match succEdgeOfTypeL cfg.edges i .goto with
        | some e => exec cfg fuel e.tgt r2
        | none => some .stuck

/-- Execution from block `i` on registers `r` terminates with outcome `o`. -/
def Terminates (cfg : CFG) (i : Nat) (r : Regs) (o : Outcome) : Prop :=
  ∃ fuel, exec cfg fuel i r = some o

/-- Two CFGs have identical observable behavior from every entry block and
register file. -/
def SemEq (c c2 : CFG) : Prop :=
  ∀ i r o, Terminates c i r o ↔ Terminates c2 i r o

/-! ## Basic structural lemmas -/

theorem updBlk_edges (cfg : CFG) (i : Nat) (f : List Insn → List Insn) :
    (cfg.updBlk i f).edges = cfg.edges := rfl

theorem setEdgeTarget_blocks (cfg : CFG) (eid nt : Nat) :
    (setEdgeTarget cfg eid nt).blocks = cfg.blocks := rfl

theorem deleteEdge_blocks (cfg : CFG) (eid : Nat) :
    (deleteEdge cfg eid).blocks = cfg.blocks := rfl

theorem getBlk_setEdgeTarget (cfg : CFG) (eid nt : Nat) (j : Nat) :
    getBlk (setEdgeTarget cfg eid nt) j = getBlk cfg j := rfl

theorem getBlk_deleteEdge (cfg : CFG) (eid : Nat) (j : Nat) :
    getBlk (deleteEdge cfg eid) j = getBlk cfg j := rfl

theorem updateBlkList_bids (i : Nat) (f : List Insn → List Insn) :
    ∀ bs : List Blk, (updateBlkList bs i f).map Blk.bid = bs.map Blk.bid := by
  intro bs
  induction bs with
  | nil => rfl
  | cons b rest ih =>
    simp only [updateBlkList]
    split
    · simp
    · simpa using ih

theorem updBlk_bids (cfg : CFG) (i : Nat) (f : List Insn → List Insn) :
    (cfg.updBlk i f).blocks.map Blk.bid = cfg.blocks.map Blk.bid :=
  updateBlkList_bids i f cfg.blocks

theorem updateBlkList_find?_self (i : Nat) (f : List Insn → List Insn) :
    ∀ (bs : List Blk) (b : Blk),
      bs.find? (fun x => x.bid == i) = some b →
      (updateBlkList bs i f).find? (fun x => x.bid == i)
        = some ⟨b.bid, f b.insns⟩ := by
  intro bs
  induction bs with
  | nil => intro b h; simp [List.find?] at h
  | cons x rest ih =>
    intro b h
    by_cases hx : x.bid = i
    · rw [List.find?_cons_of_pos _ (by simp [hx])] at h
      cases h
      simp only [updateBlkList]
      rw [if_pos (by simp [hx])]
      rw [List.find?_cons_of_pos _ (by simp [hx])]
    · rw [List.find?_cons_of_neg _ (by simpa using hx)] at h
      simp only [updateBlkList]
      rw [if_neg (by simpa using hx)]
      rw [List.find?_cons_of_neg _ (by simpa using hx)]
      exact ih b h

theorem getBlk_updBlk_self (cfg : CFG) (i : Nat) (f : List Insn → List Insn)
    (b : Blk) (h : getBlk cfg i = some b) :
    getBlk (cfg.updBlk i f) i = some ⟨b.bid, f b.insns⟩ :=
  updateBlkList_find?_self i f cfg.blocks b h

theorem updateBlkList_find?_ne (i : Nat) (f : List Insn → List Insn)
    (j : Nat) (h : j ≠ i) :
    ∀ bs : List Blk,
      (updateBlkList bs i f).find? (fun x => x.bid == j)
        = bs.find? (fun x => x.bid == j) := by
  intro bs
  induction bs with
  | nil => rfl
  | cons x rest ih =>
    by_cases hx : x.bid = i
    · simp only [updateBlkList]
      rw [if_pos (by simp [hx])]
      rw [List.find?_cons_of_neg _ (by simp [hx, Ne.symm h]),
          List.find?_cons_of_neg _ (by simp [hx, Ne.symm h])]
    · simp only [updateBlkList]
      rw [if_neg (by simpa using hx)]
      by_cases hj : x.bid = j
      · rw [List.find?_cons_of_pos _ (by simp [hj]),
            List.find?_cons_of_pos _ (by simp [hj])]
      · rw [List.find?_cons_of_neg _ (by simpa using hj),
            List.find?_cons_of_neg _ (by simpa using hj)]
        exact ih

theorem getBlk_updBlk_ne (cfg : CFG) (i : Nat) (f : List Insn → List Insn)
    (j : Nat) (h : j ≠ i) :
    getBlk (cfg.updBlk i f) j = getBlk cfg j :=
  updateBlkList_find?_ne i f j h cfg.blocks

theorem getBlk_updBlk_none (cfg : CFG) (i : Nat) (f : List Insn → List Insn)
    (h : getBlk cfg i = none) : cfg.updBlk i f = cfg := by
  unfold getBlk at h
  rw [List.find?_eq_none] at h
  have key : ∀ bs : List Blk, (∀ b ∈ bs, ¬(b.bid == i) = true) →
      updateBlkList bs i f = bs := by
    intro bs
    induction bs with
    | nil => intro _; rfl
    | cons x rest ih =>
      intro hall
      simp only [updateBlkList]
      rw [if_neg (hall x (by simp))]
      rw [ih (fun b hb => hall b (by simp [hb]))]
  show CFG.mk (updateBlkList cfg.blocks i f) cfg.edges = cfg
  rw [key cfg.blocks h]

theorem updateBlkList_moves (i : Nat) (f : List Insn → List Insn) :
    ∀ (bs : List Blk) (b : Blk),
      bs.find? (fun x => x.bid == i) = some b →
      ((updateBlkList bs i f).map (fun x => moveCountL x.insns)).sum
          + moveCountL b.insns
        = (bs.map (fun x => moveCountL x.insns)).sum
          + moveCountL (f b.insns) := by
  intro bs
  induction bs with
  | nil => intro b h; simp [List.find?] at h
  | cons x rest ih =>
    intro b h
    by_cases hx : x.bid = i
    · rw [List.find?_cons_of_pos _ (by simp [hx])] at h
      cases h
      simp only [updateBlkList]
      rw [if_pos (by simp [hx])]
      simp only [List.map_cons, List.sum_cons]
      omega
    · rw [List.find?_cons_of_neg _ (by simpa using hx)] at h
      simp only [updateBlkList]
      rw [if_neg (by simpa using hx)]
      simp only [List.map_cons, List.sum_cons]
      have := ih b h
      omega

/-- Exact effect of a block update on the global move count. -/
theorem moveCount_updBlk (cfg : CFG) (i : Nat) (f : List Insn → List Insn)
    (b : Blk) (h : getBlk cfg i = some b) :
    moveCount (cfg.updBlk i f) + moveCountL b.insns
      = moveCount cfg + moveCountL (f b.insns) :=
  updateBlkList_moves i f cfg.blocks b h

theorem moveCountL_append_single (l : List Insn) (x : Insn) :
    moveCountL (l ++ [x]) = moveCountL l + (if isMove x then 1 else 0) := by
  unfold moveCountL
  rw [List.filter_append]
  simp only [List.filter]
  split <;> simp_all

theorem moveCountL_dropLast (l : List Insn) (x : Insn)
    (h : l.getLast? = some x) :
    moveCountL l = moveCountL l.dropLast + (if isMove x then 1 else 0) := by
  conv_lhs => rw [← List.dropLast_append_getLast? x h]
  exact moveCountL_append_single _ _

/-- `find?` returns the unique element satisfying the predicate. -/
theorem find?_eq_of_unique (p : α → Bool) (l : List α) (a : α)
    (ha : a ∈ l) (hpa : p a) (huniq : ∀ b ∈ l, p b → b = a) :
    l.find? p = some a := by
  induction l with
  | nil => cases ha
  | cons x rest ih =>
    by_cases hx : p x
    · rw [List.find?_cons_of_pos _ hx]
      rw [huniq x (by simp) hx]
    · rw [List.find?_cons_of_neg _ hx]
      rcases List.mem_cons.mp ha with h | h
      · subst h; exact absurd hpa hx
      · exact ih h (fun b hb => huniq b (by simp [hb]))

/-! ## Edge lemmas -/

theorem retargetFn_src (eid nt : Nat) (e : Edge) :
    (retargetFn eid nt e).src = e.src := by
  unfold retargetFn; split <;> rfl

theorem retargetFn_ty (eid nt : Nat) (e : Edge) :
    (retargetFn eid nt e).ty = e.ty := by
  unfold retargetFn; split <;> rfl

theorem retargetFn_eid (eid nt : Nat) (e : Edge) :
    (retargetFn eid nt e).eid = e.eid := by
  unfold retargetFn; split <;> rfl

theorem retargetFn_of_ne (eid nt : Nat) (e : Edge) (h : e.eid ≠ eid) :
    retargetFn eid nt e = e := by
  unfold retargetFn; rw [if_neg (by simpa using h)]

theorem retargetFn_of_eq (eid nt : Nat) (e : Edge) (h : e.eid = eid) :
    retargetFn eid nt e = ⟨e.eid, e.src, nt, e.ty⟩ := by
  unfold retargetFn; rw [if_pos (by simpa using h)]

theorem setEdgeTarget_edges (cfg : CFG) (eid nt : Nat) :
    (setEdgeTarget cfg eid nt).edges = cfg.edges.map (retargetFn eid nt) := rfl

theorem succEdgeOfTypeL_map_retarget (E : List Edge) (eid nt : Nat)
    (i : Nat) (t : EdgeTy) :
    succEdgeOfTypeL (E.map (retargetFn eid nt)) i t
      = (succEdgeOfTypeL E i t).map (retargetFn eid nt) := by
  unfold succEdgeOfTypeL
  have hfun : ((fun e : Edge => e.src == i && e.ty == t) ∘ retargetFn eid nt)
      = (fun e : Edge => e.src == i && e.ty == t) := by
    funext e
    simp [Function.comp, retargetFn_src, retargetFn_ty]
  rw [List.find?_map, hfun]

theorem succEdgeOfTypeL_props (E : List Edge) (i : Nat) (t : EdgeTy)
    (e : Edge) (h : succEdgeOfTypeL E i t = some e) :
    e ∈ E ∧ e.src = i ∧ e.ty = t := by
  unfold succEdgeOfTypeL at h
  refine ⟨List.mem_of_find?_eq_some h, ?_⟩
  have hp := List.find?_some h
  simpa using hp

/-- Under the at-most-one-GOTO/BRANCH-per-source invariant, a present
GOTO or BRANCH edge is exactly what `get_succ_edge_of_type` returns. -/
theorem succEdgeOfTypeL_of_mem (E : List Edge)
    (hu : E.Pairwise (fun a b =>
      ¬(a.src = b.src ∧ a.ty = b.ty ∧ (a.ty = .goto ∨ a.ty = .branch))))
    (e : Edge) (he : e ∈ E) (ht : e.ty = .goto ∨ e.ty = .branch) :
    succEdgeOfTypeL E e.src e.ty = some e := by
  unfold succEdgeOfTypeL
  apply find?_eq_of_unique _ _ e he (by simp)
  intro b hb hpb
  by_contra hne
  have hsym : Symmetric (fun a b : Edge =>
      ¬(a.src = b.src ∧ a.ty = b.ty ∧ (a.ty = .goto ∨ a.ty = .branch))) := by
    intro a b hab hcon
    rcases hcon with ⟨h1, h2, h3⟩
    exact hab ⟨h1.symm, h2.symm, by rw [← h2]; exact h3⟩
  have := hu.forall hsym hb he hne
  simp only [Bool.and_eq_true, beq_iff_eq] at hpb
  exact this ⟨hpb.1, hpb.2, by rw [hpb.2]; exact ht⟩

/-- Distinct edge handles: the GOTO and BRANCH successor edges of a block
have different handles. -/
theorem goto_branch_eid_ne (cfg : CFG) (i : Nat) (ge be : Edge)
    (hn : EidsNodup cfg)
    (h3 : succEdgeOfType cfg i .goto = some ge)
    (h4 : succEdgeOfType cfg i .branch = some be) :
    ge.eid ≠ be.eid := by
  intro heq
  obtain ⟨hmg, _, htg⟩ := succEdgeOfTypeL_props _ _ _ _ h3
  obtain ⟨hmb, _, htb⟩ := succEdgeOfTypeL_props _ _ _ _ h4
  have := List.inj_on_of_nodup_map hn hmg hmb heq
  rw [this, htb] at htg
  cases htg

/-- C2: for every block whose terminal instruction is a conditional
branch, Optimization 1 inverts the terminal opcode and makes the GOTO and
BRANCH edges exchange destinations (keeping their type tags), incrementing
the inversion counter once, if and only if the GOTO target has more than
one predecessor and the BRANCH target exactly one; in every other case
block, edges and counter are unchanged. -/
theorem claim_C2 (cfg : CFG) (st : Stats) (i : Nat) (b : Blk) (c : CondOp)
    (a : Nat) (ob : Option Nat) (ge be : Edge)
    (hn : EidsNodup cfg)
    (h1 : getBlk cfg i = some b)
    (h2 : b.insns.getLast? = some (.ifbr c a ob))
    (h3 : succEdgeOfType cfg i .goto = some ge)
    (h4 : succEdgeOfType cfg i .branch = some be) :
    ((predEdges cfg ge.tgt).length > 1 ∧ (predEdges cfg be.tgt).length = 1 →
      ∃ cfg', opt1Block (cfg, st) i = .ok (cfg', st.incInverted) ∧
        getBlk cfg' i
          = some ⟨b.bid, b.insns.dropLast ++ [.ifbr (invertCond c) a ob]⟩ ∧
        succEdgeOfType cfg' i .goto = some ⟨ge.eid, ge.src, be.tgt, .goto⟩ ∧
        succEdgeOfType cfg' i .branch = some ⟨be.eid, be.src, ge.tgt, .branch⟩ ∧
        (∀ j, j ≠ i → getBlk cfg' j = getBlk cfg j)) ∧
    (¬((predEdges cfg ge.tgt).length > 1 ∧ (predEdges cfg be.tgt).length = 1) →
      opt1Block (cfg, st) i = .ok (cfg, st)) := by
  have hne : ge.eid ≠ be.eid := goto_branch_eid_ne cfg i ge be hn h3 h4
  obtain ⟨hmg, hsg, htg⟩ := succEdgeOfTypeL_props _ _ _ _ h3
  obtain ⟨hmb, hsb, htb⟩ := succEdgeOfTypeL_props _ _ _ _ h4
  constructor
  · rintro ⟨hc1, hc2⟩
    refine ⟨setEdgeTarget (setEdgeTarget
        (cfg.updBlk i (fun l => l.dropLast ++ [.ifbr (invertCond c) a ob]))
        be.eid ge.tgt) ge.eid be.tgt, ?_, ?_, ?_, ?_, ?_⟩
    · simp only [opt1Block, h1, h2, h3, h4]
      rw [if_pos (by simp [hc1, hc2])]
    · rw [getBlk_setEdgeTarget, getBlk_setEdgeTarget]
      exact getBlk_updBlk_self cfg i _ b h1
    · show succEdgeOfTypeL _ i .goto = _
      rw [setEdgeTarget_edges, setEdgeTarget_edges, updBlk_edges]
      rw [succEdgeOfTypeL_map_retarget, succEdgeOfTypeL_map_retarget]
      rw [show succEdgeOfTypeL cfg.edges i EdgeTy.goto = some ge from h3]
      simp only [Option.map_some']
      rw [retargetFn_of_ne _ _ _ hne, retargetFn_of_eq _ _ _ rfl, htg]
    · show succEdgeOfTypeL _ i .branch = _
      rw [setEdgeTarget_edges, setEdgeTarget_edges, updBlk_edges]
      rw [succEdgeOfTypeL_map_retarget, succEdgeOfTypeL_map_retarget]
      rw [show succEdgeOfTypeL cfg.edges i EdgeTy.branch = some be from h4]
      simp only [Option.map_some']
      rw [retargetFn_of_eq _ _ _ rfl]
      rw [retargetFn_of_ne _ _ _ (by simpa using hne.symm), htb]
    · intro j hj
      rw [getBlk_setEdgeTarget, getBlk_setEdgeTarget]
      exact getBlk_updBlk_ne cfg i _ j hj
  · intro hc
    simp only [opt1Block, h1, h2, h3, h4]
    rw [if_neg]
    intro hcon
    simp only [Bool.and_eq_true, decide_eq_true_eq, beq_iff_eq] at hcon
    exact hc ⟨hcon.1, hcon.2⟩

/-! ## Lemmas about Optimization 2's per-edge step -/

theorem processEdge_not_goto (retI : Insn) (prev : Option Nat) (st : ScanSt)
    (e : Edge) (h : e.ty ≠ .goto) : processEdge retI prev st e = st := by
  unfold processEdge
  rw [if_pos (by simpa using h)]

theorem moveCount_updBlk_append (cfg : CFG) (i : Nat) (x : Insn)
    (hx : isMove x = false) :
    moveCount (cfg.updBlk i (fun l => l ++ [x])) = moveCount cfg := by
  cases h : getBlk cfg i with
  | none => rw [getBlk_updBlk_none _ _ _ h]
  | some b =>
    have h2 := moveCount_updBlk cfg i (fun l => l ++ [x]) b h
    rw [moveCountL_append_single, hx] at h2
    simp at h2
    omega

/-- C3: during folding of a GOTO edge into a value-returning single-return
block, if and only if the source block's last instruction is a move whose
destination register equals the cloned return's source register with a
matching wide flag, the pass rewrites the clone's operand to the move's
source register, removes the move from the source block, increments the
trailing-moves-removed counter and requests a rerun; for a void return or
a non-matching (or absent) last instruction, no move is removed. -/
theorem claim_C3 (st : ScanSt) (e : Edge) (retI : Insn) (prev : Option Nat)
    (he : e.ty = .goto) :
    (∀ w r0 s sb, retI = .ret w (some r0) →
      getBlk st.cfg e.src = some sb →
      sb.insns.getLast? = some (.move w r0 s) →
      ∃ cfg2,
        processEdge retI prev st e
          = ⟨cfg2, st.stats.incMoves, true, st.queue ++ [e.eid]⟩ ∧
        getBlk cfg2 e.src
          = some ⟨sb.bid, sb.insns.dropLast ++ [.ret w (some s)]⟩ ∧
        (∀ j, j ≠ e.src → getBlk cfg2 j = getBlk st.cfg j) ∧
        cfg2.edges = st.cfg.edges) ∧
    (∀ w, retI = .ret w none →
      (processEdge retI prev st e).stats.removed_trailing_moves
          = st.stats.removed_trailing_moves ∧
      moveCount (processEdge retI prev st e).cfg = moveCount st.cfg) ∧
    (isRet retI = true →
      ((getBlk st.cfg e.src).bind (fun b => b.insns.getLast?) = none ∨
       (∃ li, (getBlk st.cfg e.src).bind (fun b => b.insns.getLast?) = some li ∧
         ¬(isMove li = true ∧ insnDest li = (insnSrcs retI).headD 0 ∧
           insnWide li = insnWide retI))) →
      (processEdge retI prev st e).stats.removed_trailing_moves
          = st.stats.removed_trailing_moves ∧
      moveCount (processEdge retI prev st e).cfg = moveCount st.cfg) := by
  refine ⟨?_, ?_, ?_⟩
  · intro w r0 s sb hret hsb hlast
    subst hret
    have helim : trailingMoveOf st.cfg e.src (.ret w (some r0)) = some s := by
      simp [trailingMoveOf, insnSrcs, hsb, hlast, isMove, insnDest, insnWide]
    refine ⟨((st.cfg.updBlk e.src List.dropLast).updBlk e.src
        (fun l => l ++ [insnSetSrc0 (.ret w (some r0)) s])), ?_, ?_, ?_, rfl⟩
    · simp only [processEdge, helim]
      rw [if_neg (by simp [he])]
    · have g1 := getBlk_updBlk_self st.cfg e.src List.dropLast sb hsb
      have g2 := getBlk_updBlk_self (st.cfg.updBlk e.src List.dropLast) e.src
        (fun l => l ++ [insnSetSrc0 (.ret w (some r0)) s]) _ g1
      simpa [insnSetSrc0] using g2
    · intro j hj
      rw [getBlk_updBlk_ne _ _ _ j hj, getBlk_updBlk_ne _ _ _ j hj]
  · intro w hret
    subst hret
    have helim : trailingMoveOf st.cfg e.src (.ret w none) = none := by
      simp [trailingMoveOf, insnSrcs]
    simp only [processEdge, helim]
    rw [if_neg (by simp [he])]
    split
    · exact ⟨rfl, rfl⟩
    · refine ⟨rfl, ?_⟩
      exact moveCount_updBlk_append _ _ _ (by simp [isMove])
  · intro hisret hno
    have helim : trailingMoveOf st.cfg e.src retI = none := by
      unfold trailingMoveOf
      rcases hsrcs : insnSrcs retI with _ | ⟨r0, rest⟩
      · exact rfl
      · rcases hb : (getBlk st.cfg e.src).bind (fun b => b.insns.getLast?)
          with _ | li
        · exact rfl
        · show (if (isMove li && insnDest li == r0
                && insnWide li == insnWide retI) = true
              then some ((insnSrcs li).headD 0) else none) = none
          rcases hno with hnone | ⟨li2, hli2, hnm⟩
          · rw [hnone] at hb; cases hb
          · rw [hli2] at hb
            cases hb
            rw [if_neg]
            intro hcon
            simp only [Bool.and_eq_true, beq_iff_eq] at hcon
            exact hnm ⟨hcon.1.1, by rw [hsrcs]; exact hcon.1.2, hcon.2⟩
    simp only [processEdge, helim]
    rw [if_neg (by simp [he])]
    split
    · exact ⟨rfl, rfl⟩
    · refine ⟨rfl, ?_⟩
      apply moveCount_updBlk_append
      cases retI <;> simp_all [isRet, isMove]

theorem processEdge_skip (retI : Insn) (prev : Option Nat) (st : ScanSt)
    (e : Edge) (he : e.ty = .goto)
    (helim : trailingMoveOf st.cfg e.src retI = none)
    (hprev : prev = some e.src) : processEdge retI prev st e = st := by
  simp only [processEdge, helim]
  rw [if_neg (by simp [he])]
  rw [if_pos (by simp [hprev])]

theorem processEdge_append (retI : Insn) (prev : Option Nat) (st : ScanSt)
    (e : Edge) (he : e.ty = .goto)
    (helim : trailingMoveOf st.cfg e.src retI = none)
    (hprev : prev ≠ some e.src) :
    processEdge retI prev st e
      = ⟨st.cfg.updBlk e.src (fun l => l ++ [retI]), st.stats, st.rerun,
         st.queue ++ [e.eid]⟩ := by
  simp only [processEdge, helim]
  rw [if_neg (by simp [he])]
  rw [if_neg (by simpa using hprev)]

theorem processEdge_elim (retI : Insn) (prev : Option Nat) (st : ScanSt)
    (e : Edge) (he : e.ty = .goto) (ms : Nat)
    (helim : trailingMoveOf st.cfg e.src retI = some ms) :
    processEdge retI prev st e
      = ⟨(st.cfg.updBlk e.src List.dropLast).updBlk e.src
           (fun l => l ++ [insnSetSrc0 retI ms]),
         st.stats.incMoves, true, st.queue ++ [e.eid]⟩ := by
  simp only [processEdge, helim]
  rw [if_neg (by simp [he])]

/-- Per-edge dichotomy: a processed edge either leaves the scan state
unchanged, appends the unmodified clone and queues the edge, or eliminates
a trailing move, appends the rewritten clone and queues the edge. -/
theorem processEdge_cases (retI : Insn) (prev : Option Nat) (st : ScanSt)
    (e : Edge) :
    processEdge retI prev st e = st ∨
    (e.ty = .goto ∧ trailingMoveOf st.cfg e.src retI = none ∧
     processEdge retI prev st e
       = ⟨st.cfg.updBlk e.src (fun l => l ++ [retI]), st.stats, st.rerun,
          st.queue ++ [e.eid]⟩) ∨
    (e.ty = .goto ∧ ∃ ms, trailingMoveOf st.cfg e.src retI = some ms ∧
     processEdge retI prev st e
       = ⟨(st.cfg.updBlk e.src List.dropLast).updBlk e.src
            (fun l => l ++ [insnSetSrc0 retI ms]),
          st.stats.incMoves, true, st.queue ++ [e.eid]⟩) := by
  by_cases hty : e.ty = .goto
  · cases helim : trailingMoveOf st.cfg e.src retI with
    | none =>
      by_cases hprev : prev = some e.src
      · exact Or.inl (processEdge_skip retI prev st e hty helim hprev)
      · exact Or.inr (Or.inl ⟨hty, rfl,
          processEdge_append retI prev st e hty helim hprev⟩)
    | some ms =>
      exact Or.inr (Or.inr ⟨hty, ms, rfl,
        processEdge_elim retI prev st e hty ms helim⟩)
  · exact Or.inl (processEdge_not_goto retI prev st e hty)

theorem processBlock_fold (prev : Option Nat) (st : ScanSt) (i : Nat)
    (b : Blk) (retI : Insn) (hgb : getBlk st.cfg i = some b)
    (hbi : b.insns = [retI]) (hr : isRet retI = true) :
    processBlock prev st i
      = (predEdges st.cfg i).foldl (processEdge retI prev) st := by
  simp only [processBlock, hgb, hbi, hr, if_true]

/-- Per-block dichotomy: the scan either skips the block or folds every
predecessor edge of a single-instruction return block. -/
theorem processBlock_cases (prev : Option Nat) (st : ScanSt) (i : Nat) :
    processBlock prev st i = st ∨
    ∃ b retI, getBlk st.cfg i = some b ∧ b.insns = [retI] ∧
      isRet retI = true ∧
      processBlock prev st i
        = (predEdges st.cfg i).foldl (processEdge retI prev) st := by
  cases hgb : getBlk st.cfg i with
  | none =>
    left
    simp only [processBlock, hgb]
  | some b =>
    rcases hbi : b.insns with _ | ⟨x, rest⟩
    · left
      simp only [processBlock, hgb, hbi]
    · rcases rest with _ | ⟨y, rest2⟩
      · by_cases hr : isRet x = true
        · exact Or.inr ⟨b, x, rfl, hbi, hr, processBlock_fold prev st i b x hgb hbi hr⟩
        · left
          simp only [processBlock, hgb, hbi]
          rw [if_neg (by simpa using hr)]
      · left
        simp only [processBlock, hgb, hbi]

/-- Full characterization of the batch deletion phase: exactly the queued
handles disappear from the edge set, blocks are untouched, and the
gotos-replaced-with-returns counter grows by one per queued entry. -/
theorem deleteQueuedGo_spec : ∀ (q : List Nat) (cfg : CFG) (stats : Stats),
    (deleteQueuedGo q cfg stats).1.edges
        = cfg.edges.filter (fun e => !(q.contains e.eid)) ∧
    (deleteQueuedGo q cfg stats).1.blocks = cfg.blocks ∧
    (deleteQueuedGo q cfg stats).2
      = ⟨stats.replaced_gotos_with_returns + q.length,
         stats.removed_trailing_moves, stats.inverted_conditional_branches⟩ := by
  intro q
  induction q with
  | nil =>
    intro cfg stats
    refine ⟨?_, rfl, ?_⟩
    · simp [deleteQueuedGo]
    · simp [deleteQueuedGo]
  | cons i rest ih =>
    intro cfg stats
    obtain ⟨he, hb, hs⟩ := ih (deleteEdge cfg i) stats.incGotos
    refine ⟨?_, ?_, ?_⟩
    · show (deleteQueuedGo rest (deleteEdge cfg i) stats.incGotos).1.edges = _
      rw [he]
      show (cfg.edges.filter fun e => e.eid != i).filter _ = _
      rw [List.filter_filter]
      apply List.filter_congr
      intro e _
      by_cases hei : e.eid = i <;>
        simp [List.contains_cons, hei, Bool.and_comm, bne_iff_ne]
    · show (deleteQueuedGo rest (deleteEdge cfg i) stats.incGotos).1.blocks = _
      rw [hb]; rfl
    · show (deleteQueuedGo rest (deleteEdge cfg i) stats.incGotos).2 = _
      rw [hs]
      show Stats.mk _ _ _ = Stats.mk _ _ _
      simp [Stats.incGotos]
      omega

/-- C1: the per-edge behavior of Optimization 2 on a foldable block's
predecessor edges, and the batch deletion after the scan: non-GOTO edges
are never folded; a GOTO edge with no trailing-move elimination whose
source immediately precedes the target in the snapshotted order is
skipped entirely; any other GOTO edge gets the (possibly rewritten) clone
of the return appended to its source block and is queued; blocks that are
not single-instruction returns are left entirely unchanged by the scan
step; and the deletion phase removes exactly the queued edges,
incrementing the counter once per deleted edge. -/
theorem claim_C1 (st : ScanSt) (retI : Insn) (prev : Option Nat) :
    (∀ e : Edge, e.ty ≠ .goto → processEdge retI prev st e = st) ∧
    (∀ e : Edge, e.ty = .goto → trailingMoveOf st.cfg e.src retI = none →
      prev = some e.src → processEdge retI prev st e = st) ∧
    (∀ e : Edge, e.ty = .goto → trailingMoveOf st.cfg e.src retI = none →
      prev ≠ some e.src →
      processEdge retI prev st e
        = ⟨st.cfg.updBlk e.src (fun l => l ++ [retI]), st.stats, st.rerun,
           st.queue ++ [e.eid]⟩) ∧
    (∀ e : Edge, e.ty = .goto →
      ∀ ms, trailingMoveOf st.cfg e.src retI = some ms →
      processEdge retI prev st e
        = ⟨(st.cfg.updBlk e.src List.dropLast).updBlk e.src
             (fun l => l ++ [insnSetSrc0 retI ms]),
           st.stats.incMoves, true, st.queue ++ [e.eid]⟩) ∧
    (∀ i b r, getBlk st.cfg i = some b → b.insns = [r] → isRet r = true →
      processBlock prev st i = (predEdges st.cfg i).foldl (processEdge r prev) st) ∧
    (∀ i b, getBlk st.cfg i = some b →
      (∀ r, b.insns = [r] → isRet r = false) →
      processBlock prev st i = st) ∧
    (∀ q cfg stats,
      (deleteQueuedGo q cfg stats).1.edges
          = cfg.edges.filter (fun e => !(q.contains e.eid)) ∧
      (deleteQueuedGo q cfg stats).1.blocks = cfg.blocks ∧
      (deleteQueuedGo q cfg stats).2
        = ⟨stats.replaced_gotos_with_returns + q.length,
           stats.removed_trailing_moves,
           stats.inverted_conditional_branches⟩) := by
  refine ⟨?_, ?_, ?_, ?_, ?_, ?_, deleteQueuedGo_spec⟩
  · intro e h
    exact processEdge_not_goto retI prev st e h
  · intro e he helim hprev
    exact processEdge_skip retI prev st e he helim hprev
  · intro e he helim hprev
    exact processEdge_append retI prev st e he helim hprev
  · intro e he ms helim
    exact processEdge_elim retI prev st e he ms helim
  · intro i b r hgb hbi hr
    exact processBlock_fold prev st i b r hgb hbi hr
  · intro i b hgb hns
    simp only [processBlock, hgb]
    rcases hbi : b.insns with _ | ⟨x, rest⟩
    · rfl
    · rcases rest with _ | ⟨y, rest2⟩
      · show (if isRet x = true
            then List.foldl (processEdge x prev) st (predEdges st.cfg i)
            else st) = st
        rw [hns x hbi]
        exact rfl
      · exact rfl

/-! ## Claim C4: the layout order is snapshotted once, not recomputed -/

/-- `process_code` with the spec-claimed recompute-per-iteration loop in
place of the pass's snapshot-once loop.  Modelled from the spec: "If any
trailing move was eliminated this iteration, recompute the block order and
repeat from step 1". -/
def process_code_recompute (orderFn : CFG → List Nat) (cfg : CFG) :
    Except PErr (CFG × Stats) :=
  match opt1 cfg ⟨0, 0, 0⟩ with
  | .error e => .error e
  | .ok (cfg1, stats1) =>
    match opt2LoopRecompute orderFn (moveCount cfg1 + 1) cfg1 stats1 with
    | some r => .ok r
    | none => .error .fuelExhausted

/-- A three-block CFG: block 0 computes something, block 1 stages a value
with a move and block 2 returns it; iteration 1 of Optimization 2
eliminates the trailing move of block 1 (forcing a rerun) and deletes the
goto edge 21, which changes the layout order the environment would
report. -/
def c4cfg : CFG :=
  ⟨[⟨0, [.other 5 [] 3]⟩, ⟨1, [.move false 1 0]⟩, ⟨2, [.ret false (some 1)]⟩],
   [⟨20, 0, 1, .goto⟩, ⟨21, 1, 2, .goto⟩]⟩

/-- A layout-order oracle whose result changes once an edge has been
deleted (as the real `ControlFlowGraph::order` may: linearization chains
follow goto edges). -/
def c4order : CFG → List Nat :=
  fun c => if c.edges.length == 1 then [1, 0, 2] else [0, 1, 2]

/-- C4 counterexample: on `c4cfg` the pass's loop (order snapshotted before
the first iteration) produces a different CFG and different counters than
the spec-claimed variant that recomputes the order before every rerun
iteration; so the rerun iterations do *not* use a freshly derived order. -/
theorem claim_C4_cex :
    process_code c4order c4cfg ≠ process_code_recompute c4order c4cfg := by
  intro hcon
  have h1 : process_code c4order c4cfg
      = .ok (⟨[⟨0, [.other 5 [] 3]⟩, ⟨1, [.ret false (some 0)]⟩,
               ⟨2, [.ret false (some 1)]⟩], [⟨20, 0, 1, .goto⟩]⟩,
             ⟨1, 1, 0⟩) := rfl
  have h2 : process_code_recompute c4order c4cfg
      = .ok (⟨[⟨0, [.other 5 [] 3, .ret false (some 0)]⟩,
               ⟨1, [.ret false (some 0)]⟩,
               ⟨2, [.ret false (some 1)]⟩], []⟩,
             ⟨2, 1, 0⟩) := rfl
  rw [h1, h2] at hcon
  simp at hcon

/-- C4 (amended): the pass consults the layout order exactly once, on the
CFG as it stands after Optimization 1 and before the first iteration of
Optimization 2; every rerun iteration reuses that snapshot, so the pass's
output depends on the layout-order oracle only through that single
snapshot. -/
theorem claim_C4 (orderFn orderFn2 : CFG → List Nat) (cfg : CFG)
    (h : ∀ c1 s1, opt1 cfg ⟨0, 0, 0⟩ = .ok (c1, s1) →
      orderFn c1 = orderFn2 c1) :
    process_code orderFn cfg = process_code orderFn2 cfg := by
  unfold process_code
  cases h1 : opt1 cfg ⟨0, 0, 0⟩ with
  | error e => rfl
  | ok p =>
    obtain ⟨c1, s1⟩ := p
    have h2 := h c1 s1 h1
    simp only [h2]

theorem claim_C4_witness :
    process_code (fun _ => [0, 1, 2]) c4cfg
      = process_code c4order c4cfg :=
  claim_C4 (fun _ => [0, 1, 2]) c4order c4cfg (by
    intro c1 s1 h
    have h0 : opt1 c4cfg ⟨0, 0, 0⟩ = .ok (c4cfg, ⟨0, 0, 0⟩) := rfl
    rw [h0] at h
    cases h
    decide)

/-! ## Claim C5: termination of Optimization 2's fixpoint loop -/

theorem moveCount_eq_of_blocks (c1 c2 : CFG) (h : c1.blocks = c2.blocks) :
    moveCount c1 = moveCount c2 := by
  unfold moveCount
  rw [h]

theorem isMove_insnSetSrc0_of_ret (retI : Insn) (ms : Nat)
    (hr : isRet retI = true) : isMove (insnSetSrc0 retI ms) = false := by
  cases retI <;> simp_all [isRet, insnSetSrc0, isMove]
  rename_i w os
  cases os <;> simp [insnSetSrc0, isMove]

theorem trailingMoveOf_some_inv (cfg : CFG) (srcId : Nat) (retI : Insn)
    (ms : Nat) (h : trailingMoveOf cfg srcId retI = some ms) :
    ∃ sb li, getBlk cfg srcId = some sb ∧ sb.insns.getLast? = some li ∧
      isMove li = true := by
  unfold trailingMoveOf at h
  rcases hsrcs : insnSrcs retI with _ | ⟨r0, rest⟩
  · rw [hsrcs] at h; cases h
  · rw [hsrcs] at h
    rcases hb : (getBlk cfg srcId).bind (fun b => b.insns.getLast?)
      with _ | li
    · rw [hb] at h; cases h
    · rw [hb] at h
      have h2 : (if (isMove li && insnDest li == r0
          && insnWide li == insnWide retI) = true
          then some ((insnSrcs li).headD 0) else none) = some ms := h
      rcases hgb : getBlk cfg srcId with _ | sb
      · rw [hgb] at hb; cases hb
      · rw [hgb] at hb
        simp only [Option.some_bind] at hb
        refine ⟨sb, li, rfl, hb, ?_⟩
        by_cases hm : isMove li = true
        · exact hm
        · rw [if_neg (by simp [hm])] at h2
          cases h2

/-- The source block strictly loses a move when a trailing move is
eliminated; the appended clone of a return is never a move. -/
theorem processEdge_moveDec (retI : Insn) (prev : Option Nat) (st : ScanSt)
    (e : Edge) (hr : isRet retI = true) :
    moveCount (processEdge retI prev st e).cfg ≤ moveCount st.cfg ∧
    ((processEdge retI prev st e).rerun = true →
      st.rerun = true ∨
      moveCount (processEdge retI prev st e).cfg < moveCount st.cfg) := by
  rcases processEdge_cases retI prev st e with h | ⟨_, _, h⟩ | ⟨_, ms, helim, h⟩
  · rw [h]
    exact ⟨le_refl _, fun h2 => Or.inl h2⟩
  · rw [h]
    have hmv : isMove retI = false := by
      cases retI <;> simp_all [isRet, isMove]
    constructor
    · exact le_of_eq (moveCount_updBlk_append _ _ _ hmv)
    · intro h2
      exact Or.inl h2
  · rw [h]
    obtain ⟨sb, li, hgb, hlast, hmv⟩ := trailingMoveOf_some_inv _ _ _ _ helim
    have step1 : moveCount (st.cfg.updBlk e.src List.dropLast) + 1
        = moveCount st.cfg := by
      have h1 := moveCount_updBlk st.cfg e.src List.dropLast sb hgb
      have h2 := moveCountL_dropLast sb.insns li hlast
      rw [hmv] at h2
      simp at h2
      omega
    have step2 : moveCount ((st.cfg.updBlk e.src List.dropLast).updBlk e.src
        (fun l => l ++ [insnSetSrc0 retI ms]))
        = moveCount (st.cfg.updBlk e.src List.dropLast) :=
      moveCount_updBlk_append _ _ _ (isMove_insnSetSrc0_of_ret retI ms hr)
    constructor
    · show moveCount ((st.cfg.updBlk e.src List.dropLast).updBlk e.src
          (fun l => l ++ [insnSetSrc0 retI ms])) ≤ moveCount st.cfg
      omega
    · intro _
      right
      show moveCount ((st.cfg.updBlk e.src List.dropLast).updBlk e.src
          (fun l => l ++ [insnSetSrc0 retI ms])) < moveCount st.cfg
      omega

/-- Composition of the decrease property through a fold. -/
theorem foldl_moveDec {β : Type} (f : ScanSt → β → ScanSt)
    (hstep : ∀ st x, moveCount (f st x).cfg ≤ moveCount st.cfg ∧
      ((f st x).rerun = true →
        st.rerun = true ∨ moveCount (f st x).cfg < moveCount st.cfg)) :
    ∀ (l : List β) (st : ScanSt),
      moveCount (l.foldl f st).cfg ≤ moveCount st.cfg ∧
      ((l.foldl f st).rerun = true →
        st.rerun = true ∨ moveCount (l.foldl f st).cfg < moveCount st.cfg) := by
  intro l
  induction l with
  | nil => intro st; exact ⟨le_refl _, fun h => Or.inl h⟩
  | cons x rest ih =>
    intro st
    have h1 := hstep st x
    have h2 := ih (f st x)
    simp only [List.foldl_cons]
    constructor
    · exact le_trans h2.1 h1.1
    · intro hrr
      rcases h2.2 hrr with ha | hb
      · rcases h1.2 ha with hc | hd
        · exact Or.inl hc
        · exact Or.inr (lt_of_le_of_lt h2.1 hd)
      · exact Or.inr (lt_of_lt_of_le hb h1.1)

theorem processBlock_moveDec (prev : Option Nat) (st : ScanSt) (i : Nat) :
    moveCount (processBlock prev st i).cfg ≤ moveCount st.cfg ∧
    ((processBlock prev st i).rerun = true →
      st.rerun = true ∨
      moveCount (processBlock prev st i).cfg < moveCount st.cfg) := by
  rcases processBlock_cases prev st i with h | ⟨b, retI, _, _, hr, h⟩
  · rw [h]
    exact ⟨le_refl _, fun h2 => Or.inl h2⟩
  · rw [h]
    exact foldl_moveDec _ (fun st2 e => processEdge_moveDec retI prev st2 e hr)
      _ st

theorem scanGo_moveDec :
    ∀ (order : List Nat) (prev : Option Nat) (st : ScanSt),
      moveCount (scanGo prev order st).cfg ≤ moveCount st.cfg ∧
      ((scanGo prev order st).rerun = true →
        st.rerun = true ∨
        moveCount (scanGo prev order st).cfg < moveCount st.cfg) := by
  intro order
  induction order with
  | nil => intro prev st; exact ⟨le_refl _, fun h => Or.inl h⟩
  | cons i rest ih =>
    intro prev st
    have h1 := processBlock_moveDec prev st i
    have h2 := ih (some i) (processBlock prev st i)
    show moveCount (scanGo (some i) rest (processBlock prev st i)).cfg ≤ _ ∧ _
    constructor
    · exact le_trans h2.1 h1.1
    · intro hrr
      rcases h2.2 hrr with ha | hb
      · rcases h1.2 ha with hc | hd
        · exact Or.inl hc
        · exact Or.inr (lt_of_le_of_lt h2.1 hd)
      · exact Or.inr (lt_of_lt_of_le hb h1.1)

/-- One iteration of the loop never adds a move, and an iteration that
requests a rerun strictly removed at least one move instruction. -/
theorem opt2Iter_moveDec (order : List Nat) (cfg : CFG) (stats : Stats) :
    moveCount (opt2Iter order cfg stats).1 ≤ moveCount cfg ∧
    ((opt2Iter order cfg stats).2.2 = true →
      moveCount (opt2Iter order cfg stats).1 < moveCount cfg) := by
  have hs := scanGo_moveDec order none ⟨cfg, stats, false, []⟩
  have hd := deleteQueuedGo_spec (scanGo none order ⟨cfg, stats, false, []⟩).queue
    (scanGo none order ⟨cfg, stats, false, []⟩).cfg
    (scanGo none order ⟨cfg, stats, false, []⟩).stats
  have hmq : moveCount (opt2Iter order cfg stats).1
      = moveCount (scanGo none order ⟨cfg, stats, false, []⟩).cfg := by
    apply moveCount_eq_of_blocks
    exact hd.2.1
  constructor
  · rw [hmq]
    exact hs.1
  · intro hrr
    rw [hmq]
    have : (scanGo none order ⟨cfg, stats, false, []⟩).rerun = true := hrr
    rcases hs.2 this with ha | hb
    · cases ha
    · exact hb

theorem opt2Loop_isSome (order : List Nat) :
    ∀ (fuel : Nat) (cfg : CFG) (stats : Stats), moveCount cfg < fuel →
      (opt2Loop order fuel cfg stats).isSome = true := by
  intro fuel
  induction fuel with
  | zero => intro cfg stats h; omega
  | succ f ih =>
    intro cfg stats h
    have hit := opt2Iter_moveDec order cfg stats
    show (opt2Loop order (f + 1) cfg stats).isSome = true
    unfold opt2Loop
    by_cases hrr : (opt2Iter order cfg stats).2.2 = true
    · rw [if_pos hrr]
      apply ih
      have := hit.2 hrr
      omega
    · rw [if_neg hrr]
      rfl

/-- `opt1Block` either succeeds or fails the missing-edge assertion. -/
theorem opt1Block_ok_or (st : CFG × Stats) (i : Nat) :
    (∃ st2, opt1Block st i = .ok st2) ∨
    opt1Block st i = .error .missingEdge := by
  cases hgb : getBlk st.1 i with
  | none => exact Or.inl ⟨st, by simp only [opt1Block, hgb]⟩
  | some b =>
    cases hl : b.insns.getLast? with
    | none => exact Or.inl ⟨(st.1, st.2), by simp only [opt1Block, hgb, hl]⟩
    | some insn =>
      cases insn with
      | ifbr c a ob =>
        cases hg : succEdgeOfType st.1 i .goto with
        | none =>
          refine Or.inr ?_
          simp only [opt1Block, hgb, hl, hg]
        | some ge =>
          cases hb2 : succEdgeOfType st.1 i .branch with
          | none =>
            refine Or.inr ?_
            simp only [opt1Block, hgb, hl, hg, hb2]
          | some be =>
            by_cases hc : ((decide ((predEdges st.1 ge.tgt).length > 1)
                && (predEdges st.1 be.tgt).length == 1) = true)
            · refine Or.inl ⟨(setEdgeTarget (setEdgeTarget
                  (st.1.updBlk i (fun l => l.dropLast
                    ++ [.ifbr (invertCond c) a ob])) be.eid ge.tgt)
                  ge.eid be.tgt, st.2.incInverted), ?_⟩
              simp only [opt1Block, hgb, hl, hg, hb2]
              rw [if_pos hc]
            · refine Or.inl ⟨(st.1, st.2), ?_⟩
              simp only [opt1Block, hgb, hl, hg, hb2]
              rw [if_neg hc]
      | move w d sr =>
        exact Or.inl ⟨(st.1, st.2), by simp only [opt1Block, hgb, hl]⟩
      | ret w os =>
        exact Or.inl ⟨(st.1, st.2), by simp only [opt1Block, hgb, hl]⟩
      | other d ss c =>
        exact Or.inl ⟨(st.1, st.2), by simp only [opt1Block, hgb, hl]⟩

theorem opt1Go_error_missing :
    ∀ (ids : List Nat) (st : CFG × Stats) (e : PErr),
      opt1Go ids st = .error e → e = .missingEdge := by
  intro ids
  induction ids with
  | nil => intro st e h; exact Except.noConfusion h
  | cons i rest ih =>
    intro st e h
    unfold opt1Go at h
    rcases opt1Block_ok_or st i with ⟨st2, hok⟩ | herr
    · rw [hok] at h
      exact ih st2 e h
    · rw [herr] at h
      have h2 : (Except.error PErr.missingEdge : Except PErr (CFG × Stats))
          = .error e := h
      exact (Except.error.inj h2).symm

/-- C5: Optimization 2's fixpoint loop terminates on every input: with the
fuel budget `moveCount cfg + 1` the loop always completes (each rerun
iteration strictly decreases the finite move count), and consequently
`process_code` never fails with fuel exhaustion. -/
theorem claim_C5 (order : List Nat) (cfg : CFG) (stats : Stats)
    (orderFn : CFG → List Nat) (cfg2 : CFG) :
    (opt2Loop order (moveCount cfg + 1) cfg stats).isSome = true ∧
    process_code orderFn cfg2 ≠ .error .fuelExhausted := by
  constructor
  · exact opt2Loop_isSome order (moveCount cfg + 1) cfg stats (by omega)
  · unfold process_code
    cases h1 : opt1 cfg2 ⟨0, 0, 0⟩ with
    | error e =>
      have he : e = .missingEdge := opt1Go_error_missing _ _ e h1
      subst he
      intro hcon
      exact PErr.noConfusion (Except.error.inj hcon)
    | ok p =>
      obtain ⟨c1, s1⟩ := p
      have hs := opt2Loop_isSome (orderFn c1) (moveCount c1 + 1) c1 s1 (by omega)
      rcases ho : opt2Loop (orderFn c1) (moveCount c1 + 1) c1 s1 with _ | r
      · rw [ho] at hs; cases hs
      · simp only [ho]
        intro hcon
        exact Except.noConfusion hcon

theorem claim_C5_witness :
    (opt2Loop [0] (moveCount ⟨[], []⟩ + 1) ⟨[], []⟩ ⟨0, 0, 0⟩).isSome = true ∧
    process_code (fun c => c.blocks.map Blk.bid) ⟨[], []⟩
      ≠ .error .fuelExhausted :=
  claim_C5 [0] ⟨[], []⟩ ⟨0, 0, 0⟩ (fun c => c.blocks.map Blk.bid) ⟨[], []⟩

/-! ## Concrete instances for the witnesses -/

/-- Witness CFG for C1: block 0 computes a value, block 1 is a pure return;
a GOTO edge and a BRANCH edge lead from 0 to 1. -/
def c1cfg : CFG :=
  ⟨[⟨0, [.other 1 [] 2]⟩, ⟨1, [.ret false (some 3)]⟩],
   [⟨7, 0, 1, .goto⟩, ⟨8, 0, 1, .branch⟩]⟩

def c1st : ScanSt := ⟨c1cfg, ⟨0, 0, 0⟩, false, []⟩

theorem claim_C1_witness :
    processEdge (.ret false (some 3)) none c1st ⟨8, 0, 1, .branch⟩ = c1st ∧
    processEdge (.ret false (some 3)) (some 0) c1st ⟨7, 0, 1, .goto⟩ = c1st ∧
    processEdge (.ret false (some 3)) none c1st ⟨7, 0, 1, .goto⟩
      = ⟨c1st.cfg.updBlk 0 (fun l => l ++ [.ret false (some 3)]), c1st.stats,
         c1st.rerun, c1st.queue ++ [7]⟩ ∧
    processBlock none c1st 0 = c1st ∧
    (deleteQueuedGo [7] c1cfg ⟨0, 0, 0⟩).2 = ⟨1, 0, 0⟩ :=
  ⟨(claim_C1 c1st (.ret false (some 3)) none).1 ⟨8, 0, 1, .branch⟩ (by decide),
   (claim_C1 c1st (.ret false (some 3)) (some 0)).2.1 ⟨7, 0, 1, .goto⟩ rfl rfl
     rfl,
   (claim_C1 c1st (.ret false (some 3)) none).2.2.1 ⟨7, 0, 1, .goto⟩ rfl rfl
     (by decide),
   (claim_C1 c1st (.ret false (some 3)) none).2.2.2.2.2.1 0 ⟨0, [.other 1 [] 2]⟩
     rfl (by intro r h; cases h; rfl),
   ((claim_C1 c1st (.ret false (some 3)) none).2.2.2.2.2.2 [7] c1cfg
     ⟨0, 0, 0⟩).2.2⟩

/-- Witness CFG for C2: block 0 ends in `if-eqz v0` with GOTO to block 1
(two predecessors) and BRANCH to block 2 (one predecessor). -/
def c2cfg : CFG :=
  ⟨[⟨0, [.ifbr .ceqz 0 none]⟩, ⟨1, [.other 0 [] 0]⟩, ⟨2, [.other 0 [] 1]⟩,
    ⟨3, [.other 9 [] 9]⟩],
   [⟨10, 0, 1, .goto⟩, ⟨11, 0, 2, .branch⟩, ⟨12, 3, 1, .branch⟩]⟩

theorem claim_C2_witness :
    ∃ cfg', opt1Block (c2cfg, (⟨0, 0, 0⟩ : Stats)) 0
        = .ok (cfg', (⟨0, 0, 0⟩ : Stats).incInverted) ∧
      getBlk cfg' 0 = some ⟨0, [.ifbr (invertCond .ceqz) 0 none]⟩ ∧
      succEdgeOfType cfg' 0 .goto = some ⟨10, 0, 2, .goto⟩ ∧
      succEdgeOfType cfg' 0 .branch = some ⟨11, 0, 1, .branch⟩ ∧
      (∀ j, j ≠ 0 → getBlk cfg' j = getBlk c2cfg j) :=
  (claim_C2 c2cfg ⟨0, 0, 0⟩ 0 ⟨0, [.ifbr .ceqz 0 none]⟩ .ceqz 0 none
    ⟨10, 0, 1, .goto⟩ ⟨11, 0, 2, .branch⟩ (by unfold EidsNodup; decide)
    rfl rfl rfl rfl).1 (by decide)

/-- Witness state for C3: source block 0 ends in `move v1, v0`, folded
towards a block returning `v1`. -/
def c3st : ScanSt :=
  ⟨⟨[⟨0, [.move false 1 0]⟩, ⟨1, [.ret false (some 1)]⟩],
    [⟨5, 0, 1, .goto⟩]⟩, ⟨0, 0, 0⟩, false, []⟩

theorem claim_C3_witness :
    ∃ cfg2, processEdge (.ret false (some 1)) none c3st ⟨5, 0, 1, .goto⟩
        = ⟨cfg2, c3st.stats.incMoves, true, c3st.queue ++ [5]⟩ ∧
      getBlk cfg2 0 = some ⟨0, [.ret false (some 0)]⟩ ∧
      (∀ j, j ≠ 0 → getBlk cfg2 j = getBlk c3st.cfg j) ∧
      cfg2.edges = c3st.cfg.edges :=
  (claim_C3 c3st ⟨5, 0, 1, .goto⟩ (.ret false (some 1)) none rfl).1
    false 1 0 ⟨0, [.move false 1 0]⟩ rfl rfl rfl

/-! ## Claim C10: trailing-moves-removed never exceeds gotos-replaced -/

/-- Accounting invariant of the per-edge step: the trailing-moves counter
can only grow together with the deletion queue, and the
gotos-replaced counter is untouched by the scan. -/
theorem processEdge_acct (retI : Insn) (prev : Option Nat) (st : ScanSt)
    (e : Edge) :
    (processEdge retI prev st e).stats.removed_trailing_moves
        + st.queue.length
      ≤ st.stats.removed_trailing_moves
        + (processEdge retI prev st e).queue.length ∧
    (processEdge retI prev st e).stats.replaced_gotos_with_returns
      = st.stats.replaced_gotos_with_returns := by
  rcases processEdge_cases retI prev st e with h | ⟨_, _, h⟩ | ⟨_, ms, _, h⟩
  · rw [h]; exact ⟨le_refl _, rfl⟩
  · rw [h]
    refine ⟨?_, rfl⟩
    simp only [List.length_append, List.length_cons, List.length_nil]
    omega
  · rw [h]
    refine ⟨?_, rfl⟩
    simp only [Stats.incMoves, List.length_append, List.length_cons,
      List.length_nil]
    omega

theorem foldl_acct {β : Type} (f : ScanSt → β → ScanSt)
    (hstep : ∀ st x,
      (f st x).stats.removed_trailing_moves + st.queue.length
        ≤ st.stats.removed_trailing_moves + (f st x).queue.length ∧
      (f st x).stats.replaced_gotos_with_returns
        = st.stats.replaced_gotos_with_returns) :
    ∀ (l : List β) (st : ScanSt),
      (l.foldl f st).stats.removed_trailing_moves + st.queue.length
        ≤ st.stats.removed_trailing_moves + (l.foldl f st).queue.length ∧
      (l.foldl f st).stats.replaced_gotos_with_returns
        = st.stats.replaced_gotos_with_returns := by
  intro l
  induction l with
  | nil => intro st; exact ⟨le_refl _, rfl⟩
  | cons x rest ih =>
    intro st
    have h1 := hstep st x
    have h2 := ih (f st x)
    simp only [List.foldl_cons]
    constructor
    · omega
    · rw [h2.2, h1.2]

theorem processBlock_acct (prev : Option Nat) (st : ScanSt) (i : Nat) :
    (processBlock prev st i).stats.removed_trailing_moves + st.queue.length
      ≤ st.stats.removed_trailing_moves
        + (processBlock prev st i).queue.length ∧
    (processBlock prev st i).stats.replaced_gotos_with_returns
      = st.stats.replaced_gotos_with_returns := by
  rcases processBlock_cases prev st i with h | ⟨b, retI, _, _, _, h⟩
  · rw [h]; exact ⟨le_refl _, rfl⟩
  · rw [h]
    exact foldl_acct _ (fun st2 e => processEdge_acct retI prev st2 e) _ st

theorem scanGo_acct :
    ∀ (order : List Nat) (prev : Option Nat) (st : ScanSt),
      (scanGo prev order st).stats.removed_trailing_moves + st.queue.length
        ≤ st.stats.removed_trailing_moves
          + (scanGo prev order st).queue.length ∧
      (scanGo prev order st).stats.replaced_gotos_with_returns
        = st.stats.replaced_gotos_with_returns := by
  intro order
  induction order with
  | nil => intro prev st; exact ⟨le_refl _, rfl⟩
  | cons i rest ih =>
    intro prev st
    have h1 := processBlock_acct prev st i
    have h2 := ih (some i) (processBlock prev st i)
    simp only [scanGo]
    constructor
    · omega
    · rw [h2.2, h1.2]

/-- One iteration of Optimization 2 increments the trailing-moves counter
by at most as much as the gotos-replaced counter. -/
theorem opt2Iter_acct (order : List Nat) (cfg : CFG) (stats : Stats) :
    (opt2Iter order cfg stats).2.1.removed_trailing_moves
        + stats.replaced_gotos_with_returns
      ≤ stats.removed_trailing_moves
        + (opt2Iter order cfg stats).2.1.replaced_gotos_with_returns := by
  have hs := scanGo_acct order none ⟨cfg, stats, false, []⟩
  have hd := deleteQueuedGo_spec (scanGo none order ⟨cfg, stats, false, []⟩).queue
    (scanGo none order ⟨cfg, stats, false, []⟩).cfg
    (scanGo none order ⟨cfg, stats, false, []⟩).stats
  have heq : (opt2Iter order cfg stats).2.1
      = ⟨(scanGo none order ⟨cfg, stats, false, []⟩).stats.replaced_gotos_with_returns
           + (scanGo none order ⟨cfg, stats, false, []⟩).queue.length,
         (scanGo none order ⟨cfg, stats, false, []⟩).stats.removed_trailing_moves,
         (scanGo none order ⟨cfg, stats, false, []⟩).stats.inverted_conditional_branches⟩ :=
    hd.2.2
  rw [heq]
  have h1 := hs.1
  have h2 := hs.2
  dsimp only at h1 h2 ⊢
  simp only [List.length_nil] at h1
  omega

theorem opt2Loop_acct (order : List Nat) :
    ∀ (fuel : Nat) (cfg : CFG) (stats : Stats) (cfg' : CFG) (stats' : Stats),
      opt2Loop order fuel cfg stats = some (cfg', stats') →
      stats'.removed_trailing_moves + stats.replaced_gotos_with_returns
        ≤ stats.removed_trailing_moves
          + stats'.replaced_gotos_with_returns := by
  intro fuel
  induction fuel with
  | zero => intro cfg stats cfg' stats' h; cases h
  | succ f ih =>
    intro cfg stats cfg' stats' h
    have hit := opt2Iter_acct order cfg stats
    unfold opt2Loop at h
    by_cases hrr : (opt2Iter order cfg stats).2.2 = true
    · rw [if_pos hrr] at h
      have := ih (opt2Iter order cfg stats).1 (opt2Iter order cfg stats).2.1
        cfg' stats' h
      omega
    · rw [if_neg hrr] at h
      have h2 : ((opt2Iter order cfg stats).1,
          (opt2Iter order cfg stats).2.1) = (cfg', stats') :=
        Option.some.inj h
      have h3 : (opt2Iter order cfg stats).2.1 = stats' :=
        congrArg Prod.snd h2
      rw [h3] at hit
      exact hit

/-- The full effect of one `opt1Block` step: it leaves the state alone,
performs the swap/inversion, or aborts on a missing edge. -/
theorem opt1Block_cases (st : CFG × Stats) (i : Nat) :
    opt1Block st i = .ok st ∨
    (∃ b c a ob ge be,
      getBlk st.1 i = some b ∧
      b.insns.getLast? = some (.ifbr c a ob) ∧
      succEdgeOfType st.1 i .goto = some ge ∧
      succEdgeOfType st.1 i .branch = some be ∧
      (predEdges st.1 ge.tgt).length > 1 ∧
      (predEdges st.1 be.tgt).length = 1 ∧
      opt1Block st i = .ok
        (setEdgeTarget (setEdgeTarget (st.1.updBlk i
           (fun l => l.dropLast ++ [.ifbr (invertCond c) a ob])) be.eid ge.tgt)
           ge.eid be.tgt, st.2.incInverted)) ∨
    opt1Block st i = .error .missingEdge := by
  cases hgb : getBlk st.1 i with
  | none => exact Or.inl (by simp only [opt1Block, hgb])
  | some b =>
    cases hl : b.insns.getLast? with
    | none => exact Or.inl (by simp only [opt1Block, hgb, hl])
    | some insn =>
      cases insn with
      | ifbr c a ob =>
        cases hg : succEdgeOfType st.1 i .goto with
        | none =>
          exact Or.inr (Or.inr (by simp only [opt1Block, hgb, hl, hg]))
        | some ge =>
          cases hb2 : succEdgeOfType st.1 i .branch with
          | none =>
            exact Or.inr (Or.inr (by simp only [opt1Block, hgb, hl, hg, hb2]))
          | some be =>
            by_cases hc : ((decide ((predEdges st.1 ge.tgt).length > 1)
                && (predEdges st.1 be.tgt).length == 1) = true)
            · refine Or.inr (Or.inl ⟨b, c, a, ob, ge, be, rfl, hl, rfl, rfl,
                ?_, ?_, ?_⟩)
              · simp only [Bool.and_eq_true, decide_eq_true_eq, beq_iff_eq]
                  at hc
                exact hc.1
              · simp only [Bool.and_eq_true, decide_eq_true_eq, beq_iff_eq]
                  at hc
                exact hc.2
              · simp only [opt1Block, hgb, hl, hg, hb2]
                rw [if_pos hc]
            · refine Or.inl ?_
              simp only [opt1Block, hgb, hl, hg, hb2]
              rw [if_neg hc]
      | move w d sr => exact Or.inl (by simp only [opt1Block, hgb, hl])
      | ret w os => exact Or.inl (by simp only [opt1Block, hgb, hl])
      | other d ss c => exact Or.inl (by simp only [opt1Block, hgb, hl])

theorem opt1Go_stats :
    ∀ (ids : List Nat) (st : CFG × Stats) (cfg1 : CFG) (s1 : Stats),
      opt1Go ids st = .ok (cfg1, s1) →
      s1.replaced_gotos_with_returns = st.2.replaced_gotos_with_returns ∧
      s1.removed_trailing_moves = st.2.removed_trailing_moves := by
  intro ids
  induction ids with
  | nil =>
    intro st cfg1 s1 h
    have h2 : st = (cfg1, s1) := Except.ok.inj h
    rw [h2]
    exact ⟨rfl, rfl⟩
  | cons i rest ih =>
    intro st cfg1 s1 h
    unfold opt1Go at h
    rcases opt1Block_cases st i with hid | ⟨b, c, a, ob, ge, be,
        _, _, _, _, _, _, hsw⟩ | herr
    · rw [hid] at h
      exact ih st cfg1 s1 h
    · rw [hsw] at h
      have := ih _ cfg1 s1 h
      simpa [Stats.incInverted] using this
    · rw [herr] at h
      exact Except.noConfusion h

/-- C10 (implicit): after `process_code` succeeds, the
trailing-moves-removed counter never exceeds the
gotos-replaced-with-returns counter: every move elimination also queues
its GOTO edge for deletion, and every queued edge bumps the gotos
counter. -/
theorem claim_C10 (orderFn : CFG → List Nat) (cfg cfg' : CFG) (st : Stats)
    (h : process_code orderFn cfg = .ok (cfg', st)) :
    st.removed_trailing_moves ≤ st.replaced_gotos_with_returns := by
  unfold process_code at h
  rcases h1 : opt1 cfg ⟨0, 0, 0⟩ with e | ⟨c1, s1⟩
  · rw [h1] at h
    exact Except.noConfusion h
  · rw [h1] at h
    have h' : (match opt2Loop (orderFn c1) (moveCount c1 + 1) c1 s1 with
        | some r => Except.ok r
        | none => (Except.error PErr.fuelExhausted : Except PErr (CFG × Stats)))
        = Except.ok (cfg', st) := h
    rcases h2 : opt2Loop (orderFn c1) (moveCount c1 + 1) c1 s1 with _ | r
    · rw [h2] at h'
      exact Except.noConfusion h'
    · rw [h2] at h'
      have hr : r = (cfg', st) := Except.ok.inj h'
      rw [hr] at h2
      obtain ⟨hs1r, hs1m⟩ := opt1Go_stats _ _ c1 s1 h1
      have hloop := opt2Loop_acct (orderFn c1) (moveCount c1 + 1) c1 s1
        cfg' st h2
      simp only [] at hs1r hs1m
      omega

theorem claim_C10_witness : (1 : Nat) ≤ 1 :=
  claim_C10 (fun c => c.blocks.map Blk.bid)
    ⟨[⟨0, [.move false 1 0]⟩, ⟨1, [.ret false (some 1)]⟩],
     [⟨10, 0, 1, .goto⟩]⟩
    ⟨[⟨0, [.ret false (some 0)]⟩, ⟨1, [.ret false (some 1)]⟩], []⟩
    ⟨1, 1, 0⟩ rfl

/-! ## Support lemmas for the edge invariant -/

/-- Block ids are pairwise distinct (block identity). -/
def BidsNodup (cfg : CFG) : Prop := (cfg.blocks.map Blk.bid).Nodup

theorem getBlk_bid (cfg : CFG) (i : Nat) (b : Blk)
    (h : getBlk cfg i = some b) : b.bid = i := by
  have := List.find?_some h
  simpa using this

theorem getBlk_mem (cfg : CFG) (i : Nat) (b : Blk)
    (h : getBlk cfg i = some b) : b ∈ cfg.blocks :=
  List.mem_of_find?_eq_some h

theorem getBlk_of_mem (cfg : CFG) (b : Blk) (hmem : b ∈ cfg.blocks)
    (hnd : BidsNodup cfg) : getBlk cfg b.bid = some b := by
  apply find?_eq_of_unique _ _ b hmem (by simp)
  intro b2 hb2 hpb
  have : b2.bid = b.bid := by simpa using hpb
  exact List.inj_on_of_nodup_map hnd hb2 hmem this

/-- A nonempty filter yields a `find?` hit for the same predicate. -/
theorem find?_isSome_of_filter_pos (p : α → Bool) (l : List α)
    (h : 0 < (l.filter p).length) : ∃ a, l.find? p = some a := by
  induction l with
  | nil => simp [List.filter] at h
  | cons x rest ih =>
    by_cases hx : p x
    · exact ⟨x, List.find?_cons_of_pos _ hx⟩
    · rw [List.find?_cons_of_neg _ hx]
      apply ih
      simpa [List.filter_cons, hx] using h

/-- Membership in an updated block list: a block is an original one or the
rewrite of the looked-up block. -/
theorem mem_updateBlkList (bs : List Blk) (i : Nat)
    (f : List Insn → List Insn) (bF : Blk)
    (hF : bs.find? (fun x => x.bid == i) = some bF) :
    ∀ b2 ∈ updateBlkList bs i f, b2 ∈ bs ∨ b2 = ⟨bF.bid, f bF.insns⟩ := by
  induction bs with
  | nil => intro b2 h; cases h
  | cons x rest ih =>
    intro b2 h
    by_cases hx : x.bid = i
    · rw [List.find?_cons_of_pos _ (by simp [hx])] at hF
      cases hF
      simp only [updateBlkList] at h
      rw [if_pos (by simp [hx])] at h
      rcases List.mem_cons.mp h with h2 | h2
      · exact Or.inr h2
      · exact Or.inl (by simp [h2])
    · rw [List.find?_cons_of_neg _ (by simpa using hx)] at hF
      simp only [updateBlkList] at h
      rw [if_neg (by simpa using hx)] at h
      rcases List.mem_cons.mp h with h2 | h2
      · exact Or.inl (by simp [h2])
      · rcases ih hF b2 h2 with h3 | h3
        · exact Or.inl (by simp [h3])
        · exact Or.inr h3

theorem updateBlkList_twice (i : Nat) (f g : List Insn → List Insn) :
    ∀ bs : List Blk,
      updateBlkList (updateBlkList bs i f) i g
        = updateBlkList bs i (fun l => g (f l)) := by
  intro bs
  induction bs with
  | nil => rfl
  | cons x rest ih =>
    simp only [updateBlkList]
    by_cases hx : (x.bid == i) = true
    · rw [if_pos hx, if_pos hx]
      simp only [updateBlkList]
      rw [if_pos hx]
    · rw [if_neg hx, if_neg hx]
      simp only [updateBlkList]
      rw [if_neg hx, ih]

/-- Two successive updates of the same block compose. -/
theorem updBlk_updBlk (cfg : CFG) (i : Nat)
    (f g : List Insn → List Insn) :
    (cfg.updBlk i f).updBlk i g = cfg.updBlk i (fun l => g (f l)) := by
  show CFG.mk (updateBlkList (updateBlkList cfg.blocks i f) i g) cfg.edges
      = CFG.mk (updateBlkList cfg.blocks i (fun l => g (f l))) cfg.edges
  rw [updateBlkList_twice]

/-- Retargeting edges never changes any source/type filter count. -/
theorem filterLen_map_retarget (E : List Edge) (eid nt : Nat)
    (p : Edge → Bool) (hp : ∀ e, p (retargetFn eid nt e) = p e) :
    ((E.map (retargetFn eid nt)).filter p).length = (E.filter p).length := by
  rw [← List.countP_eq_length_filter, ← List.countP_eq_length_filter,
    List.countP_map]
  apply List.countP_congr
  intro e _
  simp [Function.comp, hp e]

/-- Updating a block keeps the block-id list, hence `BidsNodup`. -/
theorem bidsNodup_updBlk (cfg : CFG) (i : Nat) (f : List Insn → List Insn)
    (h : BidsNodup cfg) : BidsNodup (cfg.updBlk i f) := by
  unfold BidsNodup at h ⊢
  rw [updBlk_bids]
  exact h

theorem eidsNodup_setEdgeTarget (cfg : CFG) (eid nt : Nat)
    (h : EidsNodup cfg) : EidsNodup (setEdgeTarget cfg eid nt) := by
  unfold EidsNodup at h ⊢
  rw [setEdgeTarget_edges]
  have : (cfg.edges.map (retargetFn eid nt)).map Edge.eid
      = cfg.edges.map Edge.eid := by
    rw [List.map_map]
    apply List.map_congr_left
    intro e _
    simp [Function.comp, retargetFn_eid]
  rw [this]
  exact h

theorem eidsNodup_deleteEdge (cfg : CFG) (eid : Nat)
    (h : EidsNodup cfg) : EidsNodup (deleteEdge cfg eid) := by
  unfold EidsNodup at h ⊢
  show ((cfg.edges.filter (fun e => e.eid != eid)).map Edge.eid).Nodup
  exact List.Nodup.sublist
    (List.Sublist.map Edge.eid (List.filter_sublist cfg.edges)) h

/-! ## The edge invariant through Optimization 1; claim C8 -/

theorem lastIsIfbr_of (l : List Insn) (c : CondOp) (a : Nat) (ob : Option Nat)
    (h : l.getLast? = some (.ifbr c a ob)) : lastIsIfbr l = true := by
  unfold lastIsIfbr
  rw [h]
  rfl

/-- Under the edge invariant, a conditional-branch block has both its GOTO
and its BRANCH successor edge. -/
theorem edgeInvariant_succ (cfg : CFG) (i : Nat) (b : Blk) (c : CondOp)
    (a : Nat) (ob : Option Nat)
    (hinv : EdgeInvariant cfg) (hgb : getBlk cfg i = some b)
    (hl : b.insns.getLast? = some (.ifbr c a ob)) :
    (∃ ge, succEdgeOfType cfg i .goto = some ge) ∧
    (∃ be, succEdgeOfType cfg i .branch = some be) := by
  have hb := getBlk_mem cfg i b hgb
  have hbid := getBlk_bid cfg i b hgb
  obtain ⟨hcg, hcb⟩ := hinv b hb (lastIsIfbr_of _ c a ob hl)
  constructor
  · obtain ⟨e, he⟩ := find?_isSome_of_filter_pos
      (fun e => e.src == b.bid && e.ty == EdgeTy.goto) cfg.edges
      (by rw [hcg]; omega)
    refine ⟨e, ?_⟩
    show succEdgeOfTypeL cfg.edges i .goto = some e
    rw [← hbid]
    exact he
  · obtain ⟨e, he⟩ := find?_isSome_of_filter_pos
      (fun e => e.src == b.bid && e.ty == EdgeTy.branch) cfg.edges
      (by rw [hcb]; omega)
    refine ⟨e, ?_⟩
    show succEdgeOfTypeL cfg.edges i .branch = some e
    rw [← hbid]
    exact he

/-- The branch-inversion rewrite preserves the edge invariant: retargeting
changes no (source, type) count, and the rewritten block still ends in a
conditional branch with the same id. -/
theorem edgeInvariant_swap (cfg : CFG) (i : Nat) (b : Blk) (c : CondOp)
    (a : Nat) (ob : Option Nat) (ge be : Edge)
    (hinv : EdgeInvariant cfg)
    (hgb : getBlk cfg i = some b)
    (hl : b.insns.getLast? = some (.ifbr c a ob)) :
    EdgeInvariant (setEdgeTarget (setEdgeTarget
      (cfg.updBlk i (fun l => l.dropLast ++ [.ifbr (invertCond c) a ob]))
      be.eid ge.tgt) ge.eid be.tgt) := by
  intro b2 hb2 hguard
  have hcnt : ∀ (t : EdgeTy) (j : Nat),
      (((cfg.edges.map (retargetFn be.eid ge.tgt)).map
          (retargetFn ge.eid be.tgt)).filter
        (fun e => e.src == j && e.ty == t)).length
      = (cfg.edges.filter (fun e => e.src == j && e.ty == t)).length := by
    intro t j
    rw [filterLen_map_retarget _ _ _ _
        (by intro e; simp [retargetFn_src, retargetFn_ty]),
      filterLen_map_retarget _ _ _ _
        (by intro e; simp [retargetFn_src, retargetFn_ty])]
  have hmem : b2 ∈ updateBlkList cfg.blocks i
      (fun l => l.dropLast ++ [.ifbr (invertCond c) a ob]) := hb2
  show ((((cfg.edges.map (retargetFn be.eid ge.tgt)).map
      (retargetFn ge.eid be.tgt)).filter
      (fun e => e.src == b2.bid && e.ty == EdgeTy.goto)).length = 1) ∧
    ((((cfg.edges.map (retargetFn be.eid ge.tgt)).map
      (retargetFn ge.eid be.tgt)).filter
      (fun e => e.src == b2.bid && e.ty == EdgeTy.branch)).length = 1)
  rw [hcnt, hcnt]
  rcases mem_updateBlkList cfg.blocks i _ b hgb b2 hmem with h2 | h2
  · exact hinv b2 h2 hguard
  · rw [h2]
    exact hinv b (getBlk_mem cfg i b hgb) (lastIsIfbr_of _ c a ob hl)

/-- Inversion of the abort: `opt1Block` fails only on a conditional-branch
block with a missing GOTO or BRANCH successor edge. -/
theorem opt1Block_error_inv (st : CFG × Stats) (i : Nat)
    (h : opt1Block st i = .error .missingEdge) :
    ∃ b c a ob, getBlk st.1 i = some b ∧
      b.insns.getLast? = some (.ifbr c a ob) ∧
      (succEdgeOfType st.1 i .goto = none ∨
       succEdgeOfType st.1 i .branch = none) := by
  cases hgb : getBlk st.1 i with
  | none =>
    rw [show opt1Block st i = .ok st from by simp only [opt1Block, hgb]] at h
    exact Except.noConfusion h
  | some b =>
    cases hl : b.insns.getLast? with
    | none =>
      rw [show opt1Block st i = .ok (st.1, st.2) from by
        simp only [opt1Block, hgb, hl]] at h
      exact Except.noConfusion h
    | some insn =>
      cases insn with
      | ifbr c a ob =>
        cases hg : succEdgeOfType st.1 i .goto with
        | none => exact ⟨b, c, a, ob, rfl, hl, Or.inl rfl⟩
        | some ge =>
          cases hb2 : succEdgeOfType st.1 i .branch with
          | none => exact ⟨b, c, a, ob, rfl, hl, Or.inr rfl⟩
          | some be =>
            exfalso
            by_cases hc : ((decide ((predEdges st.1 ge.tgt).length > 1)
                && (predEdges st.1 be.tgt).length == 1) = true)
            · rw [show opt1Block st i = .ok (setEdgeTarget (setEdgeTarget
                  (st.1.updBlk i (fun l => l.dropLast
                    ++ [.ifbr (invertCond c) a ob])) be.eid ge.tgt)
                  ge.eid be.tgt, st.2.incInverted) from by
                simp only [opt1Block, hgb, hl, hg, hb2]
                rw [if_pos hc]] at h
              exact Except.noConfusion h
            · rw [show opt1Block st i = .ok (st.1, st.2) from by
                simp only [opt1Block, hgb, hl, hg, hb2]
                rw [if_neg hc]] at h
              exact Except.noConfusion h
      | move w d sr =>
        rw [show opt1Block st i = .ok (st.1, st.2) from by
          simp only [opt1Block, hgb, hl]] at h
        exact Except.noConfusion h
      | ret w os =>
        rw [show opt1Block st i = .ok (st.1, st.2) from by
          simp only [opt1Block, hgb, hl]] at h
        exact Except.noConfusion h
      | other d ss cd =>
        rw [show opt1Block st i = .ok (st.1, st.2) from by
          simp only [opt1Block, hgb, hl]] at h
        exact Except.noConfusion h

/-- On a CFG satisfying the edge invariant, Optimization 1 runs to
completion and preserves the invariant. -/
theorem opt1Go_inv :
    ∀ (ids : List Nat) (cfg : CFG) (s : Stats), EdgeInvariant cfg →
      ∃ cfg1 s1, opt1Go ids (cfg, s) = .ok (cfg1, s1) ∧ EdgeInvariant cfg1 := by
  intro ids
  induction ids with
  | nil => intro cfg s hinv; exact ⟨cfg, s, rfl, hinv⟩
  | cons i rest ih =>
    intro cfg s hinv
    rcases opt1Block_cases (cfg, s) i with hid | ⟨b, c, a, ob, ge, be,
        hgb, hl, hg, hb2, _, _, hsw⟩ | herr
    · obtain ⟨cfg1, s1, hrec, hinv1⟩ := ih cfg s hinv
      refine ⟨cfg1, s1, ?_, hinv1⟩
      unfold opt1Go
      rw [hid]
      exact hrec
    · have hinv2 := edgeInvariant_swap cfg i b c a ob ge be hinv hgb hl
      obtain ⟨cfg1, s1, hrec, hinv1⟩ := ih _ s.incInverted hinv2
      refine ⟨cfg1, s1, ?_, hinv1⟩
      unfold opt1Go
      rw [hsw]
      exact hrec
    · exfalso
      obtain ⟨b, c, a, ob, hgb, hl, hmiss⟩ := opt1Block_error_inv (cfg, s) i herr
      obtain ⟨⟨ge, hge⟩, ⟨be, hbe⟩⟩ := edgeInvariant_succ cfg i b c a ob hinv hgb hl
      rcases hmiss with hm | hm
      · rw [hge] at hm; cases hm
      · rw [hbe] at hm; cases hm

/-- C8: locating the GOTO/BRANCH successor edges of a conditional-branch
block fails loudly: a missing edge makes `opt1Block` abort with the
missing-edge error rather than skip; and when the input CFG satisfies the
edge invariant the abort branch is unreachable — the whole pass completes
successfully. -/
theorem claim_C8 (orderFn : CFG → List Nat) (cfg : CFG) :
    (∀ (st : Stats) (i : Nat) (b : Blk) (c : CondOp) (a : Nat)
       (ob : Option Nat), getBlk cfg i = some b →
      b.insns.getLast? = some (.ifbr c a ob) →
      (succEdgeOfType cfg i .goto = none ∨
       succEdgeOfType cfg i .branch = none) →
      opt1Block (cfg, st) i = .error .missingEdge) ∧
    (EdgeInvariant cfg → ∃ r, process_code orderFn cfg = .ok r) := by
  constructor
  · intro st i b c a ob hgb hl hmiss
    rcases hmiss with hm | hm
    · simp only [opt1Block, hgb, hl, hm]
    · cases hg2 : succEdgeOfType cfg i .goto with
      | none => simp only [opt1Block, hgb, hl, hg2]
      | some ge => simp only [opt1Block, hgb, hl, hg2, hm]
  · intro hinv
    obtain ⟨cfg1, s1, hgo, _⟩ :=
      opt1Go_inv (cfg.blocks.map Blk.bid) cfg ⟨0, 0, 0⟩ hinv
    have hs := opt2Loop_isSome (orderFn cfg1) (moveCount cfg1 + 1) cfg1 s1
      (by omega)
    rcases ho : opt2Loop (orderFn cfg1) (moveCount cfg1 + 1) cfg1 s1
      with _ | r
    · rw [ho] at hs; cases hs
    · refine ⟨r, ?_⟩
      show (match opt1 cfg ⟨0, 0, 0⟩ with
        | .error e => .error e
        | .ok (cfg1, stats1) =>
          match opt2Loop (orderFn cfg1) (moveCount cfg1 + 1) cfg1 stats1 with
          | some r => Except.ok r
          | none => .error PErr.fuelExhausted) = Except.ok r
      rw [show opt1 cfg ⟨0, 0, 0⟩ = .ok (cfg1, s1) from hgo]
      show (match opt2Loop (orderFn cfg1) (moveCount cfg1 + 1) cfg1 s1 with
        | some r => Except.ok r
        | none => (.error PErr.fuelExhausted : Except PErr (CFG × Stats)))
          = Except.ok r
      rw [ho]

/-- A malformed CFG for C8: block 0 ends in a conditional branch but has a
BRANCH successor edge only. -/
def c8bad : CFG :=
  ⟨[⟨0, [.ifbr .ceqz 0 none]⟩, ⟨1, [.ret false none]⟩],
   [⟨3, 0, 1, .branch⟩]⟩

theorem claim_C8_witness :
    opt1Block (c8bad, (⟨0, 0, 0⟩ : Stats)) 0 = .error .missingEdge ∧
    (∃ r, process_code (fun c => c.blocks.map Blk.bid)
      ⟨[⟨0, [.ret false none]⟩], []⟩ = .ok r) :=
  ⟨(claim_C8 (fun c => c.blocks.map Blk.bid) c8bad).1 ⟨0, 0, 0⟩ 0
      ⟨0, [.ifbr .ceqz 0 none]⟩ .ceqz 0 none rfl rfl (Or.inl rfl),
   (claim_C8 (fun c => c.blocks.map Blk.bid) ⟨[⟨0, [.ret false none]⟩], []⟩).2
     (by unfold EdgeInvariant; decide)⟩

/-! ## Claim C6: the edge invariant survives the whole pass -/

/-- Every edge queued for deletion is a GOTO edge whose source block (when
it exists) now ends in a return, so deleting it cannot strip a
conditional-branch block of an edge. -/
def QueueInv (cfg : CFG) (q : List Nat) : Prop :=
  ∀ eid ∈ q, ∀ e ∈ cfg.edges, e.eid = eid →
    e.ty = .goto ∧ ∀ sb, getBlk cfg e.src = some sb →
      ∃ r, sb.insns.getLast? = some r ∧ isRet r = true

theorem isRet_insnSetSrc0_of_ret (retI : Insn) (ms : Nat)
    (hr : isRet retI = true) : isRet (insnSetSrc0 retI ms) = true := by
  cases retI <;> simp_all [isRet, insnSetSrc0]
  rename_i w os
  cases os <;> simp [insnSetSrc0, isRet]

theorem isIfbr_of_ret_false (r : Insn) (h : isRet r = true) :
    isIfbr r = false := by
  cases r <;> simp_all [isRet, isIfbr]

theorem lastIsIfbr_ne_ret (l : List Insn) (r : Insn)
    (hif : lastIsIfbr l = true) (hl : l.getLast? = some r)
    (hr : isRet r = true) : False := by
  unfold lastIsIfbr at hif
  rw [hl] at hif
  have hif2 : isIfbr r = true := hif
  rw [isIfbr_of_ret_false r hr] at hif2
  cases hif2

/-- Updating a block with a function that always ends its output in a
fixed non-conditional-branch instruction preserves the edge invariant. -/
theorem edgeInvariant_updBlk_lastNonIf (cfg : CFG) (i : Nat)
    (f : List Insn → List Insn) (x : Insn)
    (hx : isIfbr x = false) (hf : ∀ l, (f l).getLast? = some x)
    (hinv : EdgeInvariant cfg) : EdgeInvariant (cfg.updBlk i f) := by
  cases hgb : getBlk cfg i with
  | none =>
    rw [getBlk_updBlk_none _ _ _ hgb]
    exact hinv
  | some bF =>
    intro b2 hb2 hguard
    rcases mem_updateBlkList cfg.blocks i f bF hgb b2 hb2 with h2 | h2
    · exact hinv b2 h2 hguard
    · exfalso
      rw [h2] at hguard
      unfold lastIsIfbr at hguard
      simp only [hf] at hguard
      rw [hx] at hguard
      cases hguard

/-- The same update keeps every return-terminated block return-terminated
when the appended instruction is a return. -/
theorem lastRet_updBlk (cfg : CFG) (i : Nat) (f : List Insn → List Insn)
    (x : Insn) (hf : ∀ l, (f l).getLast? = some x) (hx : isRet x = true)
    (j : Nat) (sb : Blk) (hj : getBlk (cfg.updBlk i f) j = some sb)
    (hold : ∀ sb0, getBlk cfg j = some sb0 →
      ∃ r, sb0.insns.getLast? = some r ∧ isRet r = true) :
    ∃ r, sb.insns.getLast? = some r ∧ isRet r = true := by
  by_cases hji : j = i
  · subst hji
    cases hgb : getBlk cfg j with
    | none =>
      rw [getBlk_updBlk_none _ _ _ hgb] at hj
      exact hold sb (by rw [← hj, hgb])
    | some b0 =>
      rw [getBlk_updBlk_self cfg j f b0 hgb] at hj
      cases hj
      exact ⟨x, hf b0.insns, hx⟩
  · rw [getBlk_updBlk_ne cfg i f j hji] at hj
    exact hold sb hj

theorem processEdge_edges (retI : Insn) (prev : Option Nat) (st : ScanSt)
    (e : Edge) : (processEdge retI prev st e).cfg.edges = st.cfg.edges := by
  rcases processEdge_cases retI prev st e with h | ⟨_, _, h⟩ | ⟨_, ms, _, h⟩ <;>
    rw [h] <;> rfl

/-- The scan step preserves the C6 state invariant. -/
theorem processEdge_C6 (retI : Insn) (prev : Option Nat) (st : ScanSt)
    (e : Edge) (hr : isRet retI = true) (hmem : e ∈ st.cfg.edges)
    (hnd : EidsNodup st.cfg)
    (hinv : EdgeInvariant st.cfg) (hq : QueueInv st.cfg st.queue) :
    EdgeInvariant (processEdge retI prev st e).cfg ∧
    QueueInv (processEdge retI prev st e).cfg
      (processEdge retI prev st e).queue := by
  rcases processEdge_cases retI prev st e with h | ⟨hty, _, h⟩ |
    ⟨hty, ms, _, h⟩
  · rw [h]; exact ⟨hinv, hq⟩
  · rw [h]
    have hf : ∀ l : List Insn, (l ++ [retI]).getLast? = some retI :=
      fun l => List.getLast?_concat l
    refine ⟨edgeInvariant_updBlk_lastNonIf st.cfg e.src _ retI
      (isIfbr_of_ret_false retI hr) hf hinv, ?_⟩
    intro eid heid e2 he2 heq
    have he2' : e2 ∈ st.cfg.edges := he2
    rcases List.mem_append.mp heid with hold | hnew
    · obtain ⟨ht2, hb2⟩ := hq eid hold e2 he2' heq
      refine ⟨ht2, ?_⟩
      intro sb hsb
      exact lastRet_updBlk st.cfg e.src _ retI hf hr e2.src sb hsb hb2
    · have heid2 : eid = e.eid := by simpa using hnew
      subst heid2
      have he2e : e2 = e := List.inj_on_of_nodup_map hnd he2' hmem heq
      subst he2e
      refine ⟨hty, ?_⟩
      intro sb hsb
      cases hgb : getBlk st.cfg e2.src with
      | none =>
        rw [getBlk_updBlk_none _ _ _ hgb] at hsb
        rw [hgb] at hsb
        cases hsb
      | some b0 =>
        rw [getBlk_updBlk_self st.cfg e2.src _ b0 hgb] at hsb
        cases hsb
        exact ⟨retI, List.getLast?_concat _, hr⟩
  · rw [h, updBlk_updBlk]
    have hf : ∀ l : List Insn,
        ((fun l2 => l2 ++ [insnSetSrc0 retI ms]) (List.dropLast l)).getLast?
          = some (insnSetSrc0 retI ms) :=
      fun l => List.getLast?_concat _
    have hrc : isRet (insnSetSrc0 retI ms) = true :=
      isRet_insnSetSrc0_of_ret retI ms hr
    refine ⟨edgeInvariant_updBlk_lastNonIf st.cfg e.src _ _
      (isIfbr_of_ret_false _ hrc) hf hinv, ?_⟩
    intro eid heid e2 he2 heq
    have he2' : e2 ∈ st.cfg.edges := he2
    rcases List.mem_append.mp heid with hold | hnew
    · obtain ⟨ht2, hb2⟩ := hq eid hold e2 he2' heq
      refine ⟨ht2, ?_⟩
      intro sb hsb
      exact lastRet_updBlk st.cfg e.src _ _ hf hrc e2.src sb hsb hb2
    · have heid2 : eid = e.eid := by simpa using hnew
      subst heid2
      have he2e : e2 = e := List.inj_on_of_nodup_map hnd he2' hmem heq
      subst he2e
      refine ⟨hty, ?_⟩
      intro sb hsb
      cases hgb : getBlk st.cfg e2.src with
      | none =>
        rw [getBlk_updBlk_none _ _ _ hgb] at hsb
        rw [hgb] at hsb
        cases hsb
      | some b0 =>
        rw [getBlk_updBlk_self st.cfg e2.src _ b0 hgb] at hsb
        cases hsb
        exact ⟨insnSetSrc0 retI ms, List.getLast?_concat _, hrc⟩

theorem foldl_inv_mem {α β : Type} (f : α → β → α) (P : α → Prop) :
    ∀ l : List β, (∀ a x, x ∈ l → P a → P (f a x)) →
      ∀ a, P a → P (l.foldl f a) := by
  intro l
  induction l with
  | nil => intro _ a h; exact h
  | cons x rest ih =>
    intro hstep a h
    simp only [List.foldl_cons]
    exact ih (fun a2 y hy ha => hstep a2 y (List.mem_cons_of_mem x hy) ha)
      (f a x) (hstep a x (List.mem_cons_self x rest) h)

theorem eidsNodup_of_edges_eq (c1 c2 : CFG) (h : c1.edges = c2.edges)
    (hn : EidsNodup c2) : EidsNodup c1 := by
  unfold EidsNodup at hn ⊢
  rw [h]
  exact hn

theorem bidsNodup_of_bids_eq (c1 c2 : CFG)
    (h : c1.blocks.map Blk.bid = c2.blocks.map Blk.bid)
    (hn : BidsNodup c2) : BidsNodup c1 := by
  unfold BidsNodup at hn ⊢
  rw [h]
  exact hn

theorem processEdge_bids (retI : Insn) (prev : Option Nat) (st : ScanSt)
    (e : Edge) :
    (processEdge retI prev st e).cfg.blocks.map Blk.bid
      = st.cfg.blocks.map Blk.bid := by
  rcases processEdge_cases retI prev st e with h | ⟨_, _, h⟩ | ⟨_, ms, _, h⟩ <;>
    rw [h] <;> simp only [updBlk_bids]

/-- The whole per-block scan step: edge invariant, queue invariant, edge
set and block-id list are all preserved. -/
theorem processBlock_C6 (prev : Option Nat) (st : ScanSt) (i : Nat)
    (hnd : EidsNodup st.cfg)
    (hinv : EdgeInvariant st.cfg) (hq : QueueInv st.cfg st.queue) :
    EdgeInvariant (processBlock prev st i).cfg ∧
    QueueInv (processBlock prev st i).cfg (processBlock prev st i).queue ∧
    (processBlock prev st i).cfg.edges = st.cfg.edges ∧
    (processBlock prev st i).cfg.blocks.map Blk.bid
      = st.cfg.blocks.map Blk.bid := by
  rcases processBlock_cases prev st i with h | ⟨b, retI, _, _, hr, h⟩
  · rw [h]
    exact ⟨hinv, hq, rfl, rfl⟩
  · rw [h]
    have := foldl_inv_mem (processEdge retI prev)
      (fun a => EdgeInvariant a.cfg ∧ QueueInv a.cfg a.queue ∧
        a.cfg.edges = st.cfg.edges ∧
        a.cfg.blocks.map Blk.bid = st.cfg.blocks.map Blk.bid)
      (predEdges st.cfg i)
      (by
        intro a e hmem ⟨ha1, ha2, ha3, ha4⟩
        have hmem2 : e ∈ a.cfg.edges := by
          rw [ha3]
          exact List.mem_of_mem_filter hmem
        have hnd2 : EidsNodup a.cfg := eidsNodup_of_edges_eq _ _ ha3 hnd
        obtain ⟨hb1, hb2⟩ := processEdge_C6 retI prev a e hr hmem2 hnd2 ha1 ha2
        refine ⟨hb1, hb2, ?_, ?_⟩
        · rw [processEdge_edges, ha3]
        · rw [processEdge_bids, ha4])
      st ⟨hinv, hq, rfl, rfl⟩
    exact this

theorem scanGo_C6 :
    ∀ (order : List Nat) (prev : Option Nat) (st : ScanSt),
      EidsNodup st.cfg → EdgeInvariant st.cfg → QueueInv st.cfg st.queue →
      EdgeInvariant (scanGo prev order st).cfg ∧
      QueueInv (scanGo prev order st).cfg (scanGo prev order st).queue ∧
      (scanGo prev order st).cfg.edges = st.cfg.edges ∧
      (scanGo prev order st).cfg.blocks.map Blk.bid
        = st.cfg.blocks.map Blk.bid := by
  intro order
  induction order with
  | nil => intro prev st _ hinv hq; exact ⟨hinv, hq, rfl, rfl⟩
  | cons i rest ih =>
    intro prev st hnd hinv hq
    obtain ⟨h1, h2, h3, h4⟩ := processBlock_C6 prev st i hnd hinv hq
    obtain ⟨g1, g2, g3, g4⟩ := ih (some i) (processBlock prev st i)
      (eidsNodup_of_edges_eq _ _ h3 hnd) h1 h2
    simp only [scanGo]
    refine ⟨g1, g2, ?_, ?_⟩
    · rw [g3, h3]
    · rw [g4, h4]

/-- The batch deletion preserves the edge invariant: each queued edge is a
GOTO edge out of a (now) return-terminated block, never out of a block
still ending in a conditional branch. -/
theorem deleteQueuedGo_C6 :
    ∀ (q : List Nat) (cfg : CFG) (stats : Stats),
      EdgeInvariant cfg → BidsNodup cfg → EidsNodup cfg → QueueInv cfg q →
      EdgeInvariant (deleteQueuedGo q cfg stats).1 := by
  intro q
  induction q with
  | nil => intro cfg stats h _ _ _; exact h
  | cons eid0 rest ih =>
    intro cfg stats hinv hbnd hend hq
    show EdgeInvariant
      (deleteQueuedGo rest (deleteEdge cfg eid0) stats.incGotos).1
    apply ih
    · intro b2 hb2 hguard
      have hb2' : b2 ∈ cfg.blocks := hb2
      obtain ⟨hcg, hcb⟩ := hinv b2 hb2' hguard
      have hkey : ∀ t : EdgeTy,
          (∀ e ∈ cfg.edges, (e.src == b2.bid && e.ty == t) = true →
            (e.eid != eid0) = true) →
          ((deleteEdge cfg eid0).edges.filter
            (fun e => e.src == b2.bid && e.ty == t)).length
          = (cfg.edges.filter
            (fun e => e.src == b2.bid && e.ty == t)).length := by
        intro t hpt
        show ((cfg.edges.filter (fun e => e.eid != eid0)).filter
            (fun e => e.src == b2.bid && e.ty == t)).length = _
        rw [List.filter_filter]
        congr 1
        apply List.filter_congr
        intro e he
        by_cases hp : (e.src == b2.bid && e.ty == t) = true
        · rw [hp, hpt e he hp]
          rfl
        · rw [Bool.eq_false_iff.mpr hp]
          simp
      have hgoto : ∀ e ∈ cfg.edges,
          (e.src == b2.bid && e.ty == EdgeTy.goto) = true →
          (e.eid != eid0) = true := by
        intro e he hp
        simp only [Bool.and_eq_true, beq_iff_eq] at hp
        by_contra hcon
        have heq : e.eid = eid0 := by simpa using hcon
        obtain ⟨_, hblk⟩ := hq eid0 (List.mem_cons_self _ _) e he heq
        obtain ⟨r, hlast, hret⟩ := hblk b2
          (by rw [hp.1]; exact getBlk_of_mem cfg b2 hb2' hbnd)
        exact lastIsIfbr_ne_ret b2.insns r hguard hlast hret
      have hbranch : ∀ e ∈ cfg.edges,
          (e.src == b2.bid && e.ty == EdgeTy.branch) = true →
          (e.eid != eid0) = true := by
        intro e he hp
        simp only [Bool.and_eq_true, beq_iff_eq] at hp
        by_contra hcon
        have heq : e.eid = eid0 := by simpa using hcon
        obtain ⟨hty, _⟩ := hq eid0 (List.mem_cons_self _ _) e he heq
        rw [hp.2] at hty
        cases hty
      exact ⟨by rw [hkey EdgeTy.goto hgoto]; exact hcg,
             by rw [hkey EdgeTy.branch hbranch]; exact hcb⟩
    · exact hbnd
    · exact eidsNodup_deleteEdge cfg eid0 hend
    · intro eid2 h2 e2 he2 heq
      have he2' : e2 ∈ cfg.edges := List.mem_of_mem_filter he2
      obtain ⟨ht, hb⟩ := hq eid2 (List.mem_cons_of_mem _ h2) e2 he2' heq
      exact ⟨ht, fun sb hsb => hb sb hsb⟩

/-- One iteration of Optimization 2 preserves the edge invariant and both
handle-distinctness conditions. -/
theorem opt2Iter_C6 (order : List Nat) (cfg : CFG) (stats : Stats)
    (hinv : EdgeInvariant cfg) (hbnd : BidsNodup cfg)
    (hend : EidsNodup cfg) :
    EdgeInvariant (opt2Iter order cfg stats).1 ∧
    BidsNodup (opt2Iter order cfg stats).1 ∧
    EidsNodup (opt2Iter order cfg stats).1 := by
  obtain ⟨h1, h2, h3, h4⟩ := scanGo_C6 order none ⟨cfg, stats, false, []⟩
    hend hinv (by intro eid h; cases h)
  have hspec := deleteQueuedGo_spec
    (scanGo none order ⟨cfg, stats, false, []⟩).queue
    (scanGo none order ⟨cfg, stats, false, []⟩).cfg
    (scanGo none order ⟨cfg, stats, false, []⟩).stats
  have hbnd2 : BidsNodup (scanGo none order ⟨cfg, stats, false, []⟩).cfg :=
    bidsNodup_of_bids_eq _ _ h4 hbnd
  have hend2 : EidsNodup (scanGo none order ⟨cfg, stats, false, []⟩).cfg :=
    eidsNodup_of_edges_eq _ _ h3 hend
  refine ⟨deleteQueuedGo_C6 _ _ _ h1 hbnd2 hend2 h2, ?_, ?_⟩
  · apply bidsNodup_of_bids_eq _ _ _ hbnd2
    show (deleteQueuedGo (scanGo none order ⟨cfg, stats, false, []⟩).queue
        (scanGo none order ⟨cfg, stats, false, []⟩).cfg
        (scanGo none order ⟨cfg, stats, false, []⟩).stats).1.blocks.map Blk.bid
      = _
    rw [hspec.2.1]
  · unfold EidsNodup
    show ((deleteQueuedGo (scanGo none order ⟨cfg, stats, false, []⟩).queue
        (scanGo none order ⟨cfg, stats, false, []⟩).cfg
        (scanGo none order ⟨cfg, stats, false, []⟩).stats).1.edges.map
        Edge.eid).Nodup
    rw [hspec.1]
    exact List.Nodup.sublist
      (List.Sublist.map Edge.eid (List.filter_sublist _)) hend2

theorem opt2Loop_C6 (order : List Nat) :
    ∀ (fuel : Nat) (cfg : CFG) (stats : Stats) (cfg' : CFG) (stats' : Stats),
      opt2Loop order fuel cfg stats = some (cfg', stats') →
      EdgeInvariant cfg → BidsNodup cfg → EidsNodup cfg →
      EdgeInvariant cfg' := by
  intro fuel
  induction fuel with
  | zero => intro cfg stats cfg' stats' h; cases h
  | succ f ih =>
    intro cfg stats cfg' stats' h hinv hbnd hend
    obtain ⟨g1, g2, g3⟩ := opt2Iter_C6 order cfg stats hinv hbnd hend
    unfold opt2Loop at h
    by_cases hrr : (opt2Iter order cfg stats).2.2 = true
    · rw [if_pos hrr] at h
      exact ih _ _ cfg' stats' h g1 g2 g3
    · rw [if_neg hrr] at h
      have h2 : ((opt2Iter order cfg stats).1,
          (opt2Iter order cfg stats).2.1) = (cfg', stats') :=
        Option.some.inj h
      have h3 : (opt2Iter order cfg stats).1 = cfg' :=
        congrArg Prod.fst h2
      rw [← h3]
      exact g1

/-- Optimization 1 preserves both handle-distinctness conditions. -/
theorem opt1Go_nodups :
    ∀ (ids : List Nat) (cfg : CFG) (s : Stats) (cfg1 : CFG) (s1 : Stats),
      opt1Go ids (cfg, s) = .ok (cfg1, s1) →
      BidsNodup cfg → EidsNodup cfg → BidsNodup cfg1 ∧ EidsNodup cfg1 := by
  intro ids
  induction ids with
  | nil =>
    intro cfg s cfg1 s1 h hb he
    have h2 : (cfg, s) = (cfg1, s1) := Except.ok.inj h
    have h3 : cfg = cfg1 := congrArg Prod.fst h2
    rw [← h3]
    exact ⟨hb, he⟩
  | cons i rest ih =>
    intro cfg s cfg1 s1 h hb he
    unfold opt1Go at h
    rcases opt1Block_cases (cfg, s) i with hid | ⟨b, c, a, ob, ge, be,
        _, _, _, _, _, _, hsw⟩ | herr
    · rw [hid] at h
      exact ih cfg s cfg1 s1 h hb he
    · rw [hsw] at h
      refine ih _ _ cfg1 s1 h ?_ ?_
      · apply bidsNodup_of_bids_eq _ _ _ hb
        show ((setEdgeTarget (setEdgeTarget _ be.eid ge.tgt)
          ge.eid be.tgt).blocks.map Blk.bid) = _
        rw [setEdgeTarget_blocks, setEdgeTarget_blocks, updBlk_bids]
      · apply eidsNodup_setEdgeTarget
        apply eidsNodup_setEdgeTarget
        exact he
    · rw [herr] at h
      exact Except.noConfusion h

/-- C6: after the pass completes on a well-formed CFG (edge invariant,
distinct block ids and distinct edge handles), every remaining block whose
terminal instruction is a conditional branch still has exactly one
outgoing GOTO edge and exactly one outgoing BRANCH edge. -/
theorem claim_C6 (orderFn : CFG → List Nat) (cfg cfg' : CFG) (st : Stats)
    (hinv : EdgeInvariant cfg) (hbnd : BidsNodup cfg) (hend : EidsNodup cfg)
    (h : process_code orderFn cfg = .ok (cfg', st)) :
    EdgeInvariant cfg' := by
  unfold process_code at h
  rcases h1 : opt1 cfg ⟨0, 0, 0⟩ with e | ⟨c1, s1⟩
  · rw [h1] at h
    exact Except.noConfusion h
  · rw [h1] at h
    have h' : (match opt2Loop (orderFn c1) (moveCount c1 + 1) c1 s1 with
        | some r => Except.ok r
        | none => (Except.error PErr.fuelExhausted : Except PErr (CFG × Stats)))
        = Except.ok (cfg', st) := h
    obtain ⟨cfg1x, s1x, hgo, hinv1⟩ :=
      opt1Go_inv (cfg.blocks.map Blk.bid) cfg ⟨0, 0, 0⟩ hinv
    have hdet : (cfg1x, s1x) = (c1, s1) := by
      have h5 : (Except.ok (cfg1x, s1x) : Except PErr (CFG × Stats))
          = Except.ok (c1, s1) := by
        rw [← hgo]; exact h1
      exact Except.ok.inj h5
    have hinv1' : EdgeInvariant c1 := by
      have hc : cfg1x = c1 := congrArg Prod.fst hdet
      rw [← hc]
      exact hinv1
    obtain ⟨hbnd1, hend1⟩ := opt1Go_nodups (cfg.blocks.map Blk.bid) cfg
      ⟨0, 0, 0⟩ c1 s1 h1 hbnd hend
    rcases h2 : opt2Loop (orderFn c1) (moveCount c1 + 1) c1 s1 with _ | r
    · rw [h2] at h'
      exact Except.noConfusion h'
    · rw [h2] at h'
      have hr : r = (cfg', st) := Except.ok.inj h'
      rw [hr] at h2
      exact opt2Loop_C6 (orderFn c1) (moveCount c1 + 1) c1 s1 cfg' st h2
        hinv1' hbnd1 hend1

/-- Witness CFG for C6: a conditional-branch block whose inversion fires,
plus untouched blocks. -/
def c6cfg : CFG :=
  ⟨[⟨0, [.ifbr .ceqz 0 none]⟩, ⟨1, [.other 1 [] 1]⟩, ⟨2, [.other 2 [] 2]⟩,
    ⟨3, [.other 9 [] 9]⟩],
   [⟨10, 0, 1, .goto⟩, ⟨11, 0, 2, .branch⟩, ⟨12, 3, 1, .branch⟩]⟩

theorem claim_C6_witness :
    EdgeInvariant
      ⟨[⟨0, [.ifbr .cnez 0 none]⟩, ⟨1, [.other 1 [] 1]⟩, ⟨2, [.other 2 [] 2]⟩,
        ⟨3, [.other 9 [] 9]⟩],
       [⟨10, 0, 2, .goto⟩, ⟨11, 0, 1, .branch⟩, ⟨12, 3, 1, .branch⟩]⟩ :=
  claim_C6 (fun c => c.blocks.map Blk.bid) c6cfg
    ⟨[⟨0, [.ifbr .cnez 0 none]⟩, ⟨1, [.other 1 [] 1]⟩, ⟨2, [.other 2 [] 2]⟩,
      ⟨3, [.other 9 [] 9]⟩],
     [⟨10, 0, 2, .goto⟩, ⟨11, 0, 1, .branch⟩, ⟨12, 3, 1, .branch⟩]⟩
    ⟨0, 0, 1⟩
    (by unfold EdgeInvariant; decide) (by unfold BidsNodup; decide)
    (by unfold EidsNodup; decide) rfl

/-! ## Claim C7: Optimization 1 is idempotent -/

/-- Swapping the targets of one GOTO/BRANCH edge pair preserves every
block's predecessor count. -/
theorem predLen_swap (E : List Edge) (ge be : Edge) (hg : ge ∈ E)
    (hb : be ∈ E) (hne : ge ≠ be) (hnd : (E.map Edge.eid).Nodup) (t : Nat) :
    (((E.map (retargetFn be.eid ge.tgt)).map
        (retargetFn ge.eid be.tgt)).filter (fun e => e.tgt == t)).length
    = (E.filter (fun e => e.tgt == t)).length := by
  have hEnd : E.Nodup := List.Nodup.of_map Edge.eid hnd
  have heid : ge.eid ≠ be.eid := by
    intro heq
    exact hne (List.inj_on_of_nodup_map hnd hg hb heq)
  rw [← List.countP_eq_length_filter, ← List.countP_eq_length_filter,
    List.countP_map, List.countP_map]
  have hperm1 : E.Perm (ge :: E.erase ge) := List.perm_cons_erase hg
  have hbe1 : be ∈ E.erase ge := (List.Nodup.mem_erase_iff hEnd).mpr
    ⟨Ne.symm hne, hb⟩
  have hperm2 : (E.erase ge).Perm (be :: (E.erase ge).erase be) :=
    List.perm_cons_erase hbe1
  have hnd1 : (E.erase ge).Nodup := List.Nodup.erase ge hEnd
  set E2 := (E.erase ge).erase be with hE2
  have hmemE2 : ∀ x ∈ E2, x ≠ ge ∧ x ≠ be ∧ x ∈ E := by
    intro x hx
    have hx1 : x ∈ E.erase ge := List.mem_of_mem_erase hx
    have hx2 : x ≠ be := ((List.Nodup.mem_erase_iff hnd1).mp hx).1
    have hx3 : x ≠ ge := ((List.Nodup.mem_erase_iff hEnd).mp hx1).1
    exact ⟨hx3, hx2, List.mem_of_mem_erase hx1⟩
  have key : ∀ p : Edge → Bool,
      List.countP p E
        = (if p ge then 1 else 0) + (if p be then 1 else 0)
          + List.countP p E2 := by
    intro p
    rw [hperm1.countP_eq, List.countP_cons, hperm2.countP_eq,
      List.countP_cons]
    omega
  rw [key, key]
  have hfge : retargetFn ge.eid be.tgt (retargetFn be.eid ge.tgt ge)
      = ⟨ge.eid, ge.src, be.tgt, ge.ty⟩ := by
    rw [retargetFn_of_ne _ _ _ heid, retargetFn_of_eq _ _ _ rfl]
  have hfbe : retargetFn ge.eid be.tgt (retargetFn be.eid ge.tgt be)
      = ⟨be.eid, be.src, ge.tgt, be.ty⟩ := by
    rw [retargetFn_of_eq _ _ _ rfl,
      retargetFn_of_ne _ _ _ (by simpa using Ne.symm heid)]
  have hcongr : List.countP
      (fun e => (retargetFn ge.eid be.tgt
        (retargetFn be.eid ge.tgt e)).tgt == t) E2
      = List.countP (fun e => e.tgt == t) E2 := by
    apply List.countP_congr
    intro x hx
    obtain ⟨hx1, hx2, hx3⟩ := hmemE2 x hx
    have he1 : x.eid ≠ be.eid := by
      intro heq
      exact hx2 (List.inj_on_of_nodup_map hnd hx3 hb heq)
    have he2 : x.eid ≠ ge.eid := by
      intro heq
      exact hx1 (List.inj_on_of_nodup_map hnd hx3 hg heq)
    rw [retargetFn_of_ne _ _ _ he1, retargetFn_of_ne _ _ _ he2]
  have hcnt2 : List.countP
      (((fun e : Edge => e.tgt == t) ∘ retargetFn ge.eid be.tgt)
        ∘ retargetFn be.eid ge.tgt) E2
      = List.countP (fun e : Edge => e.tgt == t) E2 := hcongr
  simp only [Function.comp]
  simp only [hfge, hfbe]
  rw [hcnt2]
  omega

/-- A missing GOTO or BRANCH successor edge under a conditional-branch
terminator aborts the block step. -/
theorem opt1Block_missing (st : CFG × Stats) (i : Nat) (b : Blk)
    (c : CondOp) (a : Nat) (ob : Option Nat)
    (hgb : getBlk st.1 i = some b)
    (hl : b.insns.getLast? = some (.ifbr c a ob))
    (hmiss : succEdgeOfType st.1 i .goto = none ∨
             succEdgeOfType st.1 i .branch = none) :
    opt1Block st i = .error .missingEdge := by
  rcases hmiss with hm | hm
  · simp only [opt1Block, hgb, hl, hm]
  · cases hg2 : succEdgeOfType st.1 i .goto with
    | none => simp only [opt1Block, hgb, hl, hg2]
    | some ge => simp only [opt1Block, hgb, hl, hg2, hm]

/-- Structural effects of the inversion rewrite on everything that the
noop test of another block can observe. -/
theorem swapStep_facts (cfg : CFG) (i : Nat) (f : List Insn → List Insn)
    (ge be : Edge) (hnd : EidsNodup cfg)
    (hg : succEdgeOfType cfg i .goto = some ge)
    (hb2 : succEdgeOfType cfg i .branch = some be) :
    (∀ t, (predEdges (setEdgeTarget (setEdgeTarget (cfg.updBlk i f)
        be.eid ge.tgt) ge.eid be.tgt) t).length
      = (predEdges cfg t).length) ∧
    (∀ j, j ≠ i → ∀ t, succEdgeOfType (setEdgeTarget (setEdgeTarget
        (cfg.updBlk i f) be.eid ge.tgt) ge.eid be.tgt) j t
      = succEdgeOfType cfg j t) ∧
    (∀ j, j ≠ i → getBlk (setEdgeTarget (setEdgeTarget (cfg.updBlk i f)
        be.eid ge.tgt) ge.eid be.tgt) j = getBlk cfg j) := by
  obtain ⟨hmg, hsg, htg⟩ := succEdgeOfTypeL_props _ _ _ _ hg
  obtain ⟨hmb, hsb, htb⟩ := succEdgeOfTypeL_props _ _ _ _ hb2
  have hne : ge ≠ be := by
    intro h
    rw [h, htb] at htg
    cases htg
  refine ⟨?_, ?_, ?_⟩
  · intro t
    show (((cfg.edges.map (retargetFn be.eid ge.tgt)).map
        (retargetFn ge.eid be.tgt)).filter (fun e => e.tgt == t)).length = _
    exact predLen_swap cfg.edges ge be hmg hmb hne hnd t
  · intro j hj t
    show succEdgeOfTypeL ((cfg.edges.map (retargetFn be.eid ge.tgt)).map
        (retargetFn ge.eid be.tgt)) j t = _
    rw [succEdgeOfTypeL_map_retarget, succEdgeOfTypeL_map_retarget]
    cases hfind : succEdgeOfTypeL cfg.edges j t with
    | none => exact hfind.symm
    | some e0 =>
      obtain ⟨hm0, hs0, _⟩ := succEdgeOfTypeL_props _ _ _ _ hfind
      have hne1 : e0.eid ≠ be.eid := by
        intro heq
        have : e0 = be := List.inj_on_of_nodup_map hnd hm0 hmb heq
        rw [this, hsb] at hs0
        exact hj hs0.symm
      have hne2 : e0.eid ≠ ge.eid := by
        intro heq
        have : e0 = ge := List.inj_on_of_nodup_map hnd hm0 hmg heq
        rw [this, hsg] at hs0
        exact hj hs0.symm
      simp only [Option.map_some']
      rw [retargetFn_of_ne _ _ _ hne1, retargetFn_of_ne _ _ _ hne2]
      exact hfind.symm
  · intro j hj
    rw [getBlk_setEdgeTarget, getBlk_setEdgeTarget]
    exact getBlk_updBlk_ne cfg i f j hj

/-- The GOTO/BRANCH successor edges of the rewritten block itself after
the swap. -/
theorem swap_succ_self (cfg : CFG) (i : Nat) (f : List Insn → List Insn)
    (ge be : Edge) (hnd : EidsNodup cfg)
    (hg : succEdgeOfType cfg i .goto = some ge)
    (hb2 : succEdgeOfType cfg i .branch = some be) :
    succEdgeOfType (setEdgeTarget (setEdgeTarget (cfg.updBlk i f)
        be.eid ge.tgt) ge.eid be.tgt) i .goto
      = some ⟨ge.eid, ge.src, be.tgt, .goto⟩ ∧
    succEdgeOfType (setEdgeTarget (setEdgeTarget (cfg.updBlk i f)
        be.eid ge.tgt) ge.eid be.tgt) i .branch
      = some ⟨be.eid, be.src, ge.tgt, .branch⟩ := by
  obtain ⟨hmg, hsg, htg⟩ := succEdgeOfTypeL_props _ _ _ _ hg
  obtain ⟨hmb, hsb, htb⟩ := succEdgeOfTypeL_props _ _ _ _ hb2
  have hne : ge.eid ≠ be.eid := by
    intro heq
    have : ge = be := List.inj_on_of_nodup_map hnd hmg hmb heq
    rw [this, htb] at htg
    cases htg
  constructor
  · show succEdgeOfTypeL ((cfg.edges.map (retargetFn be.eid ge.tgt)).map
        (retargetFn ge.eid be.tgt)) i .goto = _
    rw [succEdgeOfTypeL_map_retarget, succEdgeOfTypeL_map_retarget,
      show succEdgeOfTypeL cfg.edges i EdgeTy.goto = some ge from hg]
    simp only [Option.map_some']
    rw [retargetFn_of_ne _ _ _ hne, retargetFn_of_eq _ _ _ rfl, htg]
  · show succEdgeOfTypeL ((cfg.edges.map (retargetFn be.eid ge.tgt)).map
        (retargetFn ge.eid be.tgt)) i .branch = _
    rw [succEdgeOfTypeL_map_retarget, succEdgeOfTypeL_map_retarget,
      show succEdgeOfTypeL cfg.edges i EdgeTy.branch = some be from hb2]
    simp only [Option.map_some']
    rw [retargetFn_of_eq _ _ _ rfl,
      retargetFn_of_ne _ _ _ (by simpa using hne.symm), htb]

/-- Block `i` is a no-op for Optimization 1: visiting it leaves the CFG
and the statistics untouched, whatever the incoming statistics are. -/
def opt1Noop (cfg : CFG) (i : Nat) : Prop :=
  ∀ s : Stats, opt1Block (cfg, s) i = .ok (cfg, s)

/-- The branch taken by `opt1Block` does not depend on the statistics, so
one identity result makes the block a no-op for every statistics value. -/
theorem opt1Noop_of_ok_self (cfg : CFG) (i : Nat) (s : Stats)
    (h : opt1Block (cfg, s) i = .ok (cfg, s)) : opt1Noop cfg i := by
  intro s2
  rcases opt1Block_cases (cfg, s2) i with h2 | ⟨b, c, a, ob, ge, be,
      hgb, hl, hg, hb2, hc1, hc2, _⟩ | herr2
  · exact h2
  · exfalso
    have hcb : (decide ((predEdges cfg ge.tgt).length > 1)
        && (predEdges cfg be.tgt).length == 1) = true := by
      simp only [Bool.and_eq_true, decide_eq_true_eq, beq_iff_eq]
      exact ⟨hc1, hc2⟩
    rw [show opt1Block (cfg, s) i = .ok (setEdgeTarget (setEdgeTarget
        (cfg.updBlk i (fun l => l.dropLast ++ [.ifbr (invertCond c) a ob]))
        be.eid ge.tgt) ge.eid be.tgt, s.incInverted) from by
      simp only [opt1Block, hgb, hl, hg, hb2]
      rw [if_pos hcb]] at h
    have hpair := Except.ok.inj h
    have hst : s.incInverted = s := congrArg Prod.snd hpair
    have : s.inverted_conditional_branches + 1
        = s.inverted_conditional_branches :=
      congrArg Stats.inverted_conditional_branches hst
    omega
  · exfalso
    obtain ⟨b, c, a, ob, hgb, hl, hmiss⟩ := opt1Block_error_inv _ _ herr2
    rw [opt1Block_missing (cfg, s) i b c a ob hgb hl hmiss] at h
    exact Except.noConfusion h

/-- A no-op block stays a no-op under any CFG change that preserves its
block contents, its successor edges and all predecessor counts. -/
theorem opt1Noop_transport (cfg cfg2 : CFG) (j : Nat)
    (hblk : getBlk cfg2 j = getBlk cfg j)
    (hsucc : ∀ t, succEdgeOfType cfg2 j t = succEdgeOfType cfg j t)
    (hlen : ∀ t2, (predEdges cfg2 t2).length = (predEdges cfg t2).length)
    (hnoop : opt1Noop cfg j) : opt1Noop cfg2 j := by
  intro s
  have h0 := hnoop s
  cases hgb : getBlk cfg j with
  | none => simp only [opt1Block, hblk, hgb]
  | some bj =>
    cases hl : bj.insns.getLast? with
    | none => simp only [opt1Block, hblk, hgb, hl]
    | some insn =>
      cases insn with
      | ifbr c a ob =>
        cases hg : succEdgeOfType cfg j .goto with
        | none =>
          exfalso
          rw [opt1Block_missing (cfg, s) j bj c a ob hgb hl (Or.inl hg)]
            at h0
          exact Except.noConfusion h0
        | some ge =>
          cases hb2 : succEdgeOfType cfg j .branch with
          | none =>
            exfalso
            rw [opt1Block_missing (cfg, s) j bj c a ob hgb hl (Or.inr hb2)]
              at h0
            exact Except.noConfusion h0
          | some be =>
            by_cases hc : ((decide ((predEdges cfg ge.tgt).length > 1)
                && (predEdges cfg be.tgt).length == 1) = true)
            · exfalso
              rw [show opt1Block (cfg, s) j = .ok (setEdgeTarget
                  (setEdgeTarget (cfg.updBlk j (fun l => l.dropLast
                    ++ [.ifbr (invertCond c) a ob])) be.eid ge.tgt)
                  ge.eid be.tgt, s.incInverted) from by
                simp only [opt1Block, hgb, hl, hg, hb2]
                rw [if_pos hc]] at h0
              have hpair := Except.ok.inj h0
              have hst : s.incInverted = s := congrArg Prod.snd hpair
              have : s.inverted_conditional_branches + 1
                  = s.inverted_conditional_branches :=
                congrArg Stats.inverted_conditional_branches hst
              omega
            · simp only [opt1Block, hblk, hgb, hl, hsucc EdgeTy.goto, hg,
                hsucc EdgeTy.branch, hb2]
              rw [if_neg (by rw [hlen ge.tgt, hlen be.tgt]; exact hc)]
      | move w d sr => simp only [opt1Block, hblk, hgb, hl]
      | ret w os => simp only [opt1Block, hblk, hgb, hl]
      | other d ss cd => simp only [opt1Block, hblk, hgb, hl]

/-- Immediately after the inversion rewrite the rewritten block fails the
inversion test again: its new GOTO target is the old BRANCH target, whose
predecessor count is (still) 1. -/
theorem opt1Noop_after_swap (cfg : CFG) (i : Nat) (b : Blk) (c : CondOp)
    (a : Nat) (ob : Option Nat) (ge be : Edge) (hnd : EidsNodup cfg)
    (hgb : getBlk cfg i = some b)
    (_hl : b.insns.getLast? = some (.ifbr c a ob))
    (hg : succEdgeOfType cfg i .goto = some ge)
    (hb2 : succEdgeOfType cfg i .branch = some be)
    (hc2 : (predEdges cfg be.tgt).length = 1) :
    opt1Noop (setEdgeTarget (setEdgeTarget (cfg.updBlk i
      (fun l => l.dropLast ++ [.ifbr (invertCond c) a ob])) be.eid ge.tgt)
      ge.eid be.tgt) i := by
  intro s
  have hblk2 : getBlk (setEdgeTarget (setEdgeTarget (cfg.updBlk i
      (fun l => l.dropLast ++ [.ifbr (invertCond c) a ob])) be.eid ge.tgt)
      ge.eid be.tgt) i
      = some ⟨b.bid, b.insns.dropLast ++ [.ifbr (invertCond c) a ob]⟩ := by
    rw [getBlk_setEdgeTarget, getBlk_setEdgeTarget]
    exact getBlk_updBlk_self cfg i _ b hgb
  obtain ⟨hg2, hb22⟩ := swap_succ_self cfg i
    (fun l => l.dropLast ++ [.ifbr (invertCond c) a ob]) ge be hnd hg hb2
  have hlen := (swapStep_facts cfg i
    (fun l => l.dropLast ++ [.ifbr (invertCond c) a ob]) ge be hnd hg hb2).1
  simp only [opt1Block, hblk2, hg2, hb22, List.getLast?_concat]
  rw [if_neg ?_]
  case _ =>
    simp only [Bool.and_eq_true, decide_eq_true_eq, beq_iff_eq, not_and]
    intro hgt
    exfalso
    rw [show (⟨ge.eid, ge.src, be.tgt, EdgeTy.goto⟩ : Edge).tgt = be.tgt
      from rfl, hlen be.tgt, hc2] at hgt
    omega

/-- Master induction for idempotence: a successful sweep of Optimization 1
keeps edge handles distinct, transports existing no-op blocks, makes every
visited block a no-op in the result, and preserves the block id list. -/
theorem opt1Go_idem :
    ∀ (ids : List Nat) (cfg : CFG) (s : Stats) (cfg1 : CFG) (s1 : Stats),
      opt1Go ids (cfg, s) = .ok (cfg1, s1) → EidsNodup cfg →
      EidsNodup cfg1 ∧
      (∀ j, opt1Noop cfg j → opt1Noop cfg1 j) ∧
      (∀ j ∈ ids, opt1Noop cfg1 j) ∧
      cfg1.blocks.map Blk.bid = cfg.blocks.map Blk.bid := by
  intro ids
  induction ids with
  | nil =>
    intro cfg s cfg1 s1 h hnd
    have h2 : (cfg, s) = (cfg1, s1) := Except.ok.inj h
    have hc : cfg = cfg1 := congrArg Prod.fst h2
    subst hc
    exact ⟨hnd, fun j hj => hj, fun j hj => absurd hj (List.not_mem_nil j),
      rfl⟩
  | cons i rest ih =>
    intro cfg s cfg1 s1 h hnd
    unfold opt1Go at h
    rcases opt1Block_cases (cfg, s) i with hid | ⟨b, c, a, ob, ge, be,
        hgb, hl, hg, hb2, hc1, hc2, hsw⟩ | herr
    · rw [hid] at h
      obtain ⟨e1, e2, e3, e4⟩ := ih cfg s cfg1 s1 h hnd
      refine ⟨e1, e2, ?_, e4⟩
      intro j hj
      rcases List.mem_cons.mp hj with hji | hjr
      · subst hji
        exact e2 j (opt1Noop_of_ok_self cfg j s hid)
      · exact e3 j hjr
    · rw [hsw] at h
      have hfacts := swapStep_facts cfg i
        (fun l => l.dropLast ++ [.ifbr (invertCond c) a ob]) ge be hnd hg hb2
      have hnd2 : EidsNodup (setEdgeTarget (setEdgeTarget (cfg.updBlk i
          (fun l => l.dropLast ++ [.ifbr (invertCond c) a ob])) be.eid
          ge.tgt) ge.eid be.tgt) := by
        apply eidsNodup_setEdgeTarget
        apply eidsNodup_setEdgeTarget
        unfold EidsNodup at hnd ⊢
        rwa [show (cfg.updBlk i (fun l => l.dropLast
          ++ [.ifbr (invertCond c) a ob])).edges = cfg.edges from rfl]
      obtain ⟨e1, e2, e3, e4⟩ := ih _ s.incInverted cfg1 s1 h hnd2
      have htrans : ∀ j, opt1Noop cfg j → opt1Noop cfg1 j := by
        intro j hj
        have hji : j ≠ i := by
          intro hji
          subst hji
          have hj1 := hj s
          rw [hsw] at hj1
          have hpair := Except.ok.inj hj1
          have hst : s.incInverted = s := congrArg Prod.snd hpair
          have : s.inverted_conditional_branches + 1
              = s.inverted_conditional_branches :=
            congrArg Stats.inverted_conditional_branches hst
          omega
        exact e2 j (opt1Noop_transport cfg _ j (hfacts.2.2 j hji)
          (hfacts.2.1 j hji) hfacts.1 hj)
      refine ⟨e1, htrans, ?_, ?_⟩
      · intro j hj
        rcases List.mem_cons.mp hj with hji | hjr
        · subst hji
          exact e2 j (opt1Noop_after_swap cfg j b c a ob ge be hnd hgb hl
            hg hb2 hc2)
        · exact e3 j hjr
      · rw [e4, setEdgeTarget_blocks, setEdgeTarget_blocks, updBlk_bids]
    · rw [herr] at h
      exact Except.noConfusion h

/-- A concrete CFG on which Optimization 1 fires: the GOTO target of
block 0 has two predecessors and the BRANCH target has one. -/
def c7cfg : CFG :=
  ⟨[⟨0, [.ifbr .ceqz 0 none]⟩, ⟨1, [.ret false none]⟩,
    ⟨2, [.ret false none]⟩],
   [⟨10, 0, 1, .goto⟩, ⟨11, 0, 2, .branch⟩, ⟨12, 3, 1, .goto⟩]⟩

/-- The result of running Optimization 1 once on `c7cfg`: the condition is
inverted and the GOTO/BRANCH destinations are exchanged. -/
def c7res : CFG :=
  ⟨[⟨0, [.ifbr .cnez 0 none]⟩, ⟨1, [.ret false none]⟩,
    ⟨2, [.ret false none]⟩],
   [⟨10, 0, 2, .goto⟩, ⟨11, 0, 1, .branch⟩, ⟨12, 3, 1, .goto⟩]⟩

/-- A sweep over blocks that are all no-ops leaves the state untouched. -/
theorem opt1Go_noop_all :
    ∀ (ids : List Nat) (cfg : CFG) (s : Stats),
      (∀ i ∈ ids, opt1Noop cfg i) → opt1Go ids (cfg, s) = .ok (cfg, s) := by
  intro ids
  induction ids with
  | nil => intro cfg s _; rfl
  | cons i rest ih =>
    intro cfg s hall
    unfold opt1Go
    rw [hall i (List.mem_cons_self i rest) s]
    exact ih cfg s (fun j hj => hall j (List.mem_cons_of_mem i hj))

/-- C7: Optimization 1 is idempotent. If a sweep over a CFG with distinct
edge handles succeeds and produces `cfg1`, then a second sweep over `cfg1`
returns `cfg1` unchanged with the statistics it was handed: no block of
the output satisfies the inversion condition, because each rewritten
block's new GOTO target is its old BRANCH target, which keeps exactly one
predecessor. -/
theorem claim_C7 (cfg : CFG) (s : Stats) (cfg1 : CFG) (s1 s2 : Stats)
    (hnd : EidsNodup cfg) (h : opt1 cfg s = .ok (cfg1, s1)) :
    opt1 cfg1 s2 = .ok (cfg1, s2) := by
  obtain ⟨_, _, e3, e4⟩ :=
    opt1Go_idem (cfg.blocks.map Blk.bid) cfg s cfg1 s1 h hnd
  show opt1Go (cfg1.blocks.map Blk.bid) (cfg1, s2) = .ok (cfg1, s2)
  rw [e4]
  exact opt1Go_noop_all (cfg.blocks.map Blk.bid) cfg1 s2 e3

/-- Witness for C7: on `c7cfg` the first sweep actually inverts a branch
(counter 0 becomes 1), and the second sweep is the identity. -/
theorem claim_C7_witness :
    EidsNodup c7cfg ∧
    opt1 c7cfg ⟨0, 0, 0⟩ = .ok (c7res, ⟨0, 0, 1⟩) ∧
    opt1 c7res ⟨0, 0, 0⟩ = .ok (c7res, ⟨0, 0, 0⟩) :=
  ⟨by unfold EidsNodup; decide, rfl,
   claim_C7 c7cfg ⟨0, 0, 0⟩ c7res ⟨0, 0, 1⟩ ⟨0, 0, 0⟩
     (by unfold EidsNodup; decide) rfl⟩

/-! ## Semantic toolkit for C9 -/

theorem evalCond_invert (c : CondOp) (a b : Int) :
    evalCond (invertCond c) a b = !(evalCond c a b) := by
  cases c <;>
    simp [invertCond, evalCond, bne, Bool.not_not, ← decide_not,
      Int.not_lt, Int.not_le]

theorem evalIf_invert (c : CondOp) (a : Nat) (ob : Option Nat) (r : Regs) :
    evalIf (invertCond c) a ob r = !(evalIf c a ob r) :=
  evalCond_invert c (r a) _

/-- Straight-line composition: running `l₁ ++ l₂` runs `l₁`, and continues
into `l₂` exactly when `l₁` falls off its end. -/
theorem runList_append_same (edges : List Edge) (i : Nat) :
    ∀ (l₁ l₂ : List Insn) (r : Regs),
      runList edges i (l₁ ++ l₂) r
        = match runList edges i l₁ r with
          | .fall r2 => runList edges i l₂ r2
          | res => res := by
  intro l₁
  induction l₁ with
  | nil => intro l₂ r; rfl
  | cons insn rest ih =>
    intro l₂ r
    cases insn with
    | move w d s => exact ih l₂ (upd r d (r s))
    | ret w os => rfl
    | other d ss c => exact ih l₂ (upd r d (interpOther c (ss.map r)))
    | ifbr c a ob =>
      by_cases h : evalIf c a ob r = true
      · simp only [List.cons_append, runList]
        rw [if_pos h, if_pos h]
        cases succEdgeOfTypeL edges i .branch <;> rfl
      · simp only [List.cons_append, runList]
        rw [if_neg h, if_neg h]
        exact ih l₂ r

/-- A list without conditional branches executes independently of the
edge list and of the block it sits in. -/
theorem runList_no_ifbr (edges edges2 : List Edge) (i i2 : Nat) :
    ∀ (l : List Insn) (r : Regs), (∀ x ∈ l, isIfbr x = false) →
      runList edges i l r = runList edges2 i2 l r := by
  intro l
  induction l with
  | nil => intro r _; rfl
  | cons insn rest ih =>
    intro r hno
    cases insn with
    | move w d s =>
      exact ih (upd r d (r s)) (fun x hx => hno x (List.mem_cons_of_mem _ hx))
    | ret w os => rfl
    | other d ss c =>
      exact ih (upd r d (interpOther c (ss.map r)))
        (fun x hx => hno x (List.mem_cons_of_mem _ hx))
    | ifbr c a ob =>
      exact absurd (hno _ (List.mem_cons_self _ _)) (by simp [isIfbr])

/-- Straight-line execution only consults the edge list through the
block's BRANCH successor. -/
theorem runList_cong_branch (edges edges2 : List Edge) (i : Nat)
    (hbr : succEdgeOfTypeL edges i .branch
      = succEdgeOfTypeL edges2 i .branch) :
    ∀ (l : List Insn) (r : Regs),
      runList edges i l r = runList edges2 i l r := by
  intro l
  induction l with
  | nil => intro r; rfl
  | cons insn rest ih =>
    intro r
    cases insn with
    | move w d s => exact ih (upd r d (r s))
    | ret w os => rfl
    | other d ss c => exact ih (upd r d (interpOther c (ss.map r)))
    | ifbr c a ob =>
      by_cases h : evalIf c a ob r = true
      · simp only [runList]
        rw [if_pos h, if_pos h, hbr]
      · simp only [runList]
        rw [if_neg h, if_neg h]
        exact ih r

/-- A block whose last instruction is a return never falls off its end. -/
theorem runList_last_ret (edges : List Edge) (i : Nat) (l : List Insn)
    (r : Regs) (w : Bool) (os : Option Nat)
    (h : l.getLast? = some (.ret w os)) :
    (∃ o, runList edges i l r = .done o) ∨
    (∃ t r2, runList edges i l r = .jmp t r2) := by
  rw [← List.dropLast_append_getLast? _ h, runList_append_same]
  cases hrun : runList edges i l.dropLast r with
  | fall r3 => exact Or.inl ⟨_, rfl⟩
  | done o => exact Or.inl ⟨o, rfl⟩
  | jmp t r2 => exact Or.inr ⟨t, r2, rfl⟩

/-- `find?` commutes with a `filter` that retains every hit. -/
theorem find?_filter_retained (p q : α → Bool) (l : List α)
    (h : ∀ x ∈ l, q x = true → p x = true) :
    (l.filter p).find? q = l.find? q := by
  induction l with
  | nil => rfl
  | cons x rest ih =>
    by_cases hq : q x = true
    · rw [List.filter_cons_of_pos (h x (by simp) hq),
        List.find?_cons_of_pos _ hq, List.find?_cons_of_pos _ hq]
    · by_cases hp : p x = true
      · rw [List.filter_cons_of_pos hp, List.find?_cons_of_neg _ hq,
          List.find?_cons_of_neg _ hq]
        exact ih (fun y hy => h y (List.mem_cons_of_mem x hy))
      · rw [List.filter_cons_of_neg (by simpa using hp),
          List.find?_cons_of_neg _ hq]
        exact ih (fun y hy => h y (List.mem_cons_of_mem x hy))

theorem semEq_refl (c : CFG) : SemEq c c := fun _ _ _ => Iff.rfl

theorem semEq_trans {c1 c2 c3 : CFG} (h1 : SemEq c1 c2) (h2 : SemEq c2 c3) :
    SemEq c1 c3 := fun i r o => (h1 i r o).trans (h2 i r o)

/-- Mutual fuel-existential simulation gives observable equivalence. -/
theorem semEq_of_exec (c c2 : CFG)
    (h1 : ∀ fuel j r o, exec c fuel j r = some o →
      ∃ f2, exec c2 f2 j r = some o)
    (h2 : ∀ fuel j r o, exec c2 fuel j r = some o →
      ∃ f2, exec c f2 j r = some o) :
    SemEq c c2 := by
  intro i r o
  constructor
  · intro ⟨fuel, hf⟩
    exact h1 fuel i r o hf
  · intro ⟨fuel, hf⟩
    exact h2 fuel i r o hf

/-- Deleting a GOTO edge whose source block ends in a return is invisible
to execution: the source never falls off its end, and no BRANCH lookup is
affected. -/
theorem exec_deleteEdge (cfg : CFG) (eid : Nat)
    (hq : ∀ e ∈ cfg.edges, e.eid = eid → e.ty = .goto ∧
      ∀ sb, getBlk cfg e.src = some sb →
        ∃ r, sb.insns.getLast? = some r ∧ isRet r = true) :
    ∀ fuel j r, exec (deleteEdge cfg eid) fuel j r = exec cfg fuel j r := by
  intro fuel
  induction fuel with
  | zero => intro j r; rfl
  | succ f ih =>
    intro j r
    have hbr : succEdgeOfTypeL (deleteEdge cfg eid).edges j .branch
        = succEdgeOfTypeL cfg.edges j .branch := by
      apply find?_filter_retained
      intro e he hqe
      simp only [Bool.and_eq_true, beq_iff_eq] at hqe
      by_contra hpe
      have heid : e.eid = eid := by simpa using hpe
      have := (hq e he heid).1
      rw [hqe.2] at this
      cases this
    cases hgb : getBlk cfg j with
    | none =>
      simp only [exec, show getBlk (deleteEdge cfg eid) j = getBlk cfg j
        from rfl, hgb]
    | some b =>
      simp only [exec, show getBlk (deleteEdge cfg eid) j = getBlk cfg j
        from rfl, hgb]
      rw [show runList (deleteEdge cfg eid).edges j b.insns r
          = runList cfg.edges j b.insns r from
        runList_cong_branch _ _ _ hbr b.insns r]
      cases hrun : runList cfg.edges j b.insns r with
      | done o => rfl
      | jmp t r2 => exact ih t r2
      | fall r2 =>
        by_cases hsrc : ∃ e ∈ cfg.edges, e.eid = eid ∧ e.src = j
        · exfalso
          obtain ⟨e, he, heid, hesrc⟩ := hsrc
          obtain ⟨rr, hlast, hret⟩ := (hq e he heid).2 b
            (by rw [hesrc]; exact hgb)
          cases rr with
          | ret w os =>
            rcases runList_last_ret cfg.edges j b.insns r w os hlast with
              ⟨o, ho⟩ | ⟨t, r3, ho⟩ <;> rw [hrun] at ho <;>
              exact StepRes.noConfusion ho
          | move w d s => simp [isRet] at hret
          | ifbr c a ob => simp [isRet] at hret
          | other d ss cd => simp [isRet] at hret
        · have hgt : succEdgeOfTypeL (deleteEdge cfg eid).edges j .goto
              = succEdgeOfTypeL cfg.edges j .goto := by
            apply find?_filter_retained
            intro e he hqe
            simp only [Bool.and_eq_true, beq_iff_eq] at hqe
            by_contra hpe
            have heid : e.eid = eid := by simpa using hpe
            exact hsrc ⟨e, he, heid, hqe.1⟩
          rw [hgt]
          cases succEdgeOfTypeL cfg.edges j .goto with
          | none => rfl
          | some e2 => exact ih e2.tgt r2

/-- Batch deletion of queued edges is invisible to execution. -/
theorem deleteQueuedGo_exec :
    ∀ (q : List Nat) (cfg : CFG) (stats : Stats), QueueInv cfg q →
      ∀ fuel j r,
        exec (deleteQueuedGo q cfg stats).1 fuel j r = exec cfg fuel j r := by
  intro q
  induction q with
  | nil => intro cfg stats _ fuel j r; rfl
  | cons eid0 rest ih =>
    intro cfg stats hq fuel j r
    show exec (deleteQueuedGo rest (deleteEdge cfg eid0) stats.incGotos).1
        fuel j r = _
    have hq0 : ∀ e ∈ cfg.edges, e.eid = eid0 → e.ty = .goto ∧
        ∀ sb, getBlk cfg e.src = some sb →
          ∃ r2, sb.insns.getLast? = some r2 ∧ isRet r2 = true :=
      fun e he heid => hq eid0 (List.mem_cons_self _ _) e he heid
    have hqrest : QueueInv (deleteEdge cfg eid0) rest := by
      intro eid2 h2 e he heid
      have he0 : e ∈ cfg.edges := List.mem_of_mem_filter he
      obtain ⟨h3, h4⟩ := hq eid2 (List.mem_cons_of_mem _ h2) e he0 heid
      exact ⟨h3, fun sb hsb => h4 sb (by
        rw [show getBlk (deleteEdge cfg eid0) e.src = getBlk cfg e.src
          from rfl] at hsb
        exact hsb)⟩
    rw [ih (deleteEdge cfg eid0) stats.incGotos hqrest fuel j r]
    exact exec_deleteEdge cfg eid0 hq0 fuel j r

/-- The scan's per-block invariant while folding over a return block's
predecessor edges: block `i` still starts with the return being cloned and
still ends in a return. -/
def RetBlockInv (cfg : CFG) (i : Nat) (retI : Insn) : Prop :=
  ∃ b rest, getBlk cfg i = some b ∧ b.insns = retI :: rest ∧
    ∃ rr, b.insns.getLast? = some rr ∧ isRet rr = true

/-- Full inversion of a successful trailing-move test on a return: the
return carries a register, and the source block ends in a move into that
register whose own source is the produced operand. -/
theorem trailingMoveOf_ret_inv (cfg : CFG) (srcId : Nat) (w : Bool)
    (os : Option Nat) (ms : Nat)
    (h : trailingMoveOf cfg srcId (.ret w os) = some ms) :
    ∃ r0 sb w2, os = some r0 ∧ getBlk cfg srcId = some sb ∧
      sb.insns.getLast? = some (.move w2 r0 ms) := by
  unfold trailingMoveOf at h
  rcases hsrcs : insnSrcs (Insn.ret w os) with _ | ⟨r0, rest0⟩
  · rw [hsrcs] at h; cases h
  · rw [hsrcs] at h
    have hos : os = some r0 := by
      cases os with
      | none => simp [insnSrcs] at hsrcs
      | some x =>
        simp only [insnSrcs, List.cons.injEq] at hsrcs
        rw [hsrcs.1]
    rcases hbind : (getBlk cfg srcId).bind (fun b => b.insns.getLast?)
      with _ | li
    · rw [hbind] at h; cases h
    · rw [hbind] at h
      have h2 : (if (isMove li && insnDest li == r0
          && insnWide li == insnWide (Insn.ret w os)) = true
          then some ((insnSrcs li).headD 0) else none) = some ms := h
      by_cases hc : (isMove li && insnDest li == r0
          && insnWide li == insnWide (Insn.ret w os)) = true
      · rw [if_pos hc] at h2
        have hms : (insnSrcs li).headD 0 = ms := Option.some.inj h2
        simp only [Bool.and_eq_true, beq_iff_eq] at hc
        obtain ⟨⟨hmv, hdst⟩, _⟩ := hc
        cases li with
        | move w2 d s =>
          rcases hgb : getBlk cfg srcId with _ | sb
          · rw [hgb] at hbind; cases hbind
          · rw [hgb] at hbind
            refine ⟨r0, sb, w2, hos, rfl, ?_⟩
            have hlast : sb.insns.getLast? = some (.move w2 d s) := hbind
            rw [hlast]
            have hd : d = r0 := by simpa [insnDest] using hdst
            have hs : s = ms := by simpa [insnSrcs] using hms
            rw [hd, hs]
        | ret ww oss => simp [isMove] at hmv
        | ifbr c a ob => simp [isMove] at hmv
        | other d ss cd => simp [isMove] at hmv
      · rw [if_neg hc] at h2; cases h2

/-- Appending the cloned return to a GOTO predecessor of a return block is
invisible to execution: falling off the source's end now returns directly
what the target block would have returned. -/
theorem appendRet_exec (cfg : CFG) (srcId i : Nat) (w : Bool)
    (os : Option Nat) (e : Edge)
    (hsucc : succEdgeOfTypeL cfg.edges srcId .goto = some e)
    (htgt : e.tgt = i)
    (hRB : RetBlockInv cfg i (.ret w os)) :
    (∀ fuel j r o, exec cfg fuel j r = some o →
      exec (cfg.updBlk srcId (fun l => l ++ [.ret w os])) fuel j r
        = some o) ∧
    (∀ fuel j r o,
      exec (cfg.updBlk srcId (fun l => l ++ [.ret w os])) fuel j r
        = some o →
      ∃ f2, exec cfg f2 j r = some o) := by
  obtain ⟨bI, rest, hgbI, hinsI, -⟩ := hRB
  rcases hsb : getBlk cfg srcId with _ | sb
  · rw [getBlk_updBlk_none cfg srcId _ hsb]
    exact ⟨fun fuel j r o h => h, fun fuel j r o h => ⟨fuel, h⟩⟩
  constructor
  · intro fuel
    induction fuel with
    | zero => intro j r o h; cases h
    | succ f ih =>
      intro j r o h
      by_cases hj : j = srcId
      · subst hj
        have hgb2 : getBlk (cfg.updBlk j (fun l => l ++ [.ret w os])) j
            = some ⟨sb.bid, sb.insns ++ [.ret w os]⟩ :=
          getBlk_updBlk_self cfg j _ sb hsb
        simp only [exec, hsb] at h
        simp only [exec, hgb2, updBlk_edges, runList_append_same]
        cases hrun : runList cfg.edges j sb.insns r with
        | done o2 => rw [hrun] at h; exact h
        | jmp t r2 => rw [hrun] at h; exact ih t r2 o h
        | fall r2 =>
          rw [hrun] at h
          have h2 : exec cfg f e.tgt r2 = some o := by
            have h3 : (match succEdgeOfTypeL cfg.edges j EdgeTy.goto with
                | some e2 => exec cfg f e2.tgt r2
                | none => some Outcome.stuck) = some o := h
            rw [hsucc] at h3
            exact h3
          rw [htgt] at h2
          cases f with
          | zero => cases h2
          | succ f2 =>
            simp only [exec, hgbI, hinsI, runList] at h2
            exact h2
      · have hgb2 : getBlk (cfg.updBlk srcId (fun l => l ++ [.ret w os])) j
            = getBlk cfg j := getBlk_updBlk_ne cfg srcId _ j hj
        cases hgb : getBlk cfg j with
        | none =>
          simp only [exec, hgb] at h
          simp only [exec, hgb2, hgb]
          exact h
        | some bj =>
          simp only [exec, hgb] at h
          simp only [exec, hgb2, hgb, updBlk_edges]
          cases hrun : runList cfg.edges j bj.insns r with
          | done o2 => rw [hrun] at h; exact h
          | jmp t r2 => rw [hrun] at h; exact ih t r2 o h
          | fall r2 =>
            rw [hrun] at h
            cases hgo : succEdgeOfTypeL cfg.edges j .goto with
            | none => rw [hgo] at h; exact h
            | some e2 => rw [hgo] at h; exact ih e2.tgt r2 o h
  · intro fuel
    induction fuel with
    | zero => intro j r o h; cases h
    | succ f ih =>
      intro j r o h
      by_cases hj : j = srcId
      · subst hj
        have hgb2 : getBlk (cfg.updBlk j (fun l => l ++ [.ret w os])) j
            = some ⟨sb.bid, sb.insns ++ [.ret w os]⟩ :=
          getBlk_updBlk_self cfg j _ sb hsb
        simp only [exec, hgb2, updBlk_edges, runList_append_same] at h
        cases hrun : runList cfg.edges j sb.insns r with
        | done o2 =>
          rw [hrun] at h
          refine ⟨f + 1, ?_⟩
          simp only [exec, hsb]
          rw [hrun]
          exact h
        | jmp t r2 =>
          rw [hrun] at h
          obtain ⟨f2, hf2⟩ := ih t r2 o h
          refine ⟨f2 + 1, ?_⟩
          simp only [exec, hsb]
          rw [hrun]
          exact hf2
        | fall r2 =>
          rw [hrun] at h
          have ho : some (Outcome.retv (os.map r2)) = some o := h
          refine ⟨2, ?_⟩
          simp only [exec, hsb]
          rw [hrun]
          have hstep : (match succEdgeOfTypeL cfg.edges j EdgeTy.goto with
              | some e2 => exec cfg 1 e2.tgt r2
              | none => some Outcome.stuck) = some o := by
            rw [hsucc]
            show exec cfg 1 e.tgt r2 = some o
            rw [htgt]
            simp only [exec, hgbI, hinsI, runList]
            exact ho
          exact hstep
      · have hgb2 : getBlk (cfg.updBlk srcId (fun l => l ++ [.ret w os])) j
            = getBlk cfg j := getBlk_updBlk_ne cfg srcId _ j hj
        cases hgb : getBlk cfg j with
        | none =>
          simp only [exec, hgb2, hgb] at h
          exact ⟨1, by simp only [exec, hgb]; exact h⟩
        | some bj =>
          simp only [exec, hgb2, hgb, updBlk_edges] at h
          cases hrun : runList cfg.edges j bj.insns r with
          | done o2 =>
            rw [hrun] at h
            refine ⟨1, ?_⟩
            simp only [exec, hgb]
            rw [hrun]
            exact h
          | jmp t r2 =>
            rw [hrun] at h
            obtain ⟨f2, hf2⟩ := ih t r2 o h
            refine ⟨f2 + 1, ?_⟩
            simp only [exec, hgb]
            rw [hrun]
            exact hf2
          | fall r2 =>
            rw [hrun] at h
            cases hgo : succEdgeOfTypeL cfg.edges j .goto with
            | none =>
              rw [hgo] at h
              refine ⟨1, ?_⟩
              simp only [exec, hgb]
              rw [hrun, hgo]
              exact h
            | some e2 =>
              rw [hgo] at h
              obtain ⟨f2, hf2⟩ := ih e2.tgt r2 o h
              refine ⟨f2 + 1, ?_⟩
              simp only [exec, hgb]
              rw [hrun, hgo]
              exact hf2

/-- Trailing-move elimination is invisible to execution: instead of moving
into the return's operand register, falling through and returning it, the
rewritten source block returns the move's own source directly. -/
theorem moveElim_exec (cfg : CFG) (srcId i : Nat) (w w2 : Bool)
    (r0 ms : Nat) (e : Edge) (sb : Blk)
    (hsucc : succEdgeOfTypeL cfg.edges srcId .goto = some e)
    (htgt : e.tgt = i)
    (hgb : getBlk cfg srcId = some sb)
    (hlast : sb.insns.getLast? = some (.move w2 r0 ms))
    (hRB : RetBlockInv cfg i (.ret w (some r0))) :
    (∀ fuel j r o, exec cfg fuel j r = some o →
      exec (cfg.updBlk srcId (fun l => l.dropLast ++ [.ret w (some ms)]))
        fuel j r = some o) ∧
    (∀ fuel j r o,
      exec (cfg.updBlk srcId (fun l => l.dropLast ++ [.ret w (some ms)]))
        fuel j r = some o →
      ∃ f2, exec cfg f2 j r = some o) := by
  obtain ⟨bI, rest, hgbI, hinsI, -⟩ := hRB
  have hdec : sb.insns = sb.insns.dropLast ++ [Insn.move w2 r0 ms] :=
    (List.dropLast_append_getLast? _ hlast).symm
  have hupd : ∀ r2 : Regs, upd r2 r0 (r2 ms) r0 = r2 ms := by
    intro r2
    simp [upd]
  constructor
  · intro fuel
    induction fuel with
    | zero => intro j r o h; cases h
    | succ f ih =>
      intro j r o h
      by_cases hj : j = srcId
      · subst hj
        have hgb2 : getBlk (cfg.updBlk j
            (fun l => l.dropLast ++ [.ret w (some ms)])) j
            = some ⟨sb.bid, sb.insns.dropLast ++ [.ret w (some ms)]⟩ :=
          getBlk_updBlk_self cfg j _ sb hgb
        simp only [exec, hgb] at h
        rw [hdec, runList_append_same] at h
        simp only [exec, hgb2, updBlk_edges, runList_append_same]
        cases hrun : runList cfg.edges j sb.insns.dropLast r with
        | done o2 => rw [hrun] at h; exact h
        | jmp t r2 => rw [hrun] at h; exact ih t r2 o h
        | fall r2 =>
          rw [hrun] at h
          have h2 : (match succEdgeOfTypeL cfg.edges j EdgeTy.goto with
              | some e2 => exec cfg f e2.tgt (upd r2 r0 (r2 ms))
              | none => some Outcome.stuck) = some o := h
          rw [hsucc] at h2
          have h3 : exec cfg f e.tgt (upd r2 r0 (r2 ms)) = some o := h2
          rw [htgt] at h3
          cases f with
          | zero => cases h3
          | succ f2 =>
            simp only [exec, hgbI, hinsI, runList, Option.map_some'] at h3
            rw [hupd r2] at h3
            exact h3
      · have hgb2 : getBlk (cfg.updBlk srcId
            (fun l => l.dropLast ++ [.ret w (some ms)])) j
            = getBlk cfg j := getBlk_updBlk_ne cfg srcId _ j hj
        cases hgbj : getBlk cfg j with
        | none =>
          simp only [exec, hgbj] at h
          simp only [exec, hgb2, hgbj]
          exact h
        | some bj =>
          simp only [exec, hgbj] at h
          simp only [exec, hgb2, hgbj, updBlk_edges]
          cases hrun : runList cfg.edges j bj.insns r with
          | done o2 => rw [hrun] at h; exact h
          | jmp t r2 => rw [hrun] at h; exact ih t r2 o h
          | fall r2 =>
            rw [hrun] at h
            cases hgo : succEdgeOfTypeL cfg.edges j .goto with
            | none => rw [hgo] at h; exact h
            | some e2 => rw [hgo] at h; exact ih e2.tgt r2 o h
  · intro fuel
    induction fuel with
    | zero => intro j r o h; cases h
    | succ f ih =>
      intro j r o h
      by_cases hj : j = srcId
      · subst hj
        have hgb2 : getBlk (cfg.updBlk j
            (fun l => l.dropLast ++ [.ret w (some ms)])) j
            = some ⟨sb.bid, sb.insns.dropLast ++ [.ret w (some ms)]⟩ :=
          getBlk_updBlk_self cfg j _ sb hgb
        simp only [exec, hgb2, updBlk_edges, runList_append_same] at h
        cases hrun : runList cfg.edges j sb.insns.dropLast r with
        | done o2 =>
          rw [hrun] at h
          refine ⟨f + 1, ?_⟩
          simp only [exec, hgb]
          rw [hdec, runList_append_same, hrun]
          exact h
        | jmp t r2 =>
          rw [hrun] at h
          obtain ⟨f2, hf2⟩ := ih t r2 o h
          refine ⟨f2 + 1, ?_⟩
          simp only [exec, hgb]
          rw [hdec, runList_append_same, hrun]
          exact hf2
        | fall r2 =>
          rw [hrun] at h
          have ho : some (Outcome.retv (some (r2 ms))) = some o := h
          refine ⟨2, ?_⟩
          simp only [exec, hgb]
          rw [hdec, runList_append_same, hrun]
          have hstep : (match succEdgeOfTypeL cfg.edges j EdgeTy.goto with
              | some e2 => exec cfg 1 e2.tgt (upd r2 r0 (r2 ms))
              | none => some Outcome.stuck) = some o := by
            rw [hsucc]
            show exec cfg 1 e.tgt (upd r2 r0 (r2 ms)) = some o
            rw [htgt]
            simp only [exec, hgbI, hinsI, runList, Option.map_some']
            rw [hupd r2]
            exact ho
          exact hstep
      · have hgb2 : getBlk (cfg.updBlk srcId
            (fun l => l.dropLast ++ [.ret w (some ms)])) j
            = getBlk cfg j := getBlk_updBlk_ne cfg srcId _ j hj
        cases hgbj : getBlk cfg j with
        | none =>
          simp only [exec, hgb2, hgbj] at h
          exact ⟨1, by simp only [exec, hgbj]; exact h⟩
        | some bj =>
          simp only [exec, hgb2, hgbj, updBlk_edges] at h
          cases hrun : runList cfg.edges j bj.insns r with
          | done o2 =>
            rw [hrun] at h
            refine ⟨1, ?_⟩
            simp only [exec, hgbj]
            rw [hrun]
            exact h
          | jmp t r2 =>
            rw [hrun] at h
            obtain ⟨f2, hf2⟩ := ih t r2 o h
            refine ⟨f2 + 1, ?_⟩
            simp only [exec, hgbj]
            rw [hrun]
            exact hf2
          | fall r2 =>
            rw [hrun] at h
            cases hgo : succEdgeOfTypeL cfg.edges j .goto with
            | none =>
              rw [hgo] at h
              refine ⟨1, ?_⟩
              simp only [exec, hgbj]
              rw [hrun, hgo]
              exact h
            | some e2 =>
              rw [hgo] at h
              obtain ⟨f2, hf2⟩ := ih e2.tgt r2 o h
              refine ⟨f2 + 1, ?_⟩
              simp only [exec, hgbj]
              rw [hrun, hgo]
              exact hf2

/-- One edge of the scan fold preserves observable behavior and the
return-block invariant. -/
theorem processEdge_exec (w : Bool) (os : Option Nat) (prev : Option Nat)
    (st : ScanSt) (e : Edge) (i : Nat)
    (hout : OutEdgesUnique st.cfg) (hmem : e ∈ st.cfg.edges)
    (htgt : e.tgt = i)
    (hRB : RetBlockInv st.cfg i (.ret w os)) :
    SemEq st.cfg (processEdge (.ret w os) prev st e).cfg ∧
    RetBlockInv (processEdge (.ret w os) prev st e).cfg i (.ret w os) := by
  rcases processEdge_cases (.ret w os) prev st e with h | ⟨hty, _, h⟩ |
      ⟨hty, ms, hsome, h⟩
  · rw [h]
    exact ⟨semEq_refl _, hRB⟩
  · have hsucc : succEdgeOfTypeL st.cfg.edges e.src .goto = some e := by
      have h2 := succEdgeOfTypeL_of_mem st.cfg.edges hout e hmem (Or.inl hty)
      rwa [hty] at h2
    have hpair := appendRet_exec st.cfg e.src i w os e hsucc htgt hRB
    rw [h]
    refine ⟨semEq_of_exec _ _
      (fun fuel j r o hh => ⟨fuel, hpair.1 fuel j r o hh⟩) hpair.2, ?_⟩
    obtain ⟨b, rest, hgbI, hinsI, rr, hlastI, hretI⟩ := hRB
    by_cases hi : i = e.src
    · refine ⟨⟨b.bid, b.insns ++ [.ret w os]⟩, rest ++ [.ret w os], ?_, ?_,
        .ret w os, List.getLast?_concat _, rfl⟩
      · show getBlk (st.cfg.updBlk e.src (fun l => l ++ [.ret w os])) i
          = some ⟨b.bid, b.insns ++ [.ret w os]⟩
        rw [hi]
        exact getBlk_updBlk_self st.cfg e.src _ b (by rw [← hi]; exact hgbI)
      · show b.insns ++ [Insn.ret w os]
          = Insn.ret w os :: (rest ++ [.ret w os])
        rw [hinsI]
        rfl
    · refine ⟨b, rest, ?_, hinsI, rr, hlastI, hretI⟩
      show getBlk (st.cfg.updBlk e.src (fun l => l ++ [.ret w os])) i = some b
      rw [getBlk_updBlk_ne st.cfg e.src _ i hi]
      exact hgbI
  · obtain ⟨r0, sb, w2, hos, hgb, hlast⟩ :=
      trailingMoveOf_ret_inv st.cfg e.src w os ms hsome
    subst hos
    have hsucc : succEdgeOfTypeL st.cfg.edges e.src .goto = some e := by
      have h2 := succEdgeOfTypeL_of_mem st.cfg.edges hout e hmem (Or.inl hty)
      rwa [hty] at h2
    have hi : i ≠ e.src := by
      intro hie
      subst hie
      obtain ⟨b, rest, hgbI, hinsI, rr, hlastI, hretI⟩ := hRB
      rw [hgb] at hgbI
      have hbb : sb = b := Option.some.inj hgbI
      rw [← hbb, hlast] at hlastI
      have hmr : Insn.move w2 r0 ms = rr := Option.some.inj hlastI
      rw [← hmr] at hretI
      simp [isRet] at hretI
    have hpair := moveElim_exec st.cfg e.src i w w2 r0 ms e sb hsucc htgt
      hgb hlast hRB
    have hcfg2 : (st.cfg.updBlk e.src List.dropLast).updBlk e.src
        (fun l => l ++ [insnSetSrc0 (.ret w (some r0)) ms])
        = st.cfg.updBlk e.src (fun l => l.dropLast ++ [.ret w (some ms)]) := by
      rw [updBlk_updBlk]
      rfl
    rw [h]
    constructor
    · show SemEq st.cfg ((st.cfg.updBlk e.src List.dropLast).updBlk e.src
        (fun l => l ++ [insnSetSrc0 (.ret w (some r0)) ms]))
      rw [hcfg2]
      exact semEq_of_exec _ _
        (fun fuel j r o hh => ⟨fuel, hpair.1 fuel j r o hh⟩) hpair.2
    · obtain ⟨b, rest, hgbI, hinsI, rr, hlastI, hretI⟩ := hRB
      refine ⟨b, rest, ?_, hinsI, rr, hlastI, hretI⟩
      show getBlk ((st.cfg.updBlk e.src List.dropLast).updBlk e.src
        (fun l => l ++ [insnSetSrc0 (.ret w (some r0)) ms])) i = some b
      rw [hcfg2, getBlk_updBlk_ne st.cfg e.src _ i hi]
      exact hgbI

/-- One block of the scan preserves observable behavior. -/
theorem processBlock_exec (prev : Option Nat) (st : ScanSt) (i : Nat)
    (hout : OutEdgesUnique st.cfg) :
    SemEq st.cfg (processBlock prev st i).cfg := by
  rcases processBlock_cases prev st i with h | ⟨b, retI, hgb, hbi, hr, h⟩
  · rw [h]
    exact semEq_refl _
  · rw [h]
    cases retI with
    | ret w os =>
      have hstep : ∀ (st2 : ScanSt) (e : Edge), e ∈ predEdges st.cfg i →
          (st2.cfg.edges = st.cfg.edges ∧ SemEq st.cfg st2.cfg ∧
            RetBlockInv st2.cfg i (.ret w os)) →
          ((processEdge (.ret w os) prev st2 e).cfg.edges = st.cfg.edges ∧
            SemEq st.cfg (processEdge (.ret w os) prev st2 e).cfg ∧
            RetBlockInv (processEdge (.ret w os) prev st2 e).cfg i
              (.ret w os)) := by
        intro st2 e he hP
        obtain ⟨hE, hS, hR⟩ := hP
        have hmem : e ∈ st2.cfg.edges := by
          rw [hE]
          exact List.mem_of_mem_filter he
        have htgt : e.tgt = i := by
          have h2 := List.of_mem_filter he
          simpa using h2
        have hout2 : OutEdgesUnique st2.cfg := by
          unfold OutEdgesUnique at hout ⊢
          rw [hE]
          exact hout
        obtain ⟨hS2, hR2⟩ :=
          processEdge_exec w os prev st2 e i hout2 hmem htgt hR
        exact ⟨by rw [processEdge_edges, hE], semEq_trans hS hS2, hR2⟩
      have hinit : st.cfg.edges = st.cfg.edges ∧ SemEq st.cfg st.cfg ∧
          RetBlockInv st.cfg i (.ret w os) := by
        refine ⟨rfl, semEq_refl _, b, [], hgb, ?_, .ret w os, ?_, rfl⟩
        · rw [hbi]
        · rw [hbi]
          rfl
      exact (foldl_inv_mem (processEdge (.ret w os) prev)
        (fun st2 => st2.cfg.edges = st.cfg.edges ∧ SemEq st.cfg st2.cfg ∧
          RetBlockInv st2.cfg i (.ret w os))
        (predEdges st.cfg i) hstep st hinit).2.1
    | move ww d s => simp [isRet] at hr
    | ifbr c a ob => simp [isRet] at hr
    | other d ss cd => simp [isRet] at hr

/-- The scan never changes the edge list (only `deleteQueuedGo` does). -/
theorem processBlock_edges (prev : Option Nat) (st : ScanSt) (i : Nat) :
    (processBlock prev st i).cfg.edges = st.cfg.edges := by
  rcases processBlock_cases prev st i with h | ⟨b, retI, _, _, _, h⟩
  · rw [h]
  · rw [h]
    exact foldl_inv_mem (processEdge retI prev)
      (fun st2 => st2.cfg.edges = st.cfg.edges) (predEdges st.cfg i)
      (fun st2 e _ hP => by
        show (processEdge retI prev st2 e).cfg.edges = st.cfg.edges
        rw [processEdge_edges, hP]) st rfl

/-- The whole layout-order scan preserves observable behavior. -/
theorem scanGo_exec :
    ∀ (order : List Nat) (prev : Option Nat) (st : ScanSt),
      OutEdgesUnique st.cfg →
      SemEq st.cfg (scanGo prev order st).cfg := by
  intro order
  induction order with
  | nil => intro prev st _; exact semEq_refl _
  | cons i rest ih =>
    intro prev st hout
    show SemEq st.cfg (scanGo (some i) rest (processBlock prev st i)).cfg
    have h1 := processBlock_exec prev st i hout
    have hE : (processBlock prev st i).cfg.edges = st.cfg.edges :=
      processBlock_edges prev st i
    have hout2 : OutEdgesUnique (processBlock prev st i).cfg := by
      unfold OutEdgesUnique at hout ⊢
      rw [hE]
      exact hout
    exact semEq_trans h1 (ih (some i) (processBlock prev st i) hout2)

/-- One iteration of Optimization 2 (scan plus batch deletion) preserves
observable behavior and the at-most-one-GOTO/BRANCH-per-block contract. -/
theorem opt2Iter_exec (order : List Nat) (cfg : CFG) (stats : Stats)
    (hout : OutEdgesUnique cfg) (hinv : EdgeInvariant cfg)
    (hend : EidsNodup cfg) :
    SemEq cfg (opt2Iter order cfg stats).1 ∧
    OutEdgesUnique (opt2Iter order cfg stats).1 := by
  have hscan := scanGo_exec order none ⟨cfg, stats, false, []⟩ hout
  obtain ⟨hinv2, hq2, hE, hbids⟩ := scanGo_C6 order none
    ⟨cfg, stats, false, []⟩ hend hinv (by intro eid he; cases he)
  have hdel := deleteQueuedGo_exec
    (scanGo none order ⟨cfg, stats, false, []⟩).queue
    (scanGo none order ⟨cfg, stats, false, []⟩).cfg
    (scanGo none order ⟨cfg, stats, false, []⟩).stats hq2
  constructor
  · refine semEq_trans hscan ?_
    intro i r o
    constructor
    · intro hT
      obtain ⟨fuel, hf⟩ := hT
      refine ⟨fuel, ?_⟩
      show exec (deleteQueuedGo _ _ _).1 fuel i r = some o
      rw [hdel fuel i r]
      exact hf
    · intro hT
      obtain ⟨fuel, hf⟩ := hT
      have hf2 : exec (deleteQueuedGo
          (scanGo none order ⟨cfg, stats, false, []⟩).queue
          (scanGo none order ⟨cfg, stats, false, []⟩).cfg
          (scanGo none order ⟨cfg, stats, false, []⟩).stats).1 fuel i r
          = some o := hf
      rw [hdel fuel i r] at hf2
      exact ⟨fuel, hf2⟩
  · have hspec := (deleteQueuedGo_spec
      (scanGo none order ⟨cfg, stats, false, []⟩).queue
      (scanGo none order ⟨cfg, stats, false, []⟩).cfg
      (scanGo none order ⟨cfg, stats, false, []⟩).stats).1
    show OutEdgesUnique (deleteQueuedGo _ _ _).1
    unfold OutEdgesUnique at hout ⊢
    rw [hspec]
    refine List.Pairwise.sublist (List.filter_sublist _) ?_
    rw [hE]
    exact hout

/-- Optimization 2's fixpoint loop preserves observable behavior. -/
theorem opt2Loop_exec (order : List Nat) :
    ∀ (fuel : Nat) (cfg : CFG) (stats : Stats) (cfg' : CFG) (stats' : Stats),
      opt2Loop order fuel cfg stats = some (cfg', stats') →
      OutEdgesUnique cfg → EdgeInvariant cfg → BidsNodup cfg →
      EidsNodup cfg →
      SemEq cfg cfg' := by
  intro fuel
  induction fuel with
  | zero => intro cfg stats cfg' stats' h; cases h
  | succ f ih =>
    intro cfg stats cfg' stats' h hout hinv hbnd hend
    obtain ⟨hS, hout2⟩ := opt2Iter_exec order cfg stats hout hinv hend
    obtain ⟨g1, g2, g3⟩ := opt2Iter_C6 order cfg stats hinv hbnd hend
    have h2 : (if (opt2Iter order cfg stats).2.2 then
        opt2Loop order f (opt2Iter order cfg stats).1
          (opt2Iter order cfg stats).2.1
        else some ((opt2Iter order cfg stats).1,
          (opt2Iter order cfg stats).2.1)) = some (cfg', stats') := h
    by_cases hr : (opt2Iter order cfg stats).2.2 = true
    · rw [if_pos hr] at h2
      exact semEq_trans hS (ih (opt2Iter order cfg stats).1
        (opt2Iter order cfg stats).2.1 cfg' stats' h2 hout2 g1 g2 g3)
    · rw [if_neg hr] at h2
      have h3 : (opt2Iter order cfg stats).1 = cfg' :=
        congrArg Prod.fst (Option.some.inj h2)
      rw [← h3]
      exact hS

/-- Retargeting keeps sources and type tags, so it keeps the
at-most-one-GOTO/BRANCH-per-block contract. -/
theorem outEdgesUnique_setEdgeTarget (cfg : CFG) (eid nt : Nat)
    (h : OutEdgesUnique cfg) : OutEdgesUnique (setEdgeTarget cfg eid nt) := by
  unfold OutEdgesUnique at h ⊢
  rw [setEdgeTarget_edges]
  refine List.Pairwise.map _ ?_ h
  intro a b hab hcon
  apply hab
  rcases hcon with ⟨h1, h2, h3⟩
  rw [retargetFn_src, retargetFn_src] at h1
  rw [retargetFn_ty, retargetFn_ty] at h2
  rw [retargetFn_ty] at h3
  exact ⟨h1, h2, h3⟩

/-- The inversion rewrite keeps conditional branches out of block
interiors. -/
theorem noMidIf_updBlk_swap (cfg : CFG) (i : Nat) (b : Blk) (c : CondOp)
    (a : Nat) (ob : Option Nat) (hgb : getBlk cfg i = some b)
    (hnm : NoMidIf cfg) :
    NoMidIf (cfg.updBlk i
      (fun l => l.dropLast ++ [.ifbr (invertCond c) a ob])) := by
  intro b2 hb2 x hx
  rcases mem_updateBlkList cfg.blocks i _ b hgb b2 hb2 with h | h
  · exact hnm b2 h x hx
  · rw [h] at hx
    have hx2 : x ∈ b.insns.dropLast := by
      have h2 : (b.insns.dropLast
          ++ [Insn.ifbr (invertCond c) a ob]).dropLast
          = b.insns.dropLast := List.dropLast_concat
      rw [show (⟨b.bid, b.insns.dropLast
          ++ [Insn.ifbr (invertCond c) a ob]⟩ : Blk).insns
        = b.insns.dropLast ++ [Insn.ifbr (invertCond c) a ob] from rfl,
        h2] at hx
      exact hx
    exact hnm b (getBlk_mem cfg i b hgb) x hx2

/-- The inversion rewrite is invisible to execution, in fuel lockstep:
the inverted condition swaps which of the two paths is the branch taken
and which is the fallthrough, and the swapped edges send each path to the
destination the original block would have reached. -/
theorem swapStep_exec (cfg : CFG) (i : Nat) (b : Blk) (c : CondOp)
    (a : Nat) (ob : Option Nat) (ge be : Edge)
    (hnm : NoMidIf cfg) (hnd : EidsNodup cfg)
    (hgb : getBlk cfg i = some b)
    (hl : b.insns.getLast? = some (.ifbr c a ob))
    (hg : succEdgeOfType cfg i .goto = some ge)
    (hb2 : succEdgeOfType cfg i .branch = some be) :
    ∀ fuel j r, exec (setEdgeTarget (setEdgeTarget (cfg.updBlk i
      (fun l => l.dropLast ++ [.ifbr (invertCond c) a ob])) be.eid ge.tgt)
      ge.eid be.tgt) fuel j r = exec cfg fuel j r := by
  have hfacts := swapStep_facts cfg i
    (fun l => l.dropLast ++ [.ifbr (invertCond c) a ob]) ge be hnd hg hb2
  have hself := swap_succ_self cfg i
    (fun l => l.dropLast ++ [.ifbr (invertCond c) a ob]) ge be hnd hg hb2
  have hblk2 : getBlk (setEdgeTarget (setEdgeTarget (cfg.updBlk i
      (fun l => l.dropLast ++ [.ifbr (invertCond c) a ob])) be.eid ge.tgt)
      ge.eid be.tgt) i
      = some ⟨b.bid, b.insns.dropLast ++ [.ifbr (invertCond c) a ob]⟩ := by
    rw [getBlk_setEdgeTarget, getBlk_setEdgeTarget]
    exact getBlk_updBlk_self cfg i _ b hgb
  have hdec : b.insns = b.insns.dropLast ++ [Insn.ifbr c a ob] :=
    (List.dropLast_append_getLast? _ hl).symm
  have hnoif : ∀ x ∈ b.insns.dropLast, isIfbr x = false :=
    hnm b (getBlk_mem cfg i b hgb)
  intro fuel
  induction fuel with
  | zero => intro j r; rfl
  | succ f ih =>
    intro j r
    by_cases hj : j = i
    · subst hj
      simp only [exec, hblk2, hgb]
      have hrunNew : runList (setEdgeTarget (setEdgeTarget (cfg.updBlk j
          (fun l => l.dropLast ++ [.ifbr (invertCond c) a ob])) be.eid
          ge.tgt) ge.eid be.tgt).edges j
          (b.insns.dropLast ++ [.ifbr (invertCond c) a ob]) r
          = match runList cfg.edges j b.insns.dropLast r with
            | .fall r2 => runList (setEdgeTarget (setEdgeTarget (cfg.updBlk j
                (fun l => l.dropLast ++ [.ifbr (invertCond c) a ob])) be.eid
                ge.tgt) ge.eid be.tgt).edges j
                [.ifbr (invertCond c) a ob] r2
            | res => res := by
        rw [runList_append_same,
          runList_no_ifbr _ cfg.edges j j b.insns.dropLast r hnoif]
      have hrunOld : runList cfg.edges j b.insns r
          = match runList cfg.edges j b.insns.dropLast r with
            | .fall r2 => runList cfg.edges j [.ifbr c a ob] r2
            | res => res := by
        conv_lhs => rw [hdec]
        rw [runList_append_same]
      cases hdl : runList cfg.edges j b.insns.dropLast r with
      | done o =>
        rw [hdl] at hrunNew hrunOld
        have h1 : runList (setEdgeTarget (setEdgeTarget (cfg.updBlk j
            (fun l => l.dropLast ++ [.ifbr (invertCond c) a ob])) be.eid
            ge.tgt) ge.eid be.tgt).edges j
            (b.insns.dropLast ++ [.ifbr (invertCond c) a ob]) r
            = .done o := hrunNew
        have h2 : runList cfg.edges j b.insns r = .done o := hrunOld
        rw [h1, h2]
      | jmp t r2 =>
        rw [hdl] at hrunNew hrunOld
        have h1 : runList (setEdgeTarget (setEdgeTarget (cfg.updBlk j
            (fun l => l.dropLast ++ [.ifbr (invertCond c) a ob])) be.eid
            ge.tgt) ge.eid be.tgt).edges j
            (b.insns.dropLast ++ [.ifbr (invertCond c) a ob]) r
            = .jmp t r2 := hrunNew
        have h2 : runList cfg.edges j b.insns r = .jmp t r2 := hrunOld
        rw [h1, h2]
        exact ih t r2
      | fall r2 =>
        rw [hdl] at hrunNew hrunOld
        have h1 : runList (setEdgeTarget (setEdgeTarget (cfg.updBlk j
            (fun l => l.dropLast ++ [.ifbr (invertCond c) a ob])) be.eid
            ge.tgt) ge.eid be.tgt).edges j
            (b.insns.dropLast ++ [.ifbr (invertCond c) a ob]) r
            = runList (setEdgeTarget (setEdgeTarget (cfg.updBlk j
              (fun l => l.dropLast ++ [.ifbr (invertCond c) a ob])) be.eid
              ge.tgt) ge.eid be.tgt).edges j
              [.ifbr (invertCond c) a ob] r2 := hrunNew
        have h2 : runList cfg.edges j b.insns r
            = runList cfg.edges j [.ifbr c a ob] r2 := hrunOld
        rw [h1, h2]
        by_cases hev : evalIf c a ob r2 = true
        · have hL2 : runList (setEdgeTarget (setEdgeTarget (cfg.updBlk j
              (fun l => l.dropLast ++ [.ifbr (invertCond c) a ob])) be.eid
              ge.tgt) ge.eid be.tgt).edges j
              [Insn.ifbr (invertCond c) a ob] r2 = .fall r2 := by
            have hev2 : ¬(evalIf (invertCond c) a ob r2 = true) := by
              rw [evalIf_invert, hev]
              simp
            simp only [runList]
            rw [if_neg hev2]
          have hR2 : runList cfg.edges j [Insn.ifbr c a ob] r2
              = .jmp be.tgt r2 := by
            simp only [runList]
            rw [if_pos hev, show succEdgeOfTypeL cfg.edges j EdgeTy.branch
              = some be from hb2]
          rw [hL2, hR2]
          rw [show succEdgeOfTypeL (setEdgeTarget (setEdgeTarget
              (cfg.updBlk j (fun l => l.dropLast
                ++ [.ifbr (invertCond c) a ob])) be.eid ge.tgt) ge.eid
              be.tgt).edges j EdgeTy.goto
            = some ⟨ge.eid, ge.src, be.tgt, .goto⟩ from hself.1]
          exact ih be.tgt r2
        · have hL2 : runList (setEdgeTarget (setEdgeTarget (cfg.updBlk j
              (fun l => l.dropLast ++ [.ifbr (invertCond c) a ob])) be.eid
              ge.tgt) ge.eid be.tgt).edges j
              [Insn.ifbr (invertCond c) a ob] r2
              = .jmp ge.tgt r2 := by
            have hev2 : evalIf (invertCond c) a ob r2 = true := by
              rw [evalIf_invert]
              rw [show evalIf c a ob r2 = false from by
                cases hx : evalIf c a ob r2
                · rfl
                · exact absurd hx hev]
              rfl
            simp only [runList]
            rw [if_pos hev2, show succEdgeOfTypeL (setEdgeTarget
              (setEdgeTarget (cfg.updBlk j (fun l => l.dropLast
                ++ [.ifbr (invertCond c) a ob])) be.eid ge.tgt) ge.eid
              be.tgt).edges j EdgeTy.branch
              = some ⟨be.eid, be.src, ge.tgt, .branch⟩ from hself.2]
          have hR2 : runList cfg.edges j [Insn.ifbr c a ob] r2
              = .fall r2 := by
            simp only [runList]
            rw [if_neg hev]
          rw [hL2, hR2]
          rw [show succEdgeOfTypeL cfg.edges j EdgeTy.goto = some ge
            from hg]
          exact ih ge.tgt r2
    · have hgb2 : getBlk (setEdgeTarget (setEdgeTarget (cfg.updBlk i
          (fun l => l.dropLast ++ [.ifbr (invertCond c) a ob])) be.eid
          ge.tgt) ge.eid be.tgt) j = getBlk cfg j := hfacts.2.2 j hj
      cases hgbj : getBlk cfg j with
      | none => simp only [exec, hgb2, hgbj]
      | some bj =>
        simp only [exec, hgb2, hgbj]
        have hbr : succEdgeOfTypeL (setEdgeTarget (setEdgeTarget
            (cfg.updBlk i (fun l => l.dropLast
              ++ [.ifbr (invertCond c) a ob])) be.eid ge.tgt) ge.eid
            be.tgt).edges j .branch
            = succEdgeOfTypeL cfg.edges j .branch := hfacts.2.1 j hj .branch
        rw [runList_cong_branch _ cfg.edges j hbr bj.insns r]
        cases hrun : runList cfg.edges j bj.insns r with
        | done o => rfl
        | jmp t r2 => exact ih t r2
        | fall r2 =>
          rw [show succEdgeOfTypeL (setEdgeTarget (setEdgeTarget
              (cfg.updBlk i (fun l => l.dropLast
                ++ [.ifbr (invertCond c) a ob])) be.eid ge.tgt) ge.eid
              be.tgt).edges j EdgeTy.goto
            = succEdgeOfTypeL cfg.edges j EdgeTy.goto
            from hfacts.2.1 j hj .goto]
          cases hgo : succEdgeOfTypeL cfg.edges j .goto with
          | none => rfl
          | some e2 => exact ih e2.tgt r2

/-- The Optimization 1 sweep preserves execution exactly (same fuel) and
the structural contracts it relies on. -/
theorem opt1Go_exec :
    ∀ (ids : List Nat) (cfg : CFG) (s : Stats) (cfg1 : CFG) (s1 : Stats),
      opt1Go ids (cfg, s) = .ok (cfg1, s1) →
      NoMidIf cfg → EidsNodup cfg → OutEdgesUnique cfg →
      (∀ fuel j r, exec cfg1 fuel j r = exec cfg fuel j r) ∧
      NoMidIf cfg1 ∧ EidsNodup cfg1 ∧ OutEdgesUnique cfg1 := by
  intro ids
  induction ids with
  | nil =>
    intro cfg s cfg1 s1 h hnm hnd hout
    have h2 : (cfg, s) = (cfg1, s1) := Except.ok.inj h
    have hc : cfg = cfg1 := congrArg Prod.fst h2
    subst hc
    exact ⟨fun _ _ _ => rfl, hnm, hnd, hout⟩
  | cons i rest ih =>
    intro cfg s cfg1 s1 h hnm hnd hout
    unfold opt1Go at h
    rcases opt1Block_cases (cfg, s) i with hid | ⟨b, c, a, ob, ge, be,
        hgb, hl, hg, hb2, hc1, hc2, hsw⟩ | herr
    · rw [hid] at h
      exact ih cfg s cfg1 s1 h hnm hnd hout
    · rw [hsw] at h
      have hnd2 : EidsNodup (setEdgeTarget (setEdgeTarget (cfg.updBlk i
          (fun l => l.dropLast ++ [.ifbr (invertCond c) a ob])) be.eid
          ge.tgt) ge.eid be.tgt) := by
        apply eidsNodup_setEdgeTarget
        apply eidsNodup_setEdgeTarget
        unfold EidsNodup at hnd ⊢
        rwa [show (cfg.updBlk i (fun l => l.dropLast
          ++ [.ifbr (invertCond c) a ob])).edges = cfg.edges from rfl]
      have hnm2 : NoMidIf (setEdgeTarget (setEdgeTarget (cfg.updBlk i
          (fun l => l.dropLast ++ [.ifbr (invertCond c) a ob])) be.eid
          ge.tgt) ge.eid be.tgt) :=
        noMidIf_updBlk_swap cfg i b c a ob hgb hnm
      have hout2 : OutEdgesUnique (setEdgeTarget (setEdgeTarget
          (cfg.updBlk i (fun l => l.dropLast
            ++ [.ifbr (invertCond c) a ob])) be.eid ge.tgt) ge.eid
          be.tgt) := by
        apply outEdgesUnique_setEdgeTarget
        apply outEdgesUnique_setEdgeTarget
        exact hout
      obtain ⟨e1, e2, e3, e4⟩ := ih _ s.incInverted cfg1 s1 h hnm2 hnd2 hout2
      refine ⟨?_, e2, e3, e4⟩
      intro fuel j r
      rw [e1 fuel j r,
        swapStep_exec cfg i b c a ob ge be hnm hnd hgb hl hg hb2 fuel j r]
    · rw [herr] at h
      exact Except.noConfusion h

/-- A CFG the pass transforms: blocks 0 and 1 both jump to the shared
return block 2; the scan folds the return into block 0 (block 1 is the
layout fallthrough and is skipped) and deletes block 0's GOTO edge. -/
def c9cfg : CFG :=
  ⟨[⟨0, [.other 5 [] 3]⟩, ⟨1, [.other 6 [] 4]⟩, ⟨2, [.ret false none]⟩],
   [⟨20, 0, 2, .goto⟩, ⟨21, 1, 2, .goto⟩]⟩

/-- The pass's output on `c9cfg`. -/
def c9res : CFG :=
  ⟨[⟨0, [.other 5 [] 3, .ret false none]⟩, ⟨1, [.other 6 [] 4]⟩,
    ⟨2, [.ret false none]⟩],
   [⟨21, 1, 2, .goto⟩]⟩

/-- C9: the pass never changes program semantics, only jump structure.
On a well-formed CFG (conditional branches only terminate blocks, edge
handles and block ids are distinct, at most one GOTO and one BRANCH edge
leave a block, and branch-terminated blocks have both), a successful run
of `process_code` yields a CFG with identical observable behavior: from
every entry block and register file, the input terminates with an outcome
exactly when the output terminates with that same outcome. -/
theorem claim_C9 (orderFn : CFG → List Nat) (cfg cfg' : CFG) (st : Stats)
    (hnm : NoMidIf cfg) (hnd : EidsNodup cfg) (hbnd : BidsNodup cfg)
    (hout : OutEdgesUnique cfg) (hinv : EdgeInvariant cfg)
    (h : process_code orderFn cfg = .ok (cfg', st)) :
    SemEq cfg cfg' := by
  unfold process_code at h
  rcases h1 : opt1 cfg ⟨0, 0, 0⟩ with e | ⟨c1, s1⟩
  · rw [h1] at h
    exact Except.noConfusion h
  · rw [h1] at h
    obtain ⟨e1, e2, e3, e4⟩ := opt1Go_exec (cfg.blocks.map Blk.bid) cfg
      ⟨0, 0, 0⟩ c1 s1 h1 hnm hnd hout
    obtain ⟨c1x, s1x, hok, hinvx⟩ :=
      opt1Go_inv (cfg.blocks.map Blk.bid) cfg ⟨0, 0, 0⟩ hinv
    have hco : c1x = c1 := by
      have h3 := hok.symm.trans h1
      exact congrArg Prod.fst (Except.ok.inj h3)
    rw [hco] at hinvx
    obtain ⟨hb1, -⟩ := opt1Go_nodups (cfg.blocks.map Blk.bid) cfg
      ⟨0, 0, 0⟩ c1 s1 h1 hbnd hnd
    have h' : (match opt2Loop (orderFn c1) (moveCount c1 + 1) c1 s1 with
        | some r => Except.ok r
        | none => (Except.error .fuelExhausted : Except PErr (CFG × Stats)))
        = Except.ok (cfg', st) := h
    rcases h2 : opt2Loop (orderFn c1) (moveCount c1 + 1) c1 s1
      with _ | ⟨c2, s2⟩
    · rw [h2] at h'
      exact Except.noConfusion h'
    · rw [h2] at h'
      have hpair : (c2, s2) = (cfg', st) := Except.ok.inj h'
      have hc2 : c2 = cfg' := congrArg Prod.fst hpair
      have hS1 : SemEq cfg c1 := by
        intro i r o
        constructor
        · intro hT
          obtain ⟨fuel, hf⟩ := hT
          exact ⟨fuel, by rw [e1 fuel i r]; exact hf⟩
        · intro hT
          obtain ⟨fuel, hf⟩ := hT
          exact ⟨fuel, by rw [← e1 fuel i r]; exact hf⟩
      have hS2 : SemEq c1 c2 := opt2Loop_exec (orderFn c1)
        (moveCount c1 + 1) c1 s1 c2 s2 h2 e4 hinvx hb1 e3
      rw [← hc2]
      exact semEq_trans hS1 hS2

/-- Witness for C9: `c9cfg` satisfies every well-formedness hypothesis,
the pass transforms it (folding a return and deleting an edge), and the
theorem yields observable equivalence of input and output. -/
theorem claim_C9_witness :
    (NoMidIf c9cfg ∧ EidsNodup c9cfg ∧ BidsNodup c9cfg ∧
     OutEdgesUnique c9cfg ∧ EdgeInvariant c9cfg) ∧
    process_code (fun c => c.blocks.map Blk.bid) c9cfg
      = .ok (c9res, ⟨1, 0, 0⟩) ∧
    SemEq c9cfg c9res :=
  ⟨⟨by unfold NoMidIf; decide, by unfold EidsNodup; decide,
    by unfold BidsNodup; decide, by unfold OutEdgesUnique; decide,
    by unfold EdgeInvariant; decide⟩, rfl,
   claim_C9 (fun c => c.blocks.map Blk.bid) c9cfg c9res ⟨1, 0, 0⟩
     (by unfold NoMidIf; decide) (by unfold EidsNodup; decide)
     (by unfold BidsNodup; decide) (by unfold OutEdgesUnique; decide)
     (by unfold EdgeInvariant; decide) rfl⟩

end ReduceGotos
